import Mathlib

/-! Class-based bigram clustering (`bigram.cpp`): embedding and verification.

The program reads a stream of word identifiers, builds bigram statistics,
assigns every word to a cluster and then runs an exchange algorithm that
moves one word at a time to the cluster with the best score.

Modelling conventions.

* `std::vector<int>` is a `List Int`; `v[i]` is `vget v i`, `v[i] += d` is
  `vadd v i d`.  A matrix `std::vector<std::vector<int>>` is a
  `List (List Int)` with `mget` and `madd`.
* `std::unordered_map<int32_t, int>` is an association list
  `List (Nat × Int)`; the order of the list is the enumeration order.
  `find` is `mapFind`, `map[k] = 1` on an absent key appends an entry,
  `++entry->second` is `mapIncr`, and `operator[]` (which inserts a zero
  entry when the key is absent) is `mapIndex`.
* Word and cluster identifiers are natural numbers (the claims are about
  in-range identifiers); counts are `int` in the source and `Int` here.
  The counts of a stream of `n` tokens are bounded by `n`, so the model is
  exact for streams that do not overflow a 32-bit `int`.
* `float` values (scores, the objective) live in a type `α` that carries the
  operations the program uses on them (`0`, `2`, `+`, `-`, `*`, `<`), with
  the entropy function `entropy : Int → α` a parameter.  `Binary32` is the
  arithmetic of the program: every operation is rounded to the nearest
  binary32 number.  A linearly ordered commutative ring gives exact
  arithmetic; it is assumed where a statement is about the exact objective.
* The pseudo-random initial assignment is a parameter `init : List Nat`.
-/

namespace Bigram

/-! ## Vectors and matrices -/

/-- Read `v[i]` from a vector of `int`. -/
def vget (v : List Int) (i : Nat) : Int := v.getD i 0

/-- The update `v[i] += d`. -/
def vadd (v : List Int) (i : Nat) (d : Int) : List Int := v.set i (vget v i + d)

/-- Read `m[i][j]` from a matrix of `int`. -/
def mget (m : List (List Int)) (i j : Nat) : Int := vget (m.getD i []) j

/-- The update `m[i][j] += d`. -/
def madd (m : List (List Int)) (i j : Nat) (d : Int) : List (List Int) :=
  m.set i (vadd (m.getD i []) j d)

/-! ## Hash maps as association lists -/

/-- The lookup `map.find(k)`: the value stored under `k`, if any. -/
def mapFind : List (Nat × Int) → Nat → Option Int
  | [], _ => none
  | (k1, v) :: rest, k => if k1 = k then some v else mapFind rest k

/-- The update `++entry->second` for the entry found under key `k`. -/
def mapIncr : List (Nat × Int) → Nat → List (Nat × Int)
  | [], _ => []
  | (k1, v) :: rest, k => if k1 = k then (k1, v + 1) :: rest else (k1, v) :: mapIncr rest k

/-- The access `map[k]` of `std::unordered_map`: returns the stored value, and
inserts a zero entry when the key is absent. -/
def mapIndex (m : List (Nat × Int)) (k : Nat) : Int × List (Nat × Int) :=
  match mapFind m k with
  | some v => (v, m)
  | none => (0, m ++ [(k, 0)])

/-! ## Entropy table (lines 18-43) -/

/-- The method `CachedEntropy::eval`: `n * log(n)`, with `log` standing for
`std::log` on the integers. -/
def CachedEntropy.eval {α : Type} [LinearOrderedCommRing α] (log : Int → α) (n : Int) : α :=
  (n : α) * log n

/-- The array `cache` after the constructor of `CachedEntropy<max>` has run. -/
def CachedEntropy.cache {α : Type} [LinearOrderedCommRing α] (log : Int → α) (max : Nat) :
    List α :=
  (List.range max).map
    (fun n : Nat => if n = 0 then 0 else CachedEntropy.eval log (Int.ofNat n))

/-- The call `entropy(n)` (`operator()`) of `CachedEntropy<max>`, for `n ≥ 0`. -/
def CachedEntropy.call {α : Type} [LinearOrderedCommRing α] (log : Int → α) (max : Nat)
    (n : Int) : α :=
  if n < (max : Int) then (CachedEntropy.cache log max).getD n.toNat 0
  else CachedEntropy.eval log n

/-! ## Binary32 arithmetic (the type `float`) -/

/-- A finite binary32 number (the C++ `float` of an IEEE-754 platform), held
as the integer `units` with value `units * 2^(-149)`: every finite binary32
number, subnormal or normal, is such a multiple.  Infinities and NaN are not
represented. -/
structure Binary32 where
  units : Int
  deriving DecidableEq

/-- The quotient `n / 2^k` rounded to the nearest integer, ties to the even
one. -/
def roundShift (n k : Nat) : Nat :=
  let q := n / 2 ^ k
  let r := n % 2 ^ k
  if 2 * r < 2 ^ k then q
  else if 2 ^ k < 2 * r then q + 1
  else if q % 2 = 0 then q else q + 1

/-- The number of halvings that bring `n` below `2^24`, with at most `fuel`
halvings. -/
def Binary32.excessBitsAux : Nat → Nat → Nat
  | 0, _ => 0
  | fuel + 1, n => if n < 2 ^ 24 then 0 else Binary32.excessBitsAux fuel (n / 2) + 1

/-- The number of low bits of `n` beyond a significand of 24 bits: the least
`k` with `n < 2^(24 + k)`. -/
def Binary32.excessBits (n : Nat) : Nat :=
  Binary32.excessBitsAux n n

/-- Rounding of the exact value `x * 2^(-149)` to binary32: round to nearest,
ties to even, with 24 significant bits (overflow is not modelled). -/
def Binary32.round (x : Int) : Binary32 :=
  let n := x.natAbs
  let k := Binary32.excessBits n
  let m := roundShift n k * 2 ^ k
  { units := if x < 0 then -(m : Int) else (m : Int) }

/-- Rounding of the exact value `x * 2^(-298)`, the scale of a product of two
binary32 numbers, to binary32. -/
def Binary32.roundProduct (x : Int) : Binary32 :=
  let n := x.natAbs
  let k := max (Binary32.excessBits n) 149
  let m := roundShift n k * 2 ^ (k - 149)
  { units := if x < 0 then -(m : Int) else (m : Int) }

/-- The value `0.0f`. -/
instance : Zero Binary32 := ⟨{ units := 0 }⟩

/-- The `float` addition: the exact sum, rounded. -/
instance : Add Binary32 := ⟨fun a b => Binary32.round (a.units + b.units)⟩

/-- The `float` subtraction: the exact difference, rounded. -/
instance : Sub Binary32 := ⟨fun a b => Binary32.round (a.units - b.units)⟩

/-- The `float` multiplication: the exact product, rounded. -/
instance : Mul Binary32 := ⟨fun a b => Binary32.roundProduct (a.units * b.units)⟩

/-- The value `2.0f`, to which the `int` 2 of `2 * entropy(u)` is converted. -/
instance : OfNat Binary32 2 := ⟨{ units := 2 ^ 150 }⟩

/-- The order of `float` on finite values: the order of the numbers. -/
instance : LinearOrder Binary32 :=
  LinearOrder.lift' Binary32.units (fun a b h => by cases a; cases b; cases h; rfl)

/-- The four buffers of global statistics. -/
structure CorpusStatistics where
  word_count : List Int
  double_word_count : List Int
  successors : List (List (Nat × Int))
  predecessors : List (List Nat)
  deriving DecidableEq, Repr

/-- The buffers as allocated: `num_words` zero counters and empty maps. -/
def allocStatistics (num_words : Nat) : CorpusStatistics :=
  { word_count := List.replicate num_words 0
    double_word_count := List.replicate num_words 0
    successors := List.replicate num_words []
    predecessors := List.replicate num_words [] }

/-- One iteration of the streaming loop for the bigram `(word, next_word)`
(lines 110-122). -/
def countBigram (st : CorpusStatistics) (word next_word : Nat) : CorpusStatistics :=
  let wc := vadd st.word_count word 1
  let dwc := if word = next_word then vadd st.double_word_count word 1
             else st.double_word_count
  let map := st.successors.getD word []
  match mapFind map next_word with
  | none =>
      { word_count := wc
        double_word_count := dwc
        successors := st.successors.set word (map ++ [(next_word, 1)])
        predecessors :=
          st.predecessors.set next_word (st.predecessors.getD next_word [] ++ [word]) }
  | some _ =>
      { word_count := wc
        double_word_count := dwc
        successors := st.successors.set word (mapIncr map next_word)
        predecessors := st.predecessors }

/-- The `while (true)` loop of lines 99-123: `next_word` is the token read
last, the list holds the tokens still in the file. -/
def streamLoop : Nat → List Nat → CorpusStatistics → CorpusStatistics
  | next_word, [], st => { st with word_count := vadd st.word_count next_word 1 }
  | word, next_word :: rest, st => streamLoop next_word rest (countBigram st word next_word)

/-- The statistics of a token stream (lines 92-127). -/
def buildStatistics (num_words : Nat) : List Nat → CorpusStatistics
  | [] => allocStatistics num_words
  | first :: rest => streamLoop first rest (allocStatistics num_words)

/-- The value stored in `successors[w]` under `w2`, if the key is present. -/
def successorEntry (st : CorpusStatistics) (w w2 : Nat) : Option Int :=
  mapFind (st.successors.getD w []) w2

/-- The count `successors[w][w2]`, zero when the key is absent. -/
def successorCount (st : CorpusStatistics) (w w2 : Nat) : Int :=
  (successorEntry st w w2).getD 0

/-- The adjacent pairs (bigrams) of a stream, in order. -/
def bigrams (s : List Nat) : List (Nat × Nat) := s.zip s.tail

/-! ## Cluster state (lines 80-88, 129-145) -/

/-- The assignment and the aggregated counts of the clusters. -/
structure ClusterState where
  clusters : List Nat
  unary_cluster_count : List Int
  binary_cluster_count : List (List Int)
  deriving DecidableEq, Repr

/-- The cluster buffers after the random assignment of lines 130-137:
`draw word` is the value the generator returns for `word`; the counts are
still zero. -/
def assignClusters (num_words num_clusters : Nat) (draw : Nat → Nat) : ClusterState :=
  { clusters := (List.range num_words).map draw
    unary_cluster_count := List.replicate num_clusters 0
    binary_cluster_count := List.replicate num_clusters (List.replicate num_clusters 0) }

/-- The body of the loop of lines 140-145 for one word. -/
def initWord (stats : CorpusStatistics) (cs : ClusterState) (word : Nat) : ClusterState :=
  let c := cs.clusters.getD word 0
  { clusters := cs.clusters
    unary_cluster_count := vadd cs.unary_cluster_count c (vget stats.word_count word)
    binary_cluster_count :=
      (stats.successors.getD word []).foldl
        (fun b entry => madd b c (cs.clusters.getD entry.1 0) entry.2)
        cs.binary_cluster_count }

/-- The loop of lines 140-145: aggregate the counts of the assignment. -/
def initClusterCount (stats : CorpusStatistics) (num_words : Nat) (cs : ClusterState) :
    ClusterState :=
  (List.range num_words).foldl (initWord stats) cs

/-- The cluster state when the optimizer starts (lines 130-145). -/
def initialState (stats : CorpusStatistics) (num_words num_clusters : Nat)
    (draw : Nat → Nat) : ClusterState :=
  initClusterCount stats num_words (assignClusters num_words num_clusters draw)

/-! ## One reassignment step (lines 163-223) -/

/-- One iteration of the loop of lines 170-171: the access
`successors[predecessor][word]` goes through `operator[]`, so the successor
maps are threaded through. -/
def gatherPredecessor (clusters : List Nat) (word : Nat)
    (acc : List (List (Nat × Int)) × List Int) (predecessor : Nat) :
    List (List (Nat × Int)) × List Int :=
  let r := mapIndex (acc.1.getD predecessor []) word
  (acc.1.set predecessor r.2, vadd acc.2 (clusters.getD predecessor 0) r.1)

/-- The profiles of a word (lines 166-173): the statistics after the accesses,
the predecessor profile and the successor profile. -/
def gatherProfiles (stats : CorpusStatistics) (clusters : List Nat) (num_clusters word : Nat) :
    CorpusStatistics × List Int × List Int :=
  let zero : List Int := List.replicate num_clusters 0
  let p := (stats.predecessors.getD word []).foldl (gatherPredecessor clusters word)
    (stats.successors, zero)
  let succ := (p.1.getD word []).foldl
    (fun acc entry => vadd acc (clusters.getD entry.1 0) entry.2) zero
  ({ stats with successors := p.1 }, p.2, succ)

/-- The body of the loop of lines 176-180 for one cluster. -/
def removeFromRow (old : Nat) (pred succ : List Int) (binary : List (List Int))
    (cluster : Nat) : List (List Int) :=
  if cluster ≠ old then
    madd (madd binary cluster old (-(vget pred cluster))) old cluster (-(vget succ cluster))
  else binary

/-- The counts and the corrected profiles once the word is removed from its
cluster (lines 176-184).  The assignment itself is not touched. -/
def removeWord (stats : CorpusStatistics) (cs : ClusterState) (num_clusters word : Nat)
    (pred succ : List Int) : ClusterState × List Int × List Int :=
  let old := cs.clusters.getD word 0
  let b1 := (List.range num_clusters).foldl (removeFromRow old pred succ)
    cs.binary_cluster_count
  let unary := vadd cs.unary_cluster_count old (-(vget stats.word_count word))
  let b2 := madd b1 old old
    (vget stats.double_word_count word - vget pred old - vget succ old)
  let pred1 := vadd pred old (-(vget stats.double_word_count word))
  let succ1 := vadd succ old (-(vget stats.double_word_count word))
  ({ clusters := cs.clusters, unary_cluster_count := unary, binary_cluster_count := b2 },
    pred1, succ1)

/-- The body of the inner loop of lines 190-198 for one cluster. -/
def scoreTerm {α : Type} [Add α] [Sub α] (entropy : Int → α)
    (binary : List (List Int)) (pred succ : List Int) (candidate_cluster : Nat)
    (perplexity : α) (cluster : Nat) : α :=
  if cluster ≠ candidate_cluster then
    let p := mget binary cluster candidate_cluster + vget pred cluster
    let s := mget binary candidate_cluster cluster + vget succ cluster
    perplexity + entropy p - entropy (mget binary cluster candidate_cluster)
      + entropy s - entropy (mget binary candidate_cluster cluster)
  else perplexity

/-- The score of one candidate cluster (lines 189-205), accumulated in the
order of the source with the operations of `α`. -/
def candidateScore {α : Type} [Zero α] [Add α] [Sub α] [Mul α] [OfNat α 2] (entropy : Int → α)
    (stats : CorpusStatistics) (cs : ClusterState) (num_clusters word : Nat)
    (pred succ : List Int) (candidate_cluster : Nat) : α :=
  let binary := cs.binary_cluster_count
  let perplexity := (List.range num_clusters).foldl
    (scoreTerm entropy binary pred succ candidate_cluster) 0
  let u := vget cs.unary_cluster_count candidate_cluster + vget stats.word_count word
  let d := mget binary candidate_cluster candidate_cluster + vget succ candidate_cluster
    + vget pred candidate_cluster + vget stats.double_word_count word
  perplexity - 2 * entropy u + 2 * entropy (vget cs.unary_cluster_count candidate_cluster)
    + entropy d - entropy (mget binary candidate_cluster candidate_cluster)

/-- The vector `perplexities` after the loop of lines 188-206. -/
def perplexities {α : Type} [Zero α] [Add α] [Sub α] [Mul α] [OfNat α 2] (entropy : Int → α)
    (stats : CorpusStatistics) (cs : ClusterState) (num_clusters word : Nat)
    (pred succ : List Int) : List α :=
  (List.range num_clusters).map (candidateScore entropy stats cs num_clusters word pred succ)

/-- The scan of `std::max_element`: `largest` is the index of the best element
so far, `best` its value, `i` the index of the head of the remaining list. -/
def maxElementFrom {α : Type} [LinearOrder α] : List α → Nat → α → Nat → Nat
  | [], largest, _, _ => largest
  | x :: rest, largest, best, i =>
      if best < x then maxElementFrom rest i x (i + 1)
      else maxElementFrom rest largest best (i + 1)

/-- The index `std::max_element(v.begin(), v.end()) - v.begin()`. -/
def max_element {α : Type} [LinearOrder α] : List α → Nat
  | [] => 0
  | x :: rest => maxElementFrom rest 0 x 1

/-- The body of the loop of lines 210-214 for one cluster. -/
def insertIntoRow (assigned_cluster : Nat) (pred succ : List Int) (binary : List (List Int))
    (cluster : Nat) : List (List Int) :=
  if cluster ≠ assigned_cluster then
    madd (madd binary cluster assigned_cluster (vget pred cluster))
      assigned_cluster cluster (vget succ cluster)
  else binary

/-- The counts once the word is inserted into `assigned_cluster`
(lines 210-216).  The assignment itself is not touched. -/
def insertWord (stats : CorpusStatistics) (cs : ClusterState) (num_clusters word : Nat)
    (pred succ : List Int) (assigned_cluster : Nat) : ClusterState :=
  let b1 := (List.range num_clusters).foldl (insertIntoRow assigned_cluster pred succ)
    cs.binary_cluster_count
  let unary := vadd cs.unary_cluster_count assigned_cluster (vget stats.word_count word)
  let b2 := madd b1 assigned_cluster assigned_cluster
    (vget succ assigned_cluster + vget pred assigned_cluster
      + vget stats.double_word_count word)
  { clusters := cs.clusters, unary_cluster_count := unary, binary_cluster_count := b2 }

/-- The swap check of lines 219-222. -/
def recordAssignment (cs : ClusterState) (word assigned_cluster : Nat) : ClusterState × Bool :=
  if assigned_cluster ≠ cs.clusters.getD word 0 then
    ({ cs with clusters := cs.clusters.set word assigned_cluster }, true)
  else (cs, false)

/-- Steps 1 and 2 (lines 165-184): the statistics after the accesses, the
counts with `word` removed, and the corrected predecessor and successor
profiles. -/
def gatherAndRemove (stats : CorpusStatistics) (cs : ClusterState) (num_clusters word : Nat) :
    CorpusStatistics × ClusterState × List Int × List Int :=
  let g := gatherProfiles stats cs.clusters num_clusters word
  let r := removeWord g.1 cs num_clusters word g.2.1 g.2.2
  (g.1, r.1, r.2.1, r.2.2)

/-- Steps 1, 2 and 5 with the selected cluster given: move `word` into
`assigned_cluster`. -/
def moveWord (stats : CorpusStatistics) (cs : ClusterState) (num_clusters word : Nat)
    (assigned_cluster : Nat) : CorpusStatistics × ClusterState × Bool :=
  let r := gatherAndRemove stats cs num_clusters word
  (r.1, recordAssignment
    (insertWord r.1 r.2.1 num_clusters word r.2.2.1 r.2.2.2 assigned_cluster)
    word assigned_cluster)

/-- The score vector computed for `word` (lines 165-206). -/
def wordScores {α : Type} [Zero α] [Add α] [Sub α] [Mul α] [OfNat α 2] (entropy : Int → α)
    (stats : CorpusStatistics) (cs : ClusterState) (num_clusters word : Nat) : List α :=
  let r := gatherAndRemove stats cs num_clusters word
  perplexities entropy r.1 r.2.1 num_clusters word r.2.2.1 r.2.2.2

/-- The cluster selected for `word` (line 209). -/
def assignedCluster {α : Type} [Zero α] [Add α] [Sub α] [Mul α] [OfNat α 2] [LinearOrder α]
    (entropy : Int → α)
    (stats : CorpusStatistics) (cs : ClusterState) (num_clusters word : Nat) : Nat :=
  max_element (wordScores entropy stats cs num_clusters word)

/-- The body of the loop over words (lines 163-223): the statistics, the new
cluster state, and whether the word was moved. -/
def reassignWord {α : Type} [Zero α] [Add α] [Sub α] [Mul α] [OfNat α 2] [LinearOrder α]
    (entropy : Int → α)
    (num_clusters : Nat) (stats : CorpusStatistics) (cs : ClusterState) (word : Nat) :
    CorpusStatistics × ClusterState × Bool :=
  moveWord stats cs num_clusters word (assignedCluster entropy stats cs num_clusters word)

/-- The loop over words with its swap counter, run over the given words. -/
def reassignWords {α : Type} [Zero α] [Add α] [Sub α] [Mul α] [OfNat α 2] [LinearOrder α]
    (entropy : Int → α)
    (num_clusters : Nat) (words : List Nat) (start : CorpusStatistics × ClusterState × Nat) :
    CorpusStatistics × ClusterState × Nat :=
  words.foldl
    (fun acc word =>
      let r := reassignWord entropy num_clusters acc.1 acc.2.1 word
      (r.1, r.2.1, if r.2.2 then acc.2.2 + 1 else acc.2.2))
    start

/-- One epoch (lines 162-223): every word in ascending order, swap counter
starting at zero. -/
def runEpoch {α : Type} [Zero α] [Add α] [Sub α] [Mul α] [OfNat α 2] [LinearOrder α]
    (entropy : Int → α)
    (num_words num_clusters : Nat) (stats : CorpusStatistics) (cs : ClusterState) :
    CorpusStatistics × ClusterState × Nat :=
  reassignWords entropy num_clusters (List.range num_words) (stats, cs, 0)

/-- The total perplexity of lines 226-236, accumulated in the order of the
source with the operations of `α`. -/
def totalPerplexity {α : Type} [Zero α] [Add α] [Sub α] [Mul α] [OfNat α 2] (entropy : Int → α)
    (stats : CorpusStatistics) (cs : ClusterState) : α :=
  let p1 := stats.word_count.foldl
    (fun acc count => if count > 0 then acc + entropy count else acc) 0
  let p2 := cs.unary_cluster_count.foldl
    (fun acc count => if count > 0 then acc - 2 * entropy count else acc) p1
  cs.binary_cluster_count.foldl
    (fun acc entry =>
      entry.foldl (fun acc2 count => if count > 0 then acc2 + entropy count else acc2) acc)
    p2

/-- The loop of lines 150-249 with `num_epochs - epoch` epochs of budget
left: the final statistics and cluster state, and for every epoch that ran
its reported perplexity and swap count. -/
def optimizeLoop {α : Type} [Zero α] [Add α] [Sub α] [Mul α] [OfNat α 2] [LinearOrder α]
    (entropy : Int → α)
    (num_words num_clusters : Nat) :
    Nat → CorpusStatistics → ClusterState → CorpusStatistics × ClusterState × List (α × Nat)
  | 0, stats, cs => (stats, cs, [])
  | budget + 1, stats, cs =>
      let r := runEpoch entropy num_words num_clusters stats cs
      let report := (totalPerplexity entropy r.1 r.2.1, r.2.2)
      if r.2.2 = 0 then (r.1, r.2.1, [report])
      else
        let rest := optimizeLoop entropy num_words num_clusters budget r.1 r.2.1
        (rest.1, rest.2.1, report :: rest.2.2)

/-- The state at a word boundary: after `epochs` complete epochs followed by
the first `done` words of the next one. -/
def wordBoundary {α : Type} [Zero α] [Add α] [Sub α] [Mul α] [OfNat α 2] [LinearOrder α]
    (entropy : Int → α)
    (num_words num_clusters : Nat) (stats : CorpusStatistics) (cs : ClusterState) :
    Nat → Nat → CorpusStatistics × ClusterState × Nat
  | 0, done => reassignWords entropy num_clusters (List.range done) (stats, cs, 0)
  | epochs + 1, done =>
      let r := runEpoch entropy num_words num_clusters stats cs
      wordBoundary entropy num_words num_clusters r.1 r.2.1 epochs done

/-- The clustering program from the token stream to the vector written to the
output file (lines 74-257), for an epoch budget `num_epochs`. -/
def clusterWords {α : Type} [Zero α] [Add α] [Sub α] [Mul α] [OfNat α 2] [LinearOrder α]
    (entropy : Int → α)
    (num_words num_clusters num_epochs : Nat) (draw : Nat → Nat) (stream : List Nat) :
    List Nat :=
  let stats := buildStatistics num_words stream
  let cs := initialState stats num_words num_clusters draw
  (optimizeLoop entropy num_words num_clusters num_epochs stats cs).2.1.clusters

/-! ## From-scratch aggregation (the data model of the specification) -/

/-- The sum of `word_count[w]` over the words of cluster `c`. -/
def aggregateUnary (stats : CorpusStatistics) (clusters : List Nat) (num_words c : Nat) : Int :=
  ∑ w in Finset.range num_words,
    if clusters.getD w 0 = c then vget stats.word_count w else 0

/-- The sum of `successors[w][w2]` over the word pairs with `w` in cluster
`c1` and `w2` in cluster `c2`. -/
def aggregateBinary (stats : CorpusStatistics) (clusters : List Nat) (num_words c1 c2 : Nat) :
    Int :=
  ∑ w in Finset.range num_words, ∑ w2 in Finset.range num_words,
    if clusters.getD w 0 = c1 ∧ clusters.getD w2 0 = c2 then successorCount stats w w2 else 0

/-! ## Specification-level definitions and invariants -/

/-- A `K × K` matrix. -/
def Square (K : Nat) (m : List (List Int)) : Prop :=
  m.length = K ∧ ∀ i, i < K → (m.getD i []).length = K

/-- The keys of a map in enumeration order. -/
def mapKeys (m : List (Nat × Int)) : List Nat := m.map Prod.fst

/-- The statistics `st` account for exactly the counted words `ws` and the
bigrams `ps`. -/
structure Tracks (N : Nat) (st : CorpusStatistics) (ps : List (Nat × Nat)) (ws : List Nat) :
    Prop where
  len_wc : st.word_count.length = N
  len_dwc : st.double_word_count.length = N
  len_succ : st.successors.length = N
  len_pred : st.predecessors.length = N
  range : ∀ p ∈ ps, p.1 < N ∧ p.2 < N
  wc : ∀ w, vget st.word_count w = (ws.count w : Int)
  dwc : ∀ w, vget st.double_word_count w = (ps.count (w, w) : Int)
  entry : ∀ w w2, successorEntry st w w2 =
    if ps.count (w, w2) = 0 then none else some (ps.count (w, w2) : Int)
  keys : ∀ w, (mapKeys (st.successors.getD w [])).Nodup
  preds_nodup : ∀ w, (st.predecessors.getD w []).Nodup
  preds : ∀ w p, p ∈ st.predecessors.getD w [] ↔ (p, w) ∈ ps

/-- The number of positions `i` with `s[i] = w`. -/
def occurrences (s : List Nat) (w : Nat) : Nat :=
  ((List.range s.length).filter (fun i => decide (s[i]? = some w))).length

/-- The number of positions `i` with `s[i] = w` and `s[i+1] = w2`. -/
def bigramOccurrences (s : List Nat) (w w2 : Nat) : Nat :=
  ((List.range (s.length - 1)).filter
    (fun i => decide (s[i]? = some w ∧ s[i + 1]? = some w2))).length

/-- The common shape of the loops of lines 176-180 and 210-214: for every
cluster other than `k`, add `f cluster` to the entry in column `k` and
`g cluster` to the entry in row `k`. -/
def crossUpdate (k : Nat) (f g : Nat → Int) (binary : List (List Int)) (cluster : Nat) :
    List (List Int) :=
  if cluster ≠ k then madd (madd binary cluster k (f cluster)) k cluster (g cluster)
  else binary

/-- The facts about the statistics of a stream that the optimizer relies on. -/
structure WellFormed (N : Nat) (st : CorpusStatistics) : Prop where
  len_wc : st.word_count.length = N
  len_dwc : st.double_word_count.length = N
  len_succ : st.successors.length = N
  len_pred : st.predecessors.length = N
  keys : ∀ w, (mapKeys (st.successors.getD w [])).Nodup
  key_range : ∀ w k, k ∈ mapKeys (st.successors.getD w []) → k < N
  value_pos : ∀ w w2 v, successorEntry st w w2 = some v → 0 < v
  preds_nodup : ∀ w, (st.predecessors.getD w []).Nodup
  preds : ∀ w p, p ∈ st.predecessors.getD w [] ↔ w ∈ mapKeys (st.successors.getD p [])
  dwc : ∀ w, vget st.double_word_count w = successorCount st w w
  wc_nonneg : ∀ w, 0 ≤ vget st.word_count w

/-- The sum of `word_count[x]` over the words `x ≠ w` of cluster `c`. -/
def restUnary (stats : CorpusStatistics) (clusters : List Nat) (num_words w c : Nat) : Int :=
  ∑ x in Finset.range num_words,
    if x ≠ w ∧ clusters.getD x 0 = c then vget stats.word_count x else 0

/-- The sum of `successors[x][y]` over the pairs of words other than `w` with
`x` in cluster `c1` and `y` in cluster `c2`. -/
def restBinary (stats : CorpusStatistics) (clusters : List Nat) (num_words w c1 c2 : Nat) :
    Int :=
  ∑ x in Finset.range num_words, ∑ y in Finset.range num_words,
    if x ≠ w ∧ y ≠ w ∧ clusters.getD x 0 = c1 ∧ clusters.getD y 0 = c2
    then successorCount stats x y else 0

/-- The sum of `successors[p][w]` over the words `p ≠ w` of cluster `c`. -/
def restPred (stats : CorpusStatistics) (clusters : List Nat) (num_words w c : Nat) : Int :=
  ∑ p in Finset.range num_words,
    if p ≠ w ∧ clusters.getD p 0 = c then successorCount stats p w else 0

/-- The sum of `successors[w][y]` over the words `y ≠ w` of cluster `c`. -/
def restSucc (stats : CorpusStatistics) (clusters : List Nat) (num_words w c : Nat) : Int :=
  ∑ y in Finset.range num_words,
    if y ≠ w ∧ clusters.getD y 0 = c then successorCount stats w y else 0

/-- The cluster state is in range, has the right dimensions and its counts
equal the from-scratch aggregation of its assignment. -/
structure Consistent (N K : Nat) (stats : CorpusStatistics) (cs : ClusterState) : Prop where
  len_clusters : cs.clusters.length = N
  range : ∀ w, w < N → cs.clusters.getD w 0 < K
  len_unary : cs.unary_cluster_count.length = K
  square : Square K cs.binary_cluster_count
  unary : ∀ c, vget cs.unary_cluster_count c = aggregateUnary stats cs.clusters N c
  binary : ∀ a b, a < K → b < K →
    mget cs.binary_cluster_count a b = aggregateBinary stats cs.clusters N a b

/-- The counts and profiles describe the corpus with the word `w` taken out. -/
structure Removed (N K : Nat) (stats : CorpusStatistics) (cs : ClusterState) (w : Nat)
    (pred succ : List Int) : Prop where
  len_clusters : cs.clusters.length = N
  range : ∀ x, x < N → cs.clusters.getD x 0 < K
  len_unary : cs.unary_cluster_count.length = K
  square : Square K cs.binary_cluster_count
  len_pred : pred.length = K
  len_succ : succ.length = K
  unary : ∀ c, vget cs.unary_cluster_count c = restUnary stats cs.clusters N w c
  binary : ∀ a b, a < K → b < K →
    mget cs.binary_cluster_count a b = restBinary stats cs.clusters N w a b
  pred : ∀ c, vget pred c = restPred stats cs.clusters N w c
  succ : ∀ c, vget succ c = restSucc stats cs.clusters N w c

/-- The cluster states that can arise from `start` by reassignment steps in
which the scoring step may select any cluster. -/
inductive Reachable (N K : Nat) (stats : CorpusStatistics) (start : ClusterState) :
    ClusterState → Prop
  | start : Reachable N K stats start start
  | move {cs : ClusterState} (w k : Nat) : Reachable N K stats start cs → w < N → k < K →
      Reachable N K stats start (moveWord stats cs K w k).2.1

/-- The incrementally maintained counts of `cs` equal the from-scratch
aggregation of its assignment, for every cluster and every pair of clusters. -/
def CountsAggregated (stats : CorpusStatistics) (num_words num_clusters : Nat)
    (cs : ClusterState) : Prop :=
  (∀ c, c < num_clusters →
    vget cs.unary_cluster_count c = aggregateUnary stats cs.clusters num_words c)
  ∧ (∀ c1 c2, c1 < num_clusters → c2 < num_clusters →
    mget cs.binary_cluster_count c1 c2 = aggregateBinary stats cs.clusters num_words c1 c2)

/-- The entropy of a count as the total perplexity uses it: counts that are
not positive are skipped. -/
def positiveEntropy {α : Type} [LinearOrderedCommRing α] (entropy : Int → α) (count : Int) : α :=
  if count > 0 then entropy count else 0

/-- The part of the total perplexity that depends on the cluster counts, as
sums over the clusters. -/
def clusterObjective {α : Type} [LinearOrderedCommRing α] (entropy : Int → α) (K : Nat)
    (cs : ClusterState) : α :=
  (∑ a in Finset.range K, ∑ b in Finset.range K,
      positiveEntropy entropy (mget cs.binary_cluster_count a b))
    - 2 * ∑ c in Finset.range K, positiveEntropy entropy (vget cs.unary_cluster_count c)

/-- The swap count of epoch `i + 1` (the epochs are numbered from 1) in the
unbounded sequence of epochs started from `stats` and `cs`. -/
def epochSwaps {α : Type} [Zero α] [Add α] [Sub α] [Mul α] [OfNat α 2]
    [LinearOrder α] (entropy : Int → α)
    (num_words num_clusters : Nat) (stats : CorpusStatistics) (cs : ClusterState)
    (i : Nat) : Nat :=
  (wordBoundary entropy num_words num_clusters stats cs i num_words).2.2

/-- The number of epochs the optimizer loop executes: one report per epoch. -/
def epochsExecuted {α : Type} [Zero α] [Add α] [Sub α] [Mul α] [OfNat α 2]
    [LinearOrder α] (entropy : Int → α)
    (num_words num_clusters num_epochs : Nat) (stats : CorpusStatistics) (cs : ClusterState) :
    Nat :=
  (optimizeLoop entropy num_words num_clusters num_epochs stats cs).2.2.length

/-- The entropy table of the program, `CachedEntropy<10000> entropy` (line 72). -/
def entropyTable {α : Type} [LinearOrderedCommRing α] (log : Int → α) (n : Int) : α :=
  CachedEntropy.call log 10000 n

/-- The exit status of `main` and the vector written to the output file
(lines 47-261), for parsed arguments and a readable input file: every path of
`main` ends in `return 0` (line 260). -/
def runMain {α : Type} [Zero α] [Add α] [Sub α] [Mul α] [OfNat α 2]
    [LinearOrder α] (entropy : Int → α)
    (num_words num_clusters num_epochs : Nat) (draw : Nat → Nat) (stream : List Nat) :
    Int × List Nat :=
  (0, clusterWords entropy num_words num_clusters num_epochs draw stream)

/-- The statistics `s2` hold the same data as `s1`, with the entries of every
successor map and of every predecessor list enumerated in some other order. -/
structure SameUpToOrder (s1 s2 : CorpusStatistics) : Prop where
  word_count : s2.word_count = s1.word_count
  double_word_count : s2.double_word_count = s1.double_word_count
  len_succ : s2.successors.length = s1.successors.length
  len_pred : s2.predecessors.length = s1.predecessors.length
  successors : ∀ w, (s2.successors.getD w []).Perm (s1.successors.getD w [])
  predecessors : ∀ w, (s2.predecessors.getD w []).Perm (s1.predecessors.getD w [])

/-- A loop whose body can fail: the first failing iteration aborts it. -/
def foldlC {σ β : Type} (f : σ → β → Option σ) : σ → List β → Option σ
  | s, [] => some s
  | s, x :: rest =>
      match f s x with
      | some s1 => foldlC f s1 rest
      | none => none

/-- A loop that fills a vector element by element with a body that can fail. -/
def mapC {β γ : Type} (f : β → Option γ) : List β → Option (List γ)
  | [] => some []
  | x :: rest =>
      match f x with
      | some y =>
          match mapC f rest with
          | some ys => some (y :: ys)
          | none => none
      | none => none

/-- The update `v[i] += d`, failing when `i` is out of bounds. -/
def vaddC (v : List Int) (i : Nat) (d : Int) : Option (List Int) :=
  if i < v.length then some (vadd v i d) else none

/-- The read `m[i][j]`, failing when an index is out of bounds. -/
def mgetC (m : List (List Int)) (i j : Nat) : Option Int :=
  match m[i]? with
  | some row => row[j]?
  | none => none

/-- The update `m[i][j] += d`, failing when an index is out of bounds. -/
def maddC (m : List (List Int)) (i j : Nat) (d : Int) : Option (List (List Int)) :=
  match m[i]? with
  | some row => if j < row.length then some (madd m i j d) else none
  | none => none

/-- One iteration of the loop of lines 170-171 with every access checked: the
lookup `successors[predecessor][word]` fails when the key is absent. -/
def gatherPredecessorC (clusters : List Nat) (word : Nat)
    (successors : List (List (Nat × Int))) (acc : List Int) (predecessor : Nat) :
    Option (List Int) := do
  let c ← clusters[predecessor]?
  let map ← successors[predecessor]?
  let count ← mapFind map word
  vaddC acc c count

/-- The profiles of a word (lines 166-173) with every access checked. -/
def gatherProfilesC (stats : CorpusStatistics) (clusters : List Nat) (num_clusters word : Nat) :
    Option (List Int × List Int) := do
  let preds ← stats.predecessors[word]?
  let pred ← foldlC (gatherPredecessorC clusters word stats.successors)
    (List.replicate num_clusters 0) preds
  let succs ← stats.successors[word]?
  let succ ← foldlC
    (fun acc (entry : Nat × Int) => do
      let c ← clusters[entry.1]?
      vaddC acc c entry.2)
    (List.replicate num_clusters 0) succs
  pure (pred, succ)

/-- The body of the loop of lines 176-180 with every access checked. -/
def removeFromRowC (old : Nat) (pred succ : List Int) (binary : List (List Int))
    (cluster : Nat) : Option (List (List Int)) :=
  if cluster ≠ old then do
    let p ← pred[cluster]?
    let b1 ← maddC binary cluster old (-p)
    let s ← succ[cluster]?
    maddC b1 old cluster (-s)
  else some binary

/-- The removal of lines 176-184 with every access checked. -/
def removeWordC (stats : CorpusStatistics) (cs : ClusterState) (num_clusters word : Nat)
    (pred succ : List Int) : Option (ClusterState × List Int × List Int) := do
  let old ← cs.clusters[word]?
  let b1 ← foldlC (removeFromRowC old pred succ) cs.binary_cluster_count
    (List.range num_clusters)
  let wc ← stats.word_count[word]?
  let unary ← vaddC cs.unary_cluster_count old (-wc)
  let dwc ← stats.double_word_count[word]?
  let po ← pred[old]?
  let so ← succ[old]?
  let b2 ← maddC b1 old old (dwc - po - so)
  let pred1 ← vaddC pred old (-dwc)
  let succ1 ← vaddC succ old (-dwc)
  pure ({ clusters := cs.clusters, unary_cluster_count := unary, binary_cluster_count := b2 },
    pred1, succ1)

/-- The body of the inner loop of lines 190-198 with every access checked. -/
def scoreTermC {α : Type} [Zero α] [Add α] [Sub α] [Mul α] [OfNat α 2]
    [LinearOrder α] (entropy : Int → α)
    (binary : List (List Int)) (pred succ : List Int) (candidate_cluster : Nat)
    (perplexity : α) (cluster : Nat) : Option α :=
  if cluster ≠ candidate_cluster then do
    let bck ← mgetC binary cluster candidate_cluster
    let pc ← pred[cluster]?
    let bkc ← mgetC binary candidate_cluster cluster
    let sc ← succ[cluster]?
    pure (perplexity + entropy (bck + pc) - entropy bck + entropy (bkc + sc) - entropy bkc)
  else some perplexity

/-- The score of one candidate cluster (lines 189-205) with every access
checked. -/
def candidateScoreC {α : Type} [Zero α] [Add α] [Sub α] [Mul α] [OfNat α 2]
    [LinearOrder α] (entropy : Int → α)
    (stats : CorpusStatistics) (cs : ClusterState) (num_clusters word : Nat)
    (pred succ : List Int) (candidate_cluster : Nat) : Option α := do
  let perplexity ← foldlC
    (scoreTermC entropy cs.binary_cluster_count pred succ candidate_cluster) 0
    (List.range num_clusters)
  let uk ← cs.unary_cluster_count[candidate_cluster]?
  let wc ← stats.word_count[word]?
  let bkk ← mgetC cs.binary_cluster_count candidate_cluster candidate_cluster
  let sk ← succ[candidate_cluster]?
  let pk ← pred[candidate_cluster]?
  let dwc ← stats.double_word_count[word]?
  pure (perplexity - 2 * entropy (uk + wc) + 2 * entropy uk
    + entropy (bkk + sk + pk + dwc) - entropy bkk)

/-- The vector `perplexities` (lines 188-206) with every access checked. -/
def perplexitiesC {α : Type} [Zero α] [Add α] [Sub α] [Mul α] [OfNat α 2]
    [LinearOrder α] (entropy : Int → α)
    (stats : CorpusStatistics) (cs : ClusterState) (num_clusters word : Nat)
    (pred succ : List Int) : Option (List α) :=
  mapC (candidateScoreC entropy stats cs num_clusters word pred succ) (List.range num_clusters)

/-- The body of the loop of lines 210-214 with every access checked. -/
def insertIntoRowC (assigned_cluster : Nat) (pred succ : List Int) (binary : List (List Int))
    (cluster : Nat) : Option (List (List Int)) :=
  if cluster ≠ assigned_cluster then do
    let p ← pred[cluster]?
    let b1 ← maddC binary cluster assigned_cluster p
    let s ← succ[cluster]?
    maddC b1 assigned_cluster cluster s
  else some binary

/-- The insertion of lines 210-216 with every access checked. -/
def insertWordC (stats : CorpusStatistics) (cs : ClusterState) (num_clusters word : Nat)
    (pred succ : List Int) (assigned_cluster : Nat) : Option ClusterState := do
  let b1 ← foldlC (insertIntoRowC assigned_cluster pred succ) cs.binary_cluster_count
    (List.range num_clusters)
  let wc ← stats.word_count[word]?
  let unary ← vaddC cs.unary_cluster_count assigned_cluster wc
  let sa ← succ[assigned_cluster]?
  let pa ← pred[assigned_cluster]?
  let dwc ← stats.double_word_count[word]?
  let b2 ← maddC b1 assigned_cluster assigned_cluster (sa + pa + dwc)
  pure { clusters := cs.clusters, unary_cluster_count := unary, binary_cluster_count := b2 }

/-- The swap check of lines 219-222 with every access checked. -/
def recordAssignmentC (cs : ClusterState) (word assigned_cluster : Nat) :
    Option (ClusterState × Bool) := do
  let old ← cs.clusters[word]?
  if assigned_cluster ≠ old then
    pure ({ cs with clusters := cs.clusters.set word assigned_cluster }, true)
  else pure (cs, false)

/-- The body of the loop over words (lines 163-223) with every access checked:
`none` when an index is out of bounds, when `successors[predecessor][word]`
does not find its key, or when the score vector is empty (so that
`std::max_element` has no element to point to). -/
def reassignWordC {α : Type} [Zero α] [Add α] [Sub α] [Mul α] [OfNat α 2]
    [LinearOrder α] (entropy : Int → α)
    (num_clusters : Nat) (stats : CorpusStatistics) (cs : ClusterState) (word : Nat) :
    Option (ClusterState × Bool) := do
  let g ← gatherProfilesC stats cs.clusters num_clusters word
  let r ← removeWordC stats cs num_clusters word g.1 g.2
  let scores ← perplexitiesC entropy stats r.1 num_clusters word r.2.1 r.2.2
  if scores.isEmpty then none
  else do
    let cs1 ← insertWordC stats r.1 num_clusters word r.2.1 r.2.2 (max_element scores)
    recordAssignmentC cs1 word (max_element scores)

/-! ## Lemmas and theorems -/

theorem vadd_length (v : List Int) (i : Nat) (d : Int) : (vadd v i d).length = v.length := by
  simp [vadd]

theorem getD_set_eq {β : Type} (l : List β) (i j : Nat) (x d : β) (hi : i < l.length) :
    (l.set i x).getD j d = if j = i then x else l.getD j d := by
  simp only [List.getD_eq_getElem?_getD, List.getElem?_set]
  by_cases h : i = j
  · subst h; simp [hi]
  · have h2 : ¬ j = i := fun e => h e.symm
    simp [h, h2]

theorem vget_vadd (v : List Int) (i j : Nat) (d : Int) (hi : i < v.length) :
    vget (vadd v i d) j = vget v j + if j = i then d else 0 := by
  unfold vadd vget
  rw [getD_set_eq _ _ _ _ _ hi]
  by_cases h : j = i
  · subst h; simp
  · simp [h]

theorem madd_square {K : Nat} {m : List (List Int)} (h : Square K m) (i j : Nat) (d : Int) :
    Square K (madd m i j d) := by
  refine ⟨by simp [madd, h.1], fun a ha => ?_⟩
  unfold madd
  by_cases hi : i < m.length
  · rw [getD_set_eq _ _ _ _ _ hi]
    by_cases e : a = i
    · subst e; rw [if_pos rfl, vadd_length]; exact h.2 a ha
    · rw [if_neg e]; exact h.2 a ha
  · rw [List.set_eq_of_length_le (by omega)]
    exact h.2 a ha

theorem mget_madd {K : Nat} {m : List (List Int)} (h : Square K m) (i j a b : Nat) (d : Int)
    (hi : i < K) (hj : j < K) :
    mget (madd m i j d) a b = mget m a b + if a = i ∧ b = j then d else 0 := by
  unfold madd mget
  rw [getD_set_eq _ _ _ _ _ (by rw [h.1]; exact hi)]
  by_cases e : a = i
  · subst e
    simp only [if_true, true_and]
    rw [vget_vadd _ _ _ _ (by rw [h.2 a hi]; exact hj)]
  · simp [e]

theorem mapFind_eq_none_iff (m : List (Nat × Int)) (k : Nat) :
    mapFind m k = none ↔ k ∉ mapKeys m := by
  induction m with
  | nil => simp [mapFind, mapKeys]
  | cons e rest ih =>
    obtain ⟨k1, v⟩ := e
    by_cases h : k1 = k
    · simp [mapFind, mapKeys, h]
    · have h2 : ¬ k = k1 := fun e => h e.symm
      simp only [mapFind, if_neg h, ih, mapKeys, List.map_cons, List.mem_cons, h2, false_or]

theorem mapFind_append (m : List (Nat × Int)) (k k2 : Nat) (v : Int) :
    mapFind (m ++ [(k, v)]) k2 =
      match mapFind m k2 with
      | some x => some x
      | none => if k = k2 then some v else none := by
  induction m with
  | nil => simp [mapFind]
  | cons e rest ih =>
    obtain ⟨k1, v1⟩ := e
    by_cases h : k1 = k2
    · simp [mapFind, h]
    · rw [List.cons_append]
      simp only [mapFind, if_neg h]
      exact ih

theorem mapFind_mapIncr (m : List (Nat × Int)) (k k2 : Nat) :
    mapFind (mapIncr m k) k2 =
      if k2 = k then (mapFind m k).map (fun v => v + 1) else mapFind m k2 := by
  induction m with
  | nil => simp [mapFind, mapIncr]
  | cons e rest ih =>
    obtain ⟨k1, v1⟩ := e
    by_cases h : k1 = k
    · subst h
      by_cases h2 : k2 = k1
      · subst h2; simp [mapFind, mapIncr]
      · have h3 : ¬ k1 = k2 := fun e => h2 e.symm
        simp [mapFind, mapIncr, h2, h3]
    · by_cases h2 : k2 = k
      · subst h2
        simp only [mapIncr, if_neg h, mapFind, ih, if_true]
      · simp only [mapIncr, if_neg h, mapFind, ih, if_neg h2]

theorem mapKeys_mapIncr (m : List (Nat × Int)) (k : Nat) :
    mapKeys (mapIncr m k) = mapKeys m := by
  induction m with
  | nil => rfl
  | cons e rest ih =>
    obtain ⟨k1, v1⟩ := e
    by_cases h : k1 = k
    · simp [mapIncr, h, mapKeys]
    · simp only [mapIncr, if_neg h, mapKeys, List.map_cons] at ih ⊢
      rw [ih]

theorem mapFind_mem (m : List (Nat × Int)) (k : Nat) (v : Int) (h : mapFind m k = some v) :
    (k, v) ∈ m := by
  induction m with
  | nil => simp [mapFind] at h
  | cons e rest ih =>
    obtain ⟨k1, v1⟩ := e
    by_cases h1 : k1 = k
    · subst h1; simp [mapFind] at h; subst h; simp
    · simp only [mapFind, if_neg h1] at h
      exact List.mem_cons_of_mem _ (ih h)

theorem mapFind_of_mem (m : List (Nat × Int)) (k : Nat) (v : Int) (hn : (mapKeys m).Nodup)
    (h : (k, v) ∈ m) : mapFind m k = some v := by
  induction m with
  | nil => simp at h
  | cons e rest ih =>
    obtain ⟨k1, v1⟩ := e
    simp only [mapKeys, List.map_cons, List.nodup_cons] at hn
    rcases List.mem_cons.1 h with h1 | h1
    · cases h1; simp [mapFind]
    · have hk : k ∈ rest.map Prod.fst := List.mem_map.2 ⟨(k, v), h1, rfl⟩
      have hne : ¬ k1 = k := by rintro rfl; exact hn.1 hk
      simp only [mapFind, if_neg hne]
      exact ih hn.2 h1

theorem getD_replicate_self {β : Type} (n i : Nat) (x : β) :
    (List.replicate n x).getD i x = x := by
  rw [List.getD_eq_getElem?_getD]
  by_cases h : i < n
  · simp [List.getElem?_replicate, h]
  · simp [List.getElem?_replicate, h]

theorem tracks_alloc (N : Nat) : Tracks N (allocStatistics N) [] [] where
  len_wc := by simp [allocStatistics]
  len_dwc := by simp [allocStatistics]
  len_succ := by simp [allocStatistics]
  len_pred := by simp [allocStatistics]
  range := by simp
  wc := fun w => by simp [allocStatistics, vget, getD_replicate_self]
  dwc := fun w => by simp [allocStatistics, vget, getD_replicate_self]
  entry := fun w w2 => by
    simp [allocStatistics, successorEntry, getD_replicate_self, mapFind]
  keys := fun w => by simp [allocStatistics, getD_replicate_self, mapKeys]
  preds_nodup := fun w => by simp [allocStatistics, getD_replicate_self]
  preds := fun w p => by simp [allocStatistics, getD_replicate_self]

theorem countBigram_word_count (st : CorpusStatistics) (w w2 : Nat) :
    (countBigram st w w2).word_count = vadd st.word_count w 1 := by
  dsimp only [countBigram]; cases mapFind (st.successors.getD w []) w2 <;> rfl

theorem countBigram_double_word_count (st : CorpusStatistics) (w w2 : Nat) :
    (countBigram st w w2).double_word_count =
      if w = w2 then vadd st.double_word_count w 1 else st.double_word_count := by
  dsimp only [countBigram]; cases mapFind (st.successors.getD w []) w2 <;> rfl

theorem countBigram_successors (st : CorpusStatistics) (w w2 : Nat) :
    (countBigram st w w2).successors =
      st.successors.set w
        (match mapFind (st.successors.getD w []) w2 with
          | none => st.successors.getD w [] ++ [(w2, 1)]
          | some _ => mapIncr (st.successors.getD w []) w2) := by
  dsimp only [countBigram]; cases mapFind (st.successors.getD w []) w2 <;> rfl

theorem countBigram_predecessors (st : CorpusStatistics) (w w2 : Nat) :
    (countBigram st w w2).predecessors =
      match mapFind (st.successors.getD w []) w2 with
        | none => st.predecessors.set w2 (st.predecessors.getD w2 [] ++ [w])
        | some _ => st.predecessors := by
  dsimp only [countBigram]; cases mapFind (st.successors.getD w []) w2 <;> rfl

theorem count_append_singleton {β : Type} [BEq β] [LawfulBEq β] [DecidableEq β]
    (l : List β) (a b : β) :
    (l ++ [a]).count b = l.count b + if b = a then 1 else 0 := by
  rw [List.count_append]
  by_cases h : b = a
  · subst h; simp
  · have h2 : ¬ a = b := fun e => h e.symm
    simp [h, h2, List.count_cons]

theorem tracks_countBigram {N : Nat} {st : CorpusStatistics} {ps : List (Nat × Nat)}
    {ws : List Nat} (h : Tracks N st ps ws) (w w2 : Nat) (hw : w < N) (hw2 : w2 < N) :
    Tracks N (countBigram st w w2) (ps ++ [(w, w2)]) (ws ++ [w]) := by
  have hentry := h.entry w w2
  unfold successorEntry at hentry
  refine
    { len_wc := ?_, len_dwc := ?_, len_succ := ?_, len_pred := ?_, range := ?_, wc := ?_,
      dwc := ?_, entry := ?_, keys := ?_, preds_nodup := ?_, preds := ?_ }
  · rw [countBigram_word_count, vadd_length, h.len_wc]
  · rw [countBigram_double_word_count]; split
    · rw [vadd_length, h.len_dwc]
    · exact h.len_dwc
  · rw [countBigram_successors, List.length_set, h.len_succ]
  · rw [countBigram_predecessors]; split
    · rw [List.length_set, h.len_pred]
    · exact h.len_pred
  · intro p hp
    rcases List.mem_append.1 hp with hp | hp
    · exact h.range p hp
    · simp only [List.mem_singleton] at hp; subst hp; exact ⟨hw, hw2⟩
  · intro x
    rw [countBigram_word_count, vget_vadd _ _ _ _ (by rw [h.len_wc]; exact hw), h.wc x,
      count_append_singleton]
    push_cast
    rfl
  · intro x
    rw [countBigram_double_word_count, count_append_singleton]
    by_cases e : w = w2
    · subst e
      rw [if_pos rfl, vget_vadd _ _ _ _ (by rw [h.len_dwc]; exact hw), h.dwc x]
      by_cases e2 : x = w
      · subst e2; simp
      · have : ¬ (x, x) = (w, w) := fun q => e2 (Prod.ext_iff.1 q).1
        simp [e2, this]
    · rw [if_neg e, h.dwc x]
      have : ¬ (x, x) = (w, w2) := fun q => e ((Prod.ext_iff.1 q).1.symm.trans (Prod.ext_iff.1 q).2)
      simp [this]
  · intro a b
    unfold successorEntry
    rw [countBigram_successors, getD_set_eq _ _ _ _ _ (by rw [h.len_succ]; exact hw),
      count_append_singleton]
    by_cases ea : a = w
    · subst ea
      rw [if_pos rfl]
      have hab := h.entry a b
      unfold successorEntry at hab
      by_cases c0 : ps.count (a, w2) = 0
      · rw [if_pos c0] at hentry
        simp only [hentry]
        rw [mapFind_append, hab]
        by_cases eb : b = w2
        · subst eb; simp [c0]
        · have e1 : ¬ (a, b) = (a, w2) := fun q => eb (Prod.ext_iff.1 q).2
          have e2 : ¬ w2 = b := fun q => eb q.symm
          by_cases c1 : ps.count (a, b) = 0
          · simp [c1, e1, e2]
          · simp [c1, e1, e2]
      · rw [if_neg c0] at hentry
        simp only [hentry]
        rw [mapFind_mapIncr]
        by_cases eb : b = w2
        · subst eb
          rw [if_pos rfl, hentry]
          simp
        · have e1 : ¬ (a, b) = (a, w2) := fun q => eb (Prod.ext_iff.1 q).2
          rw [if_neg eb, hab]
          simp [e1]
    · rw [if_neg ea]
      have e1 : ¬ (a, b) = (w, w2) := fun q => ea (Prod.ext_iff.1 q).1
      have hab := h.entry a b
      unfold successorEntry at hab
      rw [hab]
      simp [e1]
  · intro a
    rw [countBigram_successors, getD_set_eq _ _ _ _ _ (by rw [h.len_succ]; exact hw)]
    by_cases ea : a = w
    · subst ea
      rw [if_pos rfl]
      split
      · rename_i hnone
        have hk := (mapFind_eq_none_iff _ _).1 hnone
        unfold mapKeys at hk ⊢
        rw [List.map_append, List.map_singleton]
        exact List.Nodup.append (h.keys a) (List.nodup_singleton _)
          (by
            intro x hx hx2
            simp only [List.mem_singleton] at hx2
            subst hx2
            exact hk hx)
      · rw [mapKeys_mapIncr]; exact h.keys a
    · rw [if_neg ea]; exact h.keys a
  · intro a
    rw [countBigram_predecessors]
    split
    · rename_i hnone
      rw [getD_set_eq _ _ _ _ _ (by rw [h.len_pred]; exact hw2)]
      by_cases ea : a = w2
      · subst ea
        rw [if_pos rfl]
        have c0 : ps.count (w, a) = 0 := by
          by_contra c
          rw [if_neg c, hnone] at hentry
          cases hentry
        have hn : w ∉ st.predecessors.getD a [] := by
          intro hm
          have := (h.preds a w).1 hm
          exact (List.count_eq_zero.1 c0) this
        exact List.Nodup.append (h.preds_nodup a) (List.nodup_singleton _)
          (by
            intro x hx hx2
            simp only [List.mem_singleton] at hx2
            subst hx2
            exact hn hx)
      · rw [if_neg ea]; exact h.preds_nodup a
    · exact h.preds_nodup a
  · intro a p
    rw [countBigram_predecessors]
    split
    · rename_i hnone
      rw [getD_set_eq _ _ _ _ _ (by rw [h.len_pred]; exact hw2)]
      by_cases ea : a = w2
      · subst ea
        rw [if_pos rfl]
        simp only [List.mem_append, List.mem_singleton, h.preds a p, Prod.mk.injEq, and_true]
      · rw [if_neg ea, h.preds a p]
        have : ¬ (p, a) = (w, w2) := fun q => ea (Prod.ext_iff.1 q).2
        simp [this]
    · rename_i v hsome
      rw [h.preds a p]
      have c0 : ps.count (w, w2) ≠ 0 := by
        intro c
        rw [if_pos c, hsome] at hentry
        cases hentry
      have hin : (w, w2) ∈ ps := List.count_pos_iff.1 (Nat.pos_of_ne_zero c0)
      constructor
      · intro hp; exact List.mem_append_left _ hp
      · intro hp
        rcases List.mem_append.1 hp with hp | hp
        · exact hp
        · simp only [List.mem_singleton] at hp; rw [hp]; exact hin

theorem tracks_last {N : Nat} {st : CorpusStatistics} {ps : List (Nat × Nat)}
    {ws : List Nat} (h : Tracks N st ps ws) (w : Nat) (hw : w < N) :
    Tracks N { st with word_count := vadd st.word_count w 1 } ps (ws ++ [w]) :=
  { len_wc := by rw [vadd_length]; exact h.len_wc
    len_dwc := h.len_dwc
    len_succ := h.len_succ
    len_pred := h.len_pred
    range := h.range
    wc := fun x => by
      show vget (vadd st.word_count w 1) x = _
      rw [vget_vadd _ _ _ _ (by rw [h.len_wc]; exact hw), h.wc x, count_append_singleton]
      push_cast
      rfl
    dwc := h.dwc
    entry := h.entry
    keys := h.keys
    preds_nodup := h.preds_nodup
    preds := h.preds }

theorem tracks_streamLoop {N : Nat} (rest : List Nat) :
    ∀ (word : Nat) (st : CorpusStatistics) (ps : List (Nat × Nat)) (ws : List Nat),
      Tracks N st ps ws → word < N → (∀ x ∈ rest, x < N) →
      Tracks N (streamLoop word rest st) (ps ++ bigrams (word :: rest)) (ws ++ word :: rest) := by
  induction rest with
  | nil =>
    intro word st ps ws h hw _
    simpa [streamLoop, bigrams] using tracks_last h word hw
  | cons next rest ih =>
    intro word st ps ws h hw hr
    have hn : next < N := hr next (List.mem_cons_self _ _)
    have h2 := ih next (countBigram st word next) _ _ (tracks_countBigram h word next hw hn) hn
      (fun x hx => hr x (List.mem_cons_of_mem _ hx))
    simpa [streamLoop, bigrams] using h2

theorem tracks_buildStatistics (N : Nat) (s : List Nat) (hs : ∀ x ∈ s, x < N) :
    Tracks N (buildStatistics N s) (bigrams s) s := by
  cases s with
  | nil => simpa [buildStatistics, bigrams] using tracks_alloc N
  | cons first rest =>
    have := tracks_streamLoop rest first _ _ _ (tracks_alloc N)
      (hs first (List.mem_cons_self _ _)) (fun x hx => hs x (List.mem_cons_of_mem _ hx))
    simpa [buildStatistics] using this

theorem count_eq_positions {β : Type} [BEq β] [LawfulBEq β] [DecidableEq β] (l : List β)
    (x : β) :
    l.count x = ((List.range l.length).filter (fun i => decide (l[i]? = some x))).length := by
  induction l with
  | nil => simp
  | cons a rest ih =>
    rw [List.length_cons, List.range_succ_eq_map, List.filter_cons, List.filter_map,
      List.count_cons, ih]
    have hf : ((fun i => decide ((a :: rest)[i]? = some x)) ∘ Nat.succ)
        = (fun i => decide (rest[i]? = some x)) := by
      funext i; simp
    rw [hf]
    by_cases h : a = x
    · subst h; simp
    · simp [h]

theorem occurrences_eq_count (s : List Nat) (w : Nat) : occurrences s w = s.count w :=
  (count_eq_positions s w).symm

theorem bigramOccurrences_eq_count (s : List Nat) (w w2 : Nat) :
    bigramOccurrences s w w2 = (bigrams s).count (w, w2) := by
  unfold bigramOccurrences bigrams
  rw [count_eq_positions]
  have hl : (s.zip s.tail).length = s.length - 1 := by
    simp [List.length_zip]
  rw [hl]
  congr 1
  apply List.filter_congr
  intro i _
  congr 1
  simp only [List.getElem?_zip_eq_some, eq_iff_iff]
  cases s with
  | nil => simp
  | cons a rest => simp

theorem sum_list_eq_sum_range {M : Type} [AddCommMonoid M] (N : Nat) (l : List Nat)
    (f : Nat → M) (hn : l.Nodup) (hr : ∀ p ∈ l, p < N) (h0 : ∀ p, p ∉ l → f p = 0) :
    (l.map f).sum = ∑ p in Finset.range N, f p := by
  rw [← List.sum_toFinset f hn]
  apply Finset.sum_subset
  · intro p hp
    exact Finset.mem_range.2 (hr p (List.mem_toFinset.1 hp))
  · intro p _ hp
    exact h0 p (fun q => hp (List.mem_toFinset.2 q))

theorem sum_entries_eq_sum_range {M : Type} [AddCommMonoid M] (N : Nat) (m : List (Nat × Int))
    (g : Nat → Int → M) (hn : (mapKeys m).Nodup) (hr : ∀ k ∈ mapKeys m, k < N)
    (h0 : ∀ k, g k 0 = 0) :
    (m.map (fun e => g e.1 e.2)).sum
      = ∑ k in Finset.range N, g k ((mapFind m k).getD 0) := by
  rw [← sum_list_eq_sum_range N (mapKeys m) (fun k => g k ((mapFind m k).getD 0)) hn hr]
  · unfold mapKeys
    rw [List.map_map]
    congr 1
    apply List.map_congr_left
    intro e he
    obtain ⟨k, v⟩ := e
    simp only [Function.comp]
    rw [mapFind_of_mem m k v hn he]
    rfl
  · intro k hk
    rw [(mapFind_eq_none_iff m k).2 hk]
    exact h0 k

theorem sum_count_pairs (N : Nat) (ps : List (Nat × Nat)) (hr : ∀ p ∈ ps, p.1 < N ∧ p.2 < N) :
    ∑ a in Finset.range N, ∑ b in Finset.range N, ((ps.count (a, b) : Nat) : Int)
      = (ps.length : Int) := by
  induction ps with
  | nil => simp
  | cons p rest ih =>
    obtain ⟨x, y⟩ := p
    have hx : x < N := (hr (x, y) (List.mem_cons_self _ _)).1
    have hy : y < N := (hr (x, y) (List.mem_cons_self _ _)).2
    have ih2 := ih (fun p hp => hr p (List.mem_cons_of_mem _ hp))
    have hpt : ∀ a b, ((List.count (a, b) ((x, y) :: rest) : Nat) : Int)
        = (rest.count (a, b) : Int) + if a = x then (if b = y then 1 else 0) else 0 := by
      intro a b
      rw [List.count_cons]
      by_cases ha : a = x
      · by_cases hb : b = y
        · subst ha; subst hb; simp
        · have : ¬ y = b := fun e => hb e.symm
          simp [ha, hb, this]
      · have : ¬ x = a := fun e => ha e.symm
        simp [ha, this]
    simp only [hpt, Finset.sum_add_distrib, ih2]
    rw [Finset.sum_eq_single x]
    · simp only [if_true, Finset.sum_ite_eq', Finset.mem_range, hy, List.length_cons]
      push_cast
      ring
    · intro a _ ha; simp [ha]
    · intro h; exact absurd (Finset.mem_range.2 hx) h

theorem mem_bigrams_iff (s : List Nat) (w w2 : Nat) :
    (w, w2) ∈ bigrams s ↔ ∃ i, s[i]? = some w ∧ s[i + 1]? = some w2 := by
  unfold bigrams
  rw [List.mem_iff_getElem?]
  apply exists_congr
  intro i
  rw [List.getElem?_zip_eq_some]
  cases s with
  | nil => simp
  | cons a rest => simp

theorem bigramOccurrences_eq_zero_iff (s : List Nat) (w w2 : Nat) :
    bigramOccurrences s w w2 = 0 ↔ ¬ ∃ i, s[i]? = some w ∧ s[i + 1]? = some w2 := by
  rw [bigramOccurrences_eq_count, ← mem_bigrams_iff, List.count_eq_zero]

theorem length_bigrams (s : List Nat) : (bigrams s).length = s.length - 1 := by
  simp [bigrams, List.length_zip]

theorem tracks_entry_keys {N : Nat} {st : CorpusStatistics} {ps : List (Nat × Nat)}
    {ws : List Nat} (h : Tracks N st ps ws) (w w2 : Nat) :
    w2 ∈ mapKeys (st.successors.getD w []) ↔ (w, w2) ∈ ps := by
  have he := h.entry w w2
  unfold successorEntry at he
  constructor
  · intro hk
    by_contra hn
    rw [if_pos (List.count_eq_zero.2 hn)] at he
    exact (mapFind_eq_none_iff _ _).1 he hk
  · intro hp
    by_contra hk
    rw [(mapFind_eq_none_iff _ _).2 hk] at he
    have : ¬ ps.count (w, w2) = 0 := fun c => List.count_eq_zero.1 c hp
    rw [if_neg this] at he
    cases he

theorem successorCount_tracks {N : Nat} {st : CorpusStatistics} {ps : List (Nat × Nat)}
    {ws : List Nat} (h : Tracks N st ps ws) (w w2 : Nat) :
    successorCount st w w2 = (ps.count (w, w2) : Int) := by
  unfold successorCount
  rw [h.entry w w2]
  by_cases c : ps.count (w, w2) = 0
  · simp [c]
  · simp [c]

theorem sum_entries_eq_sum_successorCount {N : Nat} {st : CorpusStatistics}
    {ps : List (Nat × Nat)} {ws : List Nat} (h : Tracks N st ps ws) (w : Nat) :
    ((st.successors.getD w []).map Prod.snd).sum
      = ∑ w2 in Finset.range N, successorCount st w w2 :=
  sum_entries_eq_sum_range N (st.successors.getD w []) (fun _ v => v) (h.keys w)
    (fun k hk => ((h.range (w, k)) ((tracks_entry_keys h w k).1 hk)).2) (fun _ => rfl)

theorem total_successorCount {N : Nat} {st : CorpusStatistics} {ps : List (Nat × Nat)}
    {ws : List Nat} (h : Tracks N st ps ws) :
    (∑ w in Finset.range N, ∑ w2 in Finset.range N, successorCount st w w2)
      = (ps.length : Int) := by
  rw [← sum_count_pairs N ps h.range]
  apply Finset.sum_congr rfl
  intro w _
  apply Finset.sum_congr rfl
  intro w2 _
  exact successorCount_tracks h w w2

theorem total_successors {N : Nat} {s : List Nat} {st : CorpusStatistics} {ws : List Nat}
    (h : Tracks N st (bigrams s) ws) :
    (∑ w in Finset.range N, ((st.successors.getD w []).map Prod.snd).sum)
      = ((s.length - 1 : Nat) : Int) := by
  rw [← length_bigrams, ← total_successorCount h]
  apply Finset.sum_congr rfl
  intro w _
  exact sum_entries_eq_sum_successorCount h w

/-- C4: after the single pass of the builder `word_count[w]` is the number of
positions of the stream that hold `w` (the final token included); a stream of
one token counts that token once and leaves every successor map and every
predecessor list empty; the stream `[0,1,0,1,0,1]` gives `[3, 3]`. -/
theorem word_count_counts_positions (num_words : Nat) (s : List Nat)
    (hs : ∀ x ∈ s, x < num_words) :
    (∀ w, vget (buildStatistics num_words s).word_count w = (occurrences s w : Int))
    ∧ (∀ t, s = [t] →
        (∀ w, vget (buildStatistics num_words s).word_count w = if w = t then 1 else 0)
        ∧ (buildStatistics num_words s).successors = List.replicate num_words []
        ∧ (buildStatistics num_words s).predecessors = List.replicate num_words []
        ∧ (∀ w, vget (buildStatistics num_words s).double_word_count w = 0))
    ∧ (buildStatistics 2 [0, 1, 0, 1, 0, 1]).word_count = [3, 3] := by
  have ht := tracks_buildStatistics num_words s hs
  have h1 : ∀ w, vget (buildStatistics num_words s).word_count w = (occurrences s w : Int) := by
    intro w; rw [ht.wc w, occurrences_eq_count]
  refine ⟨h1, ?_, by decide⟩
  intro t hst
  refine ⟨?_, ?_, ?_, ?_⟩
  · intro w
    rw [h1 w, occurrences_eq_count, hst, List.count_singleton]
    by_cases e : w = t
    · subst e; simp
    · have e2 : ¬ t = w := fun q => e q.symm
      simp [e, e2]
  · subst hst; rfl
  · subst hst; rfl
  · intro w
    rw [ht.dwc w, hst]
    simp [bigrams]

/-- Instance of `word_count_counts_positions` on the stream `[0,1,0,1,0,1]`. -/
theorem word_count_counts_positions_witness :
    (∀ x ∈ [0, 1, 0, 1, 0, 1], x < 2)
    ∧ vget (buildStatistics 2 [0, 1, 0, 1, 0, 1]).word_count 1
        = (occurrences [0, 1, 0, 1, 0, 1] 1 : Int) :=
  ⟨by decide, (word_count_counts_positions 2 [0, 1, 0, 1, 0, 1] (by decide)).1 1⟩

/-- C5: after the pass of the builder `successors[w]` has the key `w2` exactly
when `w2` follows `w` at some position of the stream, each key occurs once, the
value stored is the number of such positions, and the values of all maps sum to
the number of bigrams `len(s) - 1`; the stream `[0,1,0,1,0,1]` gives
`successors[0] = {1: 3}` and `successors[1] = {0: 2}`. -/
theorem successors_count_bigrams (num_words : Nat) (s : List Nat)
    (hs : ∀ x ∈ s, x < num_words) :
    (∀ w w2, w2 ∈ mapKeys ((buildStatistics num_words s).successors.getD w [])
        ↔ ∃ i, s[i]? = some w ∧ s[i + 1]? = some w2)
    ∧ (∀ w, (mapKeys ((buildStatistics num_words s).successors.getD w [])).Nodup)
    ∧ (∀ w w2, successorEntry (buildStatistics num_words s) w w2
        = if bigramOccurrences s w w2 = 0 then none
          else some (bigramOccurrences s w w2 : Int))
    ∧ (∑ w in Finset.range num_words,
          (((buildStatistics num_words s).successors.getD w []).map Prod.snd).sum)
        = ((s.length - 1 : Nat) : Int)
    ∧ (buildStatistics 2 [0, 1, 0, 1, 0, 1]).successors = [[(1, 3)], [(0, 2)]] := by
  have ht := tracks_buildStatistics num_words s hs
  refine ⟨?_, ht.keys, ?_, ?_, by decide⟩
  · intro w w2
    rw [tracks_entry_keys ht, mem_bigrams_iff]
  · intro w w2
    rw [ht.entry w w2, bigramOccurrences_eq_count]
  · exact total_successors ht

/-- Instance of `successors_count_bigrams` on the stream `[0,1,0,1,0,1]`. -/
theorem successors_count_bigrams_witness :
    (∀ x ∈ [0, 1, 0, 1, 0, 1], x < 2)
    ∧ (∑ w in Finset.range 2,
          (((buildStatistics 2 [0, 1, 0, 1, 0, 1]).successors.getD w []).map Prod.snd).sum)
        = (([0, 1, 0, 1, 0, 1].length - 1 : Nat) : Int) :=
  ⟨by decide, (successors_count_bigrams 2 [0, 1, 0, 1, 0, 1] (by decide)).2.2.2.1⟩

/-- C6: after the pass of the builder `predecessors[w]` holds a word `p`
exactly when `p` stands immediately before `w` somewhere in the stream, which
is exactly when `w` is a key of `successors[p]`, and it holds each such `p`
once however often the bigram occurs; the stream `[0,1,0,1,0,1]` gives
`predecessors[0] = {1}` and `predecessors[1] = {0}`. -/
theorem predecessors_are_sets (num_words : Nat) (s : List Nat)
    (hs : ∀ x ∈ s, x < num_words) :
    (∀ w p, p ∈ (buildStatistics num_words s).predecessors.getD w []
        ↔ ∃ i, s[i]? = some p ∧ s[i + 1]? = some w)
    ∧ (∀ w p, p ∈ (buildStatistics num_words s).predecessors.getD w []
        ↔ w ∈ mapKeys ((buildStatistics num_words s).successors.getD p []))
    ∧ (∀ w p, (∃ i, s[i]? = some p ∧ s[i + 1]? = some w) →
        ((buildStatistics num_words s).predecessors.getD w []).count p = 1)
    ∧ (buildStatistics 2 [0, 1, 0, 1, 0, 1]).predecessors = [[1], [0]] := by
  have ht := tracks_buildStatistics num_words s hs
  refine ⟨?_, ?_, ?_, by decide⟩
  · intro w p
    rw [ht.preds w p, mem_bigrams_iff]
  · intro w p
    rw [ht.preds w p, tracks_entry_keys ht]
  · intro w p hex
    have hm : p ∈ (buildStatistics num_words s).predecessors.getD w [] := by
      rw [ht.preds w p, mem_bigrams_iff]; exact hex
    exact List.count_eq_one_of_mem (ht.preds_nodup w) hm

/-- Instance of `predecessors_are_sets` on the stream `[0,1,0,1,0,1]`. -/
theorem predecessors_are_sets_witness :
    (∀ x ∈ [0, 1, 0, 1, 0, 1], x < 2)
    ∧ ((0 : Nat) ∈ (buildStatistics 2 [0, 1, 0, 1, 0, 1]).predecessors.getD 1 []
        ↔ ∃ i, [0, 1, 0, 1, 0, 1][i]? = some 0 ∧ [0, 1, 0, 1, 0, 1][i + 1]? = some 1) :=
  ⟨by decide, (predecessors_are_sets 2 [0, 1, 0, 1, 0, 1] (by decide)).1 1 0⟩

/-- C7: after the pass of the builder `double_word_count[w]` is the number of
positions where `w` is followed by itself, which is the value `successors[w][w]`
when that key is present and zero otherwise. -/
theorem double_word_count_counts_self_bigrams (num_words : Nat) (s : List Nat)
    (hs : ∀ x ∈ s, x < num_words) :
    (∀ w, vget (buildStatistics num_words s).double_word_count w
        = (bigramOccurrences s w w : Int))
    ∧ (∀ w, vget (buildStatistics num_words s).double_word_count w
        = match successorEntry (buildStatistics num_words s) w w with
          | some v => v
          | none => 0) := by
  have ht := tracks_buildStatistics num_words s hs
  refine ⟨?_, ?_⟩
  · intro w
    rw [ht.dwc w, bigramOccurrences_eq_count]
  · intro w
    rw [ht.dwc w, ht.entry w w]
    by_cases c : (bigrams s).count (w, w) = 0
    · simp [c]
    · simp [c]

/-- Instance of `double_word_count_counts_self_bigrams` on a stream with
repeated words. -/
theorem double_word_count_counts_self_bigrams_witness :
    (∀ x ∈ [0, 0, 0, 2, 2, 1, 0, 0], x < 3)
    ∧ vget (buildStatistics 3 [0, 0, 0, 2, 2, 1, 0, 0]).double_word_count 0
        = (bigramOccurrences [0, 0, 0, 2, 2, 1, 0, 0] 0 0 : Int) :=
  ⟨by decide, (double_word_count_counts_self_bigrams 3 [0, 0, 0, 2, 2, 1, 0, 0] (by decide)).1 0⟩

theorem maxElementFrom_spec {α : Type} [LinearOrder α] (rest : List α) :
    ∀ (pre : List α) (largest : Nat) (best : α),
      pre[largest]? = some best →
      (∀ (j : Nat) (x : α), pre[j]? = some x → x ≤ best) →
      (∀ (j : Nat) (x : α), j < largest → pre[j]? = some x → x < best) →
      ∃ v, (pre ++ rest)[maxElementFrom rest largest best pre.length]? = some v
        ∧ (∀ (j : Nat) (x : α), (pre ++ rest)[j]? = some x → x ≤ v)
        ∧ (∀ (j : Nat) (x : α), j < maxElementFrom rest largest best pre.length →
            (pre ++ rest)[j]? = some x → x < v) := by
  induction rest with
  | nil =>
    intro pre largest best h1 h2 h3
    refine ⟨best, ?_, ?_, ?_⟩
    · simpa [maxElementFrom] using h1
    · simpa using h2
    · simpa [maxElementFrom] using h3
  | cons y rest ih =>
    intro pre largest best h1 h2 h3
    have hlt : largest < pre.length := by
      by_contra hc
      rw [List.getElem?_eq_none (by omega)] at h1
      cases h1
    have happ : pre ++ y :: rest = (pre ++ [y]) ++ rest := by simp
    have hlen : (pre ++ [y]).length = pre.length + 1 := by simp
    have hget : ∀ (j : Nat) (x : α), (pre ++ [y])[j]? = some x →
        (j < pre.length ∧ pre[j]? = some x) ∨ (j = pre.length ∧ x = y) := by
      intro j x hj
      by_cases c : j < pre.length
      · left
        rw [List.getElem?_append_left c] at hj
        exact ⟨c, hj⟩
      · right
        have c2 : pre.length ≤ j := by omega
        rw [List.getElem?_append_right c2] at hj
        by_cases c3 : j - pre.length = 0
        · rw [c3] at hj
          simp at hj
          exact ⟨by omega, hj.symm⟩
        · obtain ⟨n, hn⟩ := Nat.exists_eq_succ_of_ne_zero c3
          rw [hn] at hj
          simp at hj
    unfold maxElementFrom
    by_cases hb : best < y
    · rw [if_pos hb, happ, ← hlen]
      apply ih (pre ++ [y]) pre.length y
      · simp
      · intro j x hj
        rcases hget j x hj with ⟨_, hp⟩ | ⟨_, hx⟩
        · exact le_of_lt (lt_of_le_of_lt (h2 j x hp) hb)
        · rw [hx]
      · intro j x hjl hj
        rcases hget j x hj with ⟨_, hp⟩ | ⟨hjeq, _⟩
        · exact lt_of_le_of_lt (h2 j x hp) hb
        · omega
    · rw [if_neg hb, happ, ← hlen]
      apply ih (pre ++ [y]) largest best
      · rw [List.getElem?_append_left hlt]; exact h1
      · intro j x hj
        rcases hget j x hj with ⟨_, hp⟩ | ⟨_, hx⟩
        · exact h2 j x hp
        · rw [hx]; exact not_lt.1 hb
      · intro j x hjl hj
        rcases hget j x hj with ⟨_, hp⟩ | ⟨hjeq, _⟩
        · exact h3 j x hjl hp
        · omega

theorem max_element_spec {α : Type} [LinearOrder α] (scores : List α)
    (hne : scores ≠ []) :
    max_element scores < scores.length
    ∧ ∃ best, scores[max_element scores]? = some best
      ∧ (∀ (j : Nat) (x : α), scores[j]? = some x → x ≤ best)
      ∧ (∀ (j : Nat) (x : α), j < max_element scores → scores[j]? = some x → x < best) := by
  cases scores with
  | nil => exact absurd rfl hne
  | cons x rest =>
    have h := maxElementFrom_spec rest [x] 0 x (by simp)
      (by
        intro j y hj
        cases j with
        | zero => simp at hj; rw [hj]
        | succ n => simp at hj)
      (by intro j y hj _; omega)
    obtain ⟨v, hv1, hv2, hv3⟩ := h
    have hv1b : (x :: rest)[max_element (x :: rest)]? = some v := by
      simpa [max_element] using hv1
    refine ⟨?_, v, hv1b, ?_, ?_⟩
    · by_contra hc
      rw [List.getElem?_eq_none (by omega)] at hv1b
      cases hv1b
    · simpa using hv2
    · simpa [max_element] using hv3

/-- C8: the index returned by `std::max_element` on a non-empty score vector
is a valid index, no score is larger than the score at that index, and every
score at a lower index is strictly smaller: the lowest index of a maximal
score is selected. -/
theorem max_element_selects_first_maximum {α : Type} [LinearOrder α] (scores : List α)
    (hne : scores ≠ []) :
    max_element scores < scores.length
    ∧ ∃ best, scores[max_element scores]? = some best
      ∧ (∀ (j : Nat) (x : α), scores[j]? = some x → x ≤ best)
      ∧ (∀ (j : Nat) (x : α), j < max_element scores → scores[j]? = some x → x < best) :=
  max_element_spec scores hne

/-- Instance of `max_element_selects_first_maximum` on a vector with a tie:
the first of the two maximal scores is selected. -/
theorem max_element_selects_first_maximum_witness :
    ([1, 5, 3, 5] : List Int) ≠ []
    ∧ max_element ([1, 5, 3, 5] : List Int) = 1
    ∧ max_element ([1, 5, 3, 5] : List Int) < ([1, 5, 3, 5] : List Int).length :=
  ⟨by decide, by decide,
    (max_element_selects_first_maximum ([1, 5, 3, 5] : List Int) (by decide)).1⟩

theorem sum_map_range {M : Type} [AddCommMonoid M] (n : Nat) (f : Nat → M) :
    ((List.range n).map f).sum = ∑ i in Finset.range n, f i := by
  induction n with
  | zero => simp
  | succ n ih => rw [List.range_succ, List.map_append, List.sum_append, ih,
      Finset.sum_range_succ]; simp

theorem foldl_vadd_length {β : Type} (idx : β → Nat) (val : β → Int) (l : List β) :
    ∀ acc : List Int, (l.foldl (fun a x => vadd a (idx x) (val x)) acc).length = acc.length := by
  induction l with
  | nil => intro acc; rfl
  | cons x rest ih => intro acc; rw [List.foldl_cons, ih, vadd_length]

theorem vget_foldl_vadd {β : Type} (idx : β → Nat) (val : β → Int) (l : List β) (c : Nat) :
    ∀ acc : List Int, (∀ x ∈ l, idx x < acc.length) →
      vget (l.foldl (fun a x => vadd a (idx x) (val x)) acc) c
        = vget acc c + (l.map (fun x => if idx x = c then val x else 0)).sum := by
  induction l with
  | nil => intro acc _; simp
  | cons x rest ih =>
    intro acc h
    rw [List.foldl_cons, ih, vget_vadd _ _ _ _ (h x (List.mem_cons_self _ _))]
    · rw [List.map_cons, List.sum_cons]
      by_cases e : idx x = c
      · have e2 : c = idx x := e.symm
        rw [if_pos e, if_pos e2]; ring
      · have e2 : ¬ c = idx x := fun q => e q.symm
        rw [if_neg e, if_neg e2]; ring
    · intro y hy
      rw [vadd_length]
      exact h y (List.mem_cons_of_mem _ hy)

theorem foldl_madd_square {β : Type} {K : Nat} (ri ci : β → Nat) (val : β → Int)
    (l : List β) :
    ∀ m : List (List Int), Square K m →
      Square K (l.foldl (fun b x => madd b (ri x) (ci x) (val x)) m) := by
  induction l with
  | nil => intro m h; exact h
  | cons x rest ih => intro m h; rw [List.foldl_cons]; exact ih _ (madd_square h _ _ _)

theorem mget_foldl_madd {β : Type} {K : Nat} (ri ci : β → Nat) (val : β → Int)
    (l : List β) (a b : Nat) :
    ∀ m : List (List Int), Square K m → (∀ x ∈ l, ri x < K ∧ ci x < K) →
      mget (l.foldl (fun b x => madd b (ri x) (ci x) (val x)) m) a b
        = mget m a b + (l.map (fun x => if ri x = a ∧ ci x = b then val x else 0)).sum := by
  induction l with
  | nil => intro m _ _; simp
  | cons x rest ih =>
    intro m hm h
    have hx := h x (List.mem_cons_self _ _)
    rw [List.foldl_cons, ih _ (madd_square hm _ _ _)
      (fun y hy => h y (List.mem_cons_of_mem _ hy)), mget_madd hm _ _ _ _ _ hx.1 hx.2]
    rw [List.map_cons, List.sum_cons]
    by_cases e : ri x = a ∧ ci x = b
    · have e2 : a = ri x ∧ b = ci x := ⟨e.1.symm, e.2.symm⟩
      rw [if_pos e, if_pos e2]; ring
    · have e2 : ¬ (a = ri x ∧ b = ci x) := fun q => e ⟨q.1.symm, q.2.symm⟩
      rw [if_neg e, if_neg e2]; ring

theorem removeFromRow_eq (old : Nat) (pred succ : List Int) :
    removeFromRow old pred succ
      = crossUpdate old (fun c => -(vget pred c)) (fun c => -(vget succ c)) := rfl

theorem insertIntoRow_eq (k : Nat) (pred succ : List Int) :
    insertIntoRow k pred succ
      = crossUpdate k (fun c => vget pred c) (fun c => vget succ c) := rfl

theorem crossUpdate_square {K : Nat} (k : Nat) (f g : Nat → Int) (l : List Nat) :
    ∀ m : List (List Int), Square K m → Square K (l.foldl (crossUpdate k f g) m) := by
  induction l with
  | nil => intro m h; exact h
  | cons x rest ih =>
    intro m h
    rw [List.foldl_cons]
    apply ih
    unfold crossUpdate
    split
    · exact madd_square (madd_square h _ _ _) _ _ _
    · exact h

theorem mget_foldl_crossUpdate {K : Nat} (k : Nat) (hk : k < K) (f g : Nat → Int)
    (l : List Nat) (a b : Nat) :
    ∀ m : List (List Int), Square K m → (∀ x ∈ l, x < K) →
      mget (l.foldl (crossUpdate k f g) m) a b
        = mget m a b + (l.map (fun c =>
            (if c ≠ k ∧ a = c ∧ b = k then f c else 0)
            + (if c ≠ k ∧ a = k ∧ b = c then g c else 0))).sum := by
  induction l with
  | nil => intro m _ _; simp
  | cons x rest ih =>
    intro m hm h
    have hx := h x (List.mem_cons_self _ _)
    have hsq : Square K (crossUpdate k f g m x) := by
      unfold crossUpdate
      split
      · exact madd_square (madd_square hm _ _ _) _ _ _
      · exact hm
    rw [List.foldl_cons, ih _ hsq (fun y hy => h y (List.mem_cons_of_mem _ hy)),
      List.map_cons, List.sum_cons]
    have hstep : mget (crossUpdate k f g m x) a b = mget m a b +
        ((if x ≠ k ∧ a = x ∧ b = k then f x else 0)
          + (if x ≠ k ∧ a = k ∧ b = x then g x else 0)) := by
      unfold crossUpdate
      by_cases e : x = k
      · simp [e]
      · rw [if_pos e, mget_madd (madd_square hm _ _ _) _ _ _ _ _ hk hx,
          mget_madd hm _ _ _ _ _ hx hk]
        simp only [e, ne_eq, not_false_eq_true, true_and]
        ring
    rw [hstep]; ring

theorem mget_crossUpdate_range {K : Nat} (k : Nat) (hk : k < K) (f g : Nat → Int)
    (m : List (List Int)) (hm : Square K m) (a b : Nat) (ha : a < K) (hb : b < K) :
    mget ((List.range K).foldl (crossUpdate k f g) m) a b
      = mget m a b + (if a ≠ k ∧ b = k then f a else 0)
        + (if a = k ∧ b ≠ k then g b else 0) := by
  rw [mget_foldl_crossUpdate k hk f g _ a b m hm (fun x hx => List.mem_range.1 hx),
    sum_map_range, Finset.sum_add_distrib]
  have h1 : (∑ c in Finset.range K, if c ≠ k ∧ a = c ∧ b = k then f c else 0)
      = if a ≠ k ∧ b = k then f a else 0 := by
    rw [Finset.sum_eq_single a]
    · by_cases e : a ≠ k ∧ b = k
      · rw [if_pos e, if_pos ⟨e.1, rfl, e.2⟩]
      · rw [if_neg e, if_neg (fun q => e ⟨q.1, q.2.2⟩)]
    · intro c _ hc
      rw [if_neg (fun q => hc q.2.1.symm)]
    · intro h; exact absurd (Finset.mem_range.2 ha) h
  have h2 : (∑ c in Finset.range K, if c ≠ k ∧ a = k ∧ b = c then g c else 0)
      = if a = k ∧ b ≠ k then g b else 0 := by
    rw [Finset.sum_eq_single b]
    · by_cases e : a = k ∧ b ≠ k
      · rw [if_pos e, if_pos ⟨e.2, e.1, rfl⟩]
      · rw [if_neg e, if_neg (fun q => e ⟨q.2.1, q.1⟩)]
    · intro c _ hc
      rw [if_neg (fun q => hc q.2.2.symm)]
    · intro h; exact absurd (Finset.mem_range.2 hb) h
  rw [h1, h2]; ring

theorem tracks_wellFormed {N : Nat} {st : CorpusStatistics} {ps : List (Nat × Nat)}
    {ws : List Nat} (h : Tracks N st ps ws) : WellFormed N st where
  len_wc := h.len_wc
  len_dwc := h.len_dwc
  len_succ := h.len_succ
  len_pred := h.len_pred
  keys := h.keys
  key_range := fun w k hk => (h.range (w, k) ((tracks_entry_keys h w k).1 hk)).2
  value_pos := fun w w2 v hv => by
    rw [h.entry w w2] at hv
    by_cases c : ps.count (w, w2) = 0
    · rw [if_pos c] at hv; cases hv
    · rw [if_neg c] at hv
      cases hv
      exact_mod_cast Nat.pos_of_ne_zero c
  preds_nodup := h.preds_nodup
  preds := fun w p => by rw [h.preds w p, tracks_entry_keys h]
  dwc := fun w => by
    rw [h.dwc w, successorCount, h.entry w w]
    by_cases c : ps.count (w, w) = 0
    · simp [c]
    · simp [c]
  wc_nonneg := fun w => by rw [h.wc w]; exact Int.natCast_nonneg _

theorem wellFormed_buildStatistics (N : Nat) (s : List Nat) (hs : ∀ x ∈ s, x < N) :
    WellFormed N (buildStatistics N s) :=
  tracks_wellFormed (tracks_buildStatistics N s hs)

theorem sum_split_at {M : Type} [AddCommMonoid M] (N w : Nat) (hw : w < N) (F : Nat → M) :
    ∑ x in Finset.range N, F x
      = (∑ x in Finset.range N, if x ≠ w then F x else 0) + F w := by
  have h : ∀ x ∈ Finset.range N, F x
      = (if x ≠ w then F x else 0) + (if x = w then F x else 0) := by
    intro x _
    by_cases e : x = w
    · simp [e]
    · simp [e]
  rw [Finset.sum_congr rfl h, Finset.sum_add_distrib]
  congr 1
  rw [Finset.sum_eq_single w]
  · simp
  · intro b _ hb; simp [hb]
  · intro h; exact absurd (Finset.mem_range.2 hw) h

theorem aggregateUnary_split (stats : CorpusStatistics) (cl : List Nat) (N w c : Nat)
    (hw : w < N) :
    aggregateUnary stats cl N c
      = restUnary stats cl N w c
        + if cl.getD w 0 = c then vget stats.word_count w else 0 := by
  unfold aggregateUnary restUnary
  rw [sum_split_at N w hw]
  congr 1
  apply Finset.sum_congr rfl
  intro x _
  by_cases e : x = w
  · simp [e, -List.getD_eq_getElem?_getD]
  · simp [e, -List.getD_eq_getElem?_getD]

theorem aggregateBinary_split (stats : CorpusStatistics) (cl : List Nat) (N w a b : Nat)
    (hw : w < N) :
    aggregateBinary stats cl N a b
      = restBinary stats cl N w a b
        + (if cl.getD w 0 = a then restSucc stats cl N w b else 0)
        + (if cl.getD w 0 = b then restPred stats cl N w a else 0)
        + (if cl.getD w 0 = a ∧ cl.getD w 0 = b then successorCount stats w w else 0) := by
  unfold aggregateBinary restBinary restSucc restPred
  have hinner : ∀ x, (∑ y in Finset.range N,
      if cl.getD x 0 = a ∧ cl.getD y 0 = b then successorCount stats x y else 0)
      = (∑ y in Finset.range N,
          if y ≠ w ∧ cl.getD x 0 = a ∧ cl.getD y 0 = b then successorCount stats x y else 0)
        + (if cl.getD x 0 = a ∧ cl.getD w 0 = b then successorCount stats x w else 0) := by
    intro x
    rw [sum_split_at N w hw]
    congr 1
    apply Finset.sum_congr rfl
    intro y _
    by_cases e : y = w
    · simp [e, -List.getD_eq_getElem?_getD]
    · simp [e, -List.getD_eq_getElem?_getD]
  simp only [hinner, Finset.sum_add_distrib]
  rw [sum_split_at N w hw (fun x => ∑ y in Finset.range N,
      if y ≠ w ∧ cl.getD x 0 = a ∧ cl.getD y 0 = b then successorCount stats x y else 0),
    sum_split_at N w hw (fun x =>
      if cl.getD x 0 = a ∧ cl.getD w 0 = b then successorCount stats x w else 0)]
  have e1 : (∑ x in Finset.range N, if x ≠ w then (∑ y in Finset.range N,
      if y ≠ w ∧ cl.getD x 0 = a ∧ cl.getD y 0 = b then successorCount stats x y else 0)
      else 0)
      = ∑ x in Finset.range N, ∑ y in Finset.range N,
        if x ≠ w ∧ y ≠ w ∧ cl.getD x 0 = a ∧ cl.getD y 0 = b
        then successorCount stats x y else 0 := by
    apply Finset.sum_congr rfl
    intro x _
    by_cases e : x = w
    · simp [e, -List.getD_eq_getElem?_getD]
    · simp [e, -List.getD_eq_getElem?_getD]
  have e2 : (∑ y in Finset.range N,
      if y ≠ w ∧ cl.getD w 0 = a ∧ cl.getD y 0 = b then successorCount stats w y else 0)
      = if cl.getD w 0 = a then (∑ y in Finset.range N,
          if y ≠ w ∧ cl.getD y 0 = b then successorCount stats w y else 0) else 0 := by
    by_cases e : cl.getD w 0 = a
    · simp [e, -List.getD_eq_getElem?_getD]
    · simp [e, -List.getD_eq_getElem?_getD]
  have e3 : (∑ x in Finset.range N, if x ≠ w then
      (if cl.getD x 0 = a ∧ cl.getD w 0 = b then successorCount stats x w else 0) else 0)
      = if cl.getD w 0 = b then (∑ p in Finset.range N,
          if p ≠ w ∧ cl.getD p 0 = a then successorCount stats p w else 0) else 0 := by
    by_cases e : cl.getD w 0 = b
    · rw [if_pos e]
      apply Finset.sum_congr rfl
      intro x _
      by_cases e5 : x = w
      · simp [e5, -List.getD_eq_getElem?_getD]
      · simp [e5, e, -List.getD_eq_getElem?_getD]
    · rw [if_neg e]
      apply Finset.sum_eq_zero
      intro x _
      simp [e, -List.getD_eq_getElem?_getD]
  rw [e1, e2, e3]
  ring

theorem restUnary_congr (stats : CorpusStatistics) (cl1 cl2 : List Nat) (N w c : Nat)
    (h : ∀ x, x ≠ w → cl2.getD x 0 = cl1.getD x 0) :
    restUnary stats cl2 N w c = restUnary stats cl1 N w c := by
  unfold restUnary
  apply Finset.sum_congr rfl
  intro x _
  by_cases e : x = w
  · simp [e, -List.getD_eq_getElem?_getD]
  · rw [h x e]

theorem restPred_congr (stats : CorpusStatistics) (cl1 cl2 : List Nat) (N w c : Nat)
    (h : ∀ x, x ≠ w → cl2.getD x 0 = cl1.getD x 0) :
    restPred stats cl2 N w c = restPred stats cl1 N w c := by
  unfold restPred
  apply Finset.sum_congr rfl
  intro x _
  by_cases e : x = w
  · simp [e, -List.getD_eq_getElem?_getD]
  · rw [h x e]

theorem restSucc_congr (stats : CorpusStatistics) (cl1 cl2 : List Nat) (N w c : Nat)
    (h : ∀ x, x ≠ w → cl2.getD x 0 = cl1.getD x 0) :
    restSucc stats cl2 N w c = restSucc stats cl1 N w c := by
  unfold restSucc
  apply Finset.sum_congr rfl
  intro x _
  by_cases e : x = w
  · simp [e, -List.getD_eq_getElem?_getD]
  · rw [h x e]

theorem restBinary_congr (stats : CorpusStatistics) (cl1 cl2 : List Nat) (N w a b : Nat)
    (h : ∀ x, x ≠ w → cl2.getD x 0 = cl1.getD x 0) :
    restBinary stats cl2 N w a b = restBinary stats cl1 N w a b := by
  unfold restBinary
  apply Finset.sum_congr rfl
  intro x _
  apply Finset.sum_congr rfl
  intro y _
  by_cases e : x = w
  · simp [e, -List.getD_eq_getElem?_getD]
  · by_cases e2 : y = w
    · simp [e2, -List.getD_eq_getElem?_getD]
    · rw [h x e, h y e2]

theorem set_getD_self {β : Type} (l : List β) (i : Nat) (d : β) : l.set i (l.getD i d) = l := by
  by_cases h : i < l.length
  · apply List.ext_getElem (by simp)
    intro n h1 h2
    rw [List.getElem_set]
    by_cases e : i = n
    · subst e
      rw [if_pos rfl, List.getD_eq_getElem _ _ h]
    · rw [if_neg e]
  · rw [List.set_eq_of_length_le (by omega)]

theorem mem_keys_lt_length (succs : List (List (Nat × Int))) (p w : Nat)
    (h : w ∈ mapKeys (succs.getD p [])) : p < succs.length := by
  by_contra hc
  rw [List.getD_eq_default _ _ (by omega)] at h
  simp [mapKeys] at h

theorem foldl_gatherPredecessor (cl : List Nat) (w : Nat) (succs : List (List (Nat × Int)))
    (l : List Nat) (hl : ∀ p ∈ l, w ∈ mapKeys (succs.getD p [])) :
    ∀ acc : List Int,
      l.foldl (gatherPredecessor cl w) (succs, acc)
        = (succs, l.foldl (fun a p => vadd a (cl.getD p 0)
            ((mapFind (succs.getD p []) w).getD 0)) acc) := by
  induction l with
  | nil => intro acc; rfl
  | cons p rest ih =>
    intro acc
    have hp := hl p (List.mem_cons_self _ _)
    have hstep : gatherPredecessor cl w (succs, acc) p
        = (succs, vadd acc (cl.getD p 0) ((mapFind (succs.getD p []) w).getD 0)) := by
      unfold gatherPredecessor mapIndex
      cases hf : mapFind (succs.getD p []) w with
      | none => exact absurd hp ((mapFind_eq_none_iff _ _).1 hf)
      | some v =>
        simp only [Option.getD_some]
        rw [set_getD_self]
    rw [List.foldl_cons, hstep, ih (fun q hq => hl q (List.mem_cons_of_mem _ hq))]
    rfl

theorem successorCount_eq_zero_of_not_mem (stats : CorpusStatistics) (p w : Nat)
    (h : w ∉ mapKeys (stats.successors.getD p [])) : successorCount stats p w = 0 := by
  unfold successorCount successorEntry
  rw [(mapFind_eq_none_iff _ _).2 h]
  rfl

theorem gatherProfiles_spec {N K : Nat} {stats : CorpusStatistics} (hwf : WellFormed N stats)
    (cl : List Nat) (hcl : ∀ x, x < N → cl.getD x 0 < K) (w : Nat) (hw : w < N) :
    (gatherProfiles stats cl K w).1 = stats
    ∧ (gatherProfiles stats cl K w).2.1.length = K
    ∧ (gatherProfiles stats cl K w).2.2.length = K
    ∧ (∀ c, vget (gatherProfiles stats cl K w).2.1 c
        = restPred stats cl N w c
          + if cl.getD w 0 = c then successorCount stats w w else 0)
    ∧ (∀ c, vget (gatherProfiles stats cl K w).2.2 c
        = restSucc stats cl N w c
          + if cl.getD w 0 = c then successorCount stats w w else 0) := by
  have hpl : ∀ p ∈ stats.predecessors.getD w [], w ∈ mapKeys (stats.successors.getD p []) :=
    fun p hp => (hwf.preds w p).1 hp
  have hplt : ∀ p ∈ stats.predecessors.getD w [], p < N := fun p hp => by
    have := mem_keys_lt_length _ _ _ (hpl p hp)
    rw [hwf.len_succ] at this
    exact this
  have hfold := foldl_gatherPredecessor cl w stats.successors _ hpl (List.replicate K 0)
  have hz : ∀ c, vget (List.replicate K (0 : Int)) c = 0 := fun c => by
    unfold vget; exact getD_replicate_self _ _ _
  unfold gatherProfiles
  simp only [hfold]
  refine ⟨trivial, ?_, ?_, ?_, ?_⟩
  · rw [foldl_vadd_length]; simp
  · rw [foldl_vadd_length]; simp
  · intro c
    rw [vget_foldl_vadd _ _ _ _ _
      (fun p hp => by rw [List.length_replicate]; exact hcl p (hplt p hp)), hz, zero_add]
    rw [sum_list_eq_sum_range N _ _ (hwf.preds_nodup w) hplt]
    · unfold restPred
      rw [sum_split_at N w hw]
      congr 1
      apply Finset.sum_congr rfl
      intro p _
      by_cases e : p = w
      · simp [e, -List.getD_eq_getElem?_getD]
      · simp [e, -List.getD_eq_getElem?_getD, successorCount, successorEntry]
    · intro p hp
      have hk : w ∉ mapKeys (stats.successors.getD p []) := fun q => hp ((hwf.preds w p).2 q)
      rw [(mapFind_eq_none_iff _ _).2 hk]
      simp
  · intro c
    rw [vget_foldl_vadd _ _ _ _ _
      (fun e he => by
        rw [List.length_replicate]
        exact hcl e.1 (hwf.key_range w e.1 (List.mem_map.2 ⟨e, he, rfl⟩))), hz, zero_add]
    rw [sum_entries_eq_sum_range N (stats.successors.getD w [])
      (fun k v => if cl.getD k 0 = c then v else 0) (hwf.keys w) (hwf.key_range w)
      (fun k => by simp)]
    unfold restSucc
    rw [sum_split_at N w hw]
    congr 1
    apply Finset.sum_congr rfl
    intro p _
    by_cases e : p = w
    · simp [e, -List.getD_eq_getElem?_getD]
    · simp [e, -List.getD_eq_getElem?_getD, successorCount, successorEntry]

theorem removeWord_spec {N K : Nat} {stats : CorpusStatistics} (hwf : WellFormed N stats)
    {cs : ClusterState} (hc : Consistent N K stats cs) (w : Nat) (hw : w < N)
    (pred succ : List Int) (hlp : pred.length = K) (hls : succ.length = K)
    (hp : ∀ c, vget pred c = restPred stats cs.clusters N w c
        + if cs.clusters.getD w 0 = c then successorCount stats w w else 0)
    (hs : ∀ c, vget succ c = restSucc stats cs.clusters N w c
        + if cs.clusters.getD w 0 = c then successorCount stats w w else 0) :
    Removed N K stats (removeWord stats cs K w pred succ).1 w
      (removeWord stats cs K w pred succ).2.1 (removeWord stats cs K w pred succ).2.2 := by
  have hold : cs.clusters.getD w 0 < K := hc.range w hw
  have hsq1 : Square K ((List.range K).foldl
      (removeFromRow (cs.clusters.getD w 0) pred succ) cs.binary_cluster_count) := by
    rw [removeFromRow_eq]; exact crossUpdate_square _ _ _ _ _ hc.square
  refine
    { len_clusters := hc.len_clusters, range := hc.range, len_unary := ?_, square := ?_,
      len_pred := ?_, len_succ := ?_, unary := ?_, binary := ?_, pred := ?_, succ := ?_ }
  · show (vadd _ _ _).length = K
    rw [vadd_length]; exact hc.len_unary
  · exact madd_square hsq1 _ _ _
  · show (vadd _ _ _).length = K
    rw [vadd_length]; exact hlp
  · show (vadd _ _ _).length = K
    rw [vadd_length]; exact hls
  · intro c
    show vget (vadd cs.unary_cluster_count (cs.clusters.getD w 0)
      (-(vget stats.word_count w))) c = restUnary stats cs.clusters N w c
    rw [vget_vadd _ _ _ _ (by rw [hc.len_unary]; exact hold), hc.unary c,
      aggregateUnary_split stats cs.clusters N w c hw]
    by_cases e : cs.clusters.getD w 0 = c
    · rw [if_pos e, if_pos e.symm]; ring
    · rw [if_neg e, if_neg (fun q => e q.symm)]; ring
  · intro a b ha hb
    show mget (madd ((List.range K).foldl
      (removeFromRow (cs.clusters.getD w 0) pred succ) cs.binary_cluster_count)
      (cs.clusters.getD w 0) (cs.clusters.getD w 0)
      (vget stats.double_word_count w - vget pred (cs.clusters.getD w 0)
        - vget succ (cs.clusters.getD w 0))) a b = restBinary stats cs.clusters N w a b
    rw [mget_madd hsq1 _ _ _ _ _ hold hold, removeFromRow_eq,
      mget_crossUpdate_range _ hold _ _ _ hc.square a b ha hb, hc.binary a b ha hb,
      aggregateBinary_split stats cs.clusters N w a b hw, hwf.dwc w, hp, hs, hp, hs]
    by_cases e1 : a = cs.clusters.getD w 0
    · by_cases e2 : b = cs.clusters.getD w 0
      · subst e1; subst e2
        simp only [ne_eq, not_true_eq_false, false_and, and_false, if_false, and_self,
          if_true]
        ring
      · subst e1
        have e3 : ¬ cs.clusters.getD w 0 = b := fun q => e2 q.symm
        simp only [ne_eq, not_true_eq_false, false_and, e2, e3, and_false, if_false,
          not_false_eq_true, and_self, if_true]
        ring
    · have e1b : ¬ cs.clusters.getD w 0 = a := fun q => e1 q.symm
      by_cases e2 : b = cs.clusters.getD w 0
      · subst e2
        simp only [ne_eq, e1, e1b, not_false_eq_true, and_self, if_true, false_and,
          if_false, not_true_eq_false, and_false]
        ring
      · have e3 : ¬ cs.clusters.getD w 0 = b := fun q => e2 q.symm
        simp only [ne_eq, e1, e1b, e2, e3, not_false_eq_true, and_false, false_and,
          if_false, and_self]
        ring
  · intro c
    show vget (vadd pred (cs.clusters.getD w 0) (-(vget stats.double_word_count w))) c
      = restPred stats cs.clusters N w c
    rw [vget_vadd _ _ _ _ (by rw [hlp]; exact hold), hp, hwf.dwc w]
    by_cases e : cs.clusters.getD w 0 = c
    · rw [if_pos e, if_pos e.symm]; ring
    · rw [if_neg e, if_neg (fun q => e q.symm)]; ring
  · intro c
    show vget (vadd succ (cs.clusters.getD w 0) (-(vget stats.double_word_count w))) c
      = restSucc stats cs.clusters N w c
    rw [vget_vadd _ _ _ _ (by rw [hls]; exact hold), hs, hwf.dwc w]
    by_cases e : cs.clusters.getD w 0 = c
    · rw [if_pos e, if_pos e.symm]; ring
    · rw [if_neg e, if_neg (fun q => e q.symm)]; ring

theorem recordAssignment_clusters (cs : ClusterState) (w k : Nat)
    (hw : w < cs.clusters.length) (x : Nat) :
    (recordAssignment cs w k).1.clusters.getD x 0
      = if x = w then k else cs.clusters.getD x 0 := by
  unfold recordAssignment
  by_cases e : k ≠ cs.clusters.getD w 0
  · rw [if_pos e]
    exact getD_set_eq _ _ _ _ _ hw
  · rw [if_neg e]
    have e2 : k = cs.clusters.getD w 0 := not_not.1 e
    by_cases e3 : x = w
    · rw [if_pos e3, e3, e2]
    · rw [if_neg e3]

theorem recordAssignment_length (cs : ClusterState) (w k : Nat) :
    (recordAssignment cs w k).1.clusters.length = cs.clusters.length := by
  unfold recordAssignment
  split
  · simp
  · rfl

theorem recordAssignment_unary (cs : ClusterState) (w k : Nat) :
    (recordAssignment cs w k).1.unary_cluster_count = cs.unary_cluster_count := by
  unfold recordAssignment
  split <;> rfl

theorem recordAssignment_binary (cs : ClusterState) (w k : Nat) :
    (recordAssignment cs w k).1.binary_cluster_count = cs.binary_cluster_count := by
  unfold recordAssignment
  split <;> rfl

theorem insertWord_clusters (stats : CorpusStatistics) (cs : ClusterState) (K w : Nat)
    (pred succ : List Int) (k : Nat) :
    (insertWord stats cs K w pred succ k).clusters = cs.clusters := rfl

theorem insertWord_unary {N K : Nat} {stats : CorpusStatistics} {cs : ClusterState} {w : Nat}
    {pred succ : List Int} (hr : Removed N K stats cs w pred succ) (k : Nat) (hk : k < K)
    (c : Nat) :
    vget (insertWord stats cs K w pred succ k).unary_cluster_count c
      = restUnary stats cs.clusters N w c + if k = c then vget stats.word_count w else 0 := by
  show vget (vadd cs.unary_cluster_count k (vget stats.word_count w)) c = _
  rw [vget_vadd _ _ _ _ (by rw [hr.len_unary]; exact hk), hr.unary c]
  by_cases e : k = c
  · rw [if_pos e, if_pos e.symm]
  · rw [if_neg e, if_neg (fun q => e q.symm)]

theorem insertWord_square {N K : Nat} {stats : CorpusStatistics} {cs : ClusterState} {w : Nat}
    {pred succ : List Int} (hr : Removed N K stats cs w pred succ) (k : Nat) :
    Square K (insertWord stats cs K w pred succ k).binary_cluster_count := by
  show Square K (madd ((List.range K).foldl (insertIntoRow k pred succ)
    cs.binary_cluster_count) k k _)
  rw [insertIntoRow_eq]
  exact madd_square (crossUpdate_square _ _ _ _ _ hr.square) _ _ _

theorem insertWord_binary {N K : Nat} {stats : CorpusStatistics} {cs : ClusterState} {w : Nat}
    {pred succ : List Int} (hr : Removed N K stats cs w pred succ) (k : Nat) (hk : k < K)
    (a b : Nat) (ha : a < K) (hb : b < K) :
    mget (insertWord stats cs K w pred succ k).binary_cluster_count a b
      = restBinary stats cs.clusters N w a b
        + (if k = a then restSucc stats cs.clusters N w b else 0)
        + (if k = b then restPred stats cs.clusters N w a else 0)
        + (if k = a ∧ k = b then vget stats.double_word_count w else 0) := by
  show mget (madd ((List.range K).foldl (insertIntoRow k pred succ)
    cs.binary_cluster_count) k k
      (vget succ k + vget pred k + vget stats.double_word_count w)) a b = _
  rw [insertIntoRow_eq]
  rw [mget_madd (crossUpdate_square _ _ _ _ _ hr.square) _ _ _ _ _ hk hk,
    mget_crossUpdate_range _ hk _ _ _ hr.square a b ha hb, hr.binary a b ha hb]
  simp only [hr.pred, hr.succ]
  by_cases e1 : a = k
  · by_cases e2 : b = k
    · subst e1; subst e2
      simp only [ne_eq, not_true_eq_false, false_and, and_false, if_false, and_self,
        if_true]
      ring
    · subst e1
      have e3 : ¬ a = b := fun q => e2 q.symm
      simp only [ne_eq, not_true_eq_false, false_and, e2, e3, and_false, if_false,
        not_false_eq_true, and_self, if_true]
      ring
  · have e1b : ¬ k = a := fun q => e1 q.symm
    by_cases e2 : b = k
    · subst e2
      simp only [ne_eq, e1, e1b, not_false_eq_true, and_self, if_true, false_and,
        if_false, not_true_eq_false, and_false]
      ring
    · have e3 : ¬ k = b := fun q => e2 q.symm
      simp only [ne_eq, e1, e1b, e2, e3, not_false_eq_true, and_false, false_and,
        if_false, and_self, add_zero]

theorem moveWord_spec {N K : Nat} {stats : CorpusStatistics} (hwf : WellFormed N stats)
    {cs : ClusterState} (hc : Consistent N K stats cs) (w : Nat) (hw : w < N)
    (k : Nat) (hk : k < K) :
    (moveWord stats cs K w k).1 = stats
    ∧ Consistent N K stats (moveWord stats cs K w k).2.1
    ∧ (∀ x, (moveWord stats cs K w k).2.1.clusters.getD x 0
        = if x = w then k else cs.clusters.getD x 0) := by
  obtain ⟨hg1, hg2, hg3, hg4, hg5⟩ := gatherProfiles_spec hwf cs.clusters hc.range w hw
  have hr := removeWord_spec hwf hc w hw _ _ hg2 hg3 hg4 hg5
  have hrc : (removeWord stats cs K w (gatherProfiles stats cs.clusters K w).2.1
      (gatherProfiles stats cs.clusters K w).2.2).1.clusters = cs.clusters := rfl
  have hcl : ∀ x, (moveWord stats cs K w k).2.1.clusters.getD x 0
      = if x = w then k else cs.clusters.getD x 0 := by
    intro x
    unfold moveWord gatherAndRemove
    simp only [hg1]
    rw [recordAssignment_clusters _ _ _ (by rw [insertWord_clusters, hrc, hc.len_clusters]; exact hw)]
    rfl
  have hne : ∀ x, x ≠ w →
      (moveWord stats cs K w k).2.1.clusters.getD x 0 = cs.clusters.getD x 0 := by
    intro x hx; rw [hcl x, if_neg hx]
  have hww : (moveWord stats cs K w k).2.1.clusters.getD w 0 = k := by
    rw [hcl w, if_pos rfl]
  refine ⟨hg1, ?_, hcl⟩
  refine
    { len_clusters := ?_, range := ?_, len_unary := ?_, square := ?_, unary := ?_,
      binary := ?_ }
  · unfold moveWord gatherAndRemove
    simp only [hg1]
    rw [recordAssignment_length, insertWord_clusters, hrc, hc.len_clusters]
  · intro x hx
    rw [hcl x]
    by_cases e : x = w
    · rw [if_pos e]; exact hk
    · rw [if_neg e]; exact hc.range x hx
  · unfold moveWord gatherAndRemove
    simp only [hg1]
    rw [recordAssignment_unary]
    show (vadd _ _ _).length = K
    rw [vadd_length]
    exact hr.len_unary
  · unfold moveWord gatherAndRemove
    simp only [hg1]
    rw [recordAssignment_binary]
    exact insertWord_square hr k
  · intro c
    rw [aggregateUnary_split stats _ N w c hw, hww, restUnary_congr stats cs.clusters _ N w c hne]
    unfold moveWord gatherAndRemove
    simp only [hg1]
    rw [recordAssignment_unary, insertWord_unary hr k hk c]
    rfl
  · intro a b ha hb
    rw [aggregateBinary_split stats _ N w a b hw, hww,
      restBinary_congr stats cs.clusters _ N w a b hne,
      restSucc_congr stats cs.clusters _ N w b hne,
      restPred_congr stats cs.clusters _ N w a hne, ← hwf.dwc w]
    unfold moveWord gatherAndRemove
    simp only [hg1]
    rw [recordAssignment_binary, insertWord_binary hr k hk a b ha hb]
    rfl

theorem initWord_clusters (stats : CorpusStatistics) (cs : ClusterState) (w : Nat) :
    (initWord stats cs w).clusters = cs.clusters := rfl

theorem initWord_binary {N K : Nat} {stats : CorpusStatistics} (hwf : WellFormed N stats)
    (cs : ClusterState) (hcl : ∀ x, x < N → cs.clusters.getD x 0 < K)
    (hsq : Square K cs.binary_cluster_count) (w : Nat) (hw : w < N) (a b : Nat) :
    mget (initWord stats cs w).binary_cluster_count a b
      = mget cs.binary_cluster_count a b
        + ∑ y in Finset.range N,
            if cs.clusters.getD w 0 = a ∧ cs.clusters.getD y 0 = b
            then successorCount stats w y else 0 := by
  show mget ((stats.successors.getD w []).foldl
    (fun b entry => madd b (cs.clusters.getD w 0) (cs.clusters.getD entry.1 0) entry.2)
    cs.binary_cluster_count) a b = _
  rw [mget_foldl_madd (fun _ => cs.clusters.getD w 0) (fun e => cs.clusters.getD e.1 0)
    (fun e => e.2) _ a b _ hsq
    (fun e he => ⟨hcl w hw, hcl e.1 (hwf.key_range w e.1 (List.mem_map.2 ⟨e, he, rfl⟩))⟩)]
  rw [sum_entries_eq_sum_range N (stats.successors.getD w [])
    (fun k v => if cs.clusters.getD w 0 = a ∧ cs.clusters.getD k 0 = b then v else 0)
    (hwf.keys w) (hwf.key_range w) (fun k => by simp)]
  rfl

theorem initWord_square {K : Nat} {stats : CorpusStatistics}
    (cs : ClusterState) (hsq : Square K cs.binary_cluster_count) (w : Nat) :
    Square K (initWord stats cs w).binary_cluster_count :=
  foldl_madd_square _ _ _ _ _ hsq

theorem foldl_initWord {N K : Nat} {stats : CorpusStatistics} (hwf : WellFormed N stats)
    (l : List Nat) (hl : ∀ w ∈ l, w < N) :
    ∀ cs : ClusterState, (∀ x, x < N → cs.clusters.getD x 0 < K) →
      cs.unary_cluster_count.length = K → Square K cs.binary_cluster_count →
      (l.foldl (initWord stats) cs).clusters = cs.clusters
      ∧ (l.foldl (initWord stats) cs).unary_cluster_count.length = K
      ∧ Square K (l.foldl (initWord stats) cs).binary_cluster_count
      ∧ (∀ c, vget (l.foldl (initWord stats) cs).unary_cluster_count c
          = vget cs.unary_cluster_count c
            + (l.map (fun w => if cs.clusters.getD w 0 = c
                then vget stats.word_count w else 0)).sum)
      ∧ (∀ a b, mget (l.foldl (initWord stats) cs).binary_cluster_count a b
          = mget cs.binary_cluster_count a b
            + (l.map (fun w => ∑ y in Finset.range N,
                if cs.clusters.getD w 0 = a ∧ cs.clusters.getD y 0 = b
                then successorCount stats w y else 0)).sum) := by
  induction l with
  | nil =>
    intro cs _ hu hsq
    exact ⟨rfl, hu, hsq, fun c => by simp, fun a b => by simp⟩
  | cons w rest ih =>
    intro cs hcl hu hsq
    have hw := hl w (List.mem_cons_self _ _)
    have hu2 : (initWord stats cs w).unary_cluster_count.length = K := by
      show (vadd _ _ _).length = K
      rw [vadd_length]; exact hu
    obtain ⟨h1, h2, h3, h4, h5⟩ := ih (fun x hx => hl x (List.mem_cons_of_mem _ hx))
      (initWord stats cs w) hcl hu2 (initWord_square cs hsq w)
    rw [List.foldl_cons]
    refine ⟨h1, h2, h3, ?_, ?_⟩
    · intro c
      rw [h4 c, List.map_cons, List.sum_cons]
      have : vget (initWord stats cs w).unary_cluster_count c
          = vget cs.unary_cluster_count c
            + if cs.clusters.getD w 0 = c then vget stats.word_count w else 0 := by
        show vget (vadd _ _ _) c = _
        rw [vget_vadd _ _ _ _ (by rw [hu]; exact hcl w hw)]
        by_cases e : cs.clusters.getD w 0 = c
        · rw [if_pos e, if_pos e.symm]
        · rw [if_neg e, if_neg (fun q => e q.symm)]
      rw [this]
      simp only [initWord_clusters]
      ring
    · intro a b
      rw [h5 a b, List.map_cons, List.sum_cons, initWord_binary hwf cs hcl hsq w hw a b]
      simp only [initWord_clusters]
      ring

theorem square_replicate (K : Nat) : Square K (List.replicate K (List.replicate K (0 : Int))) := by
  refine ⟨by simp, fun i hi => ?_⟩
  rw [List.getD_eq_getElem _ _ (by simpa using hi)]
  simp

theorem mget_replicate (K a b : Nat) :
    mget (List.replicate K (List.replicate K (0 : Int))) a b = 0 := by
  unfold mget
  by_cases h : a < K
  · have hrow : (List.replicate K (List.replicate K (0 : Int))).getD a []
        = List.replicate K 0 := by
      rw [List.getD_eq_getElem _ _ (by simpa using h)]
      simp
    rw [hrow]
    exact getD_replicate_self _ _ _
  · have hrow : (List.replicate K (List.replicate K (0 : Int))).getD a [] = [] :=
      List.getD_eq_default _ _ (by simpa using h)
    rw [hrow]
    rfl

theorem assignClusters_getD (N K : Nat) (draw : Nat → Nat) (x : Nat) (hx : x < N) :
    (assignClusters N K draw).clusters.getD x 0 = draw x := by
  unfold assignClusters
  simp only
  rw [List.getD_eq_getElem _ _ (by simpa using hx)]
  simp

theorem initialState_consistent {N K : Nat} {stats : CorpusStatistics}
    (hwf : WellFormed N stats) (draw : Nat → Nat) (hd : ∀ w, w < N → draw w < K) :
    Consistent N K stats (initialState stats N K draw)
    ∧ ∀ x, x < N → (initialState stats N K draw).clusters.getD x 0 = draw x := by
  have hcl : ∀ x, x < N → (assignClusters N K draw).clusters.getD x 0 < K := by
    intro x hx; rw [assignClusters_getD N K draw x hx]; exact hd x hx
  obtain ⟨h1, h2, h3, h4, h5⟩ := foldl_initWord hwf (List.range N)
    (fun w hw => List.mem_range.1 hw) (assignClusters N K draw) hcl
    (by simp [assignClusters]) (square_replicate K)
  unfold initialState initClusterCount
  refine ⟨?_, ?_⟩
  · refine
      { len_clusters := ?_, range := ?_, len_unary := h2, square := h3, unary := ?_,
        binary := ?_ }
    · rw [h1]; simp [assignClusters]
    · intro w hw; rw [h1]; exact hcl w hw
    · intro c
      rw [h4 c, h1, sum_map_range]
      have : vget (assignClusters N K draw).unary_cluster_count c = 0 := by
        unfold vget assignClusters
        exact getD_replicate_self _ _ _
      rw [this, zero_add]
      rfl
    · intro a b _ _
      rw [h5 a b, h1, sum_map_range]
      have : mget (assignClusters N K draw).binary_cluster_count a b = 0 :=
        mget_replicate K a b
      rw [this, zero_add]
      rfl
  · intro x hx
    rw [h1]
    exact assignClusters_getD N K draw x hx

theorem perplexities_length {α : Type} [Zero α] [Add α] [Sub α] [Mul α] [OfNat α 2]
    [LinearOrder α] (entropy : Int → α)
    (stats : CorpusStatistics) (cs : ClusterState) (K w : Nat) (pred succ : List Int) :
    (perplexities entropy stats cs K w pred succ).length = K := by
  simp [perplexities]

theorem wordScores_length {α : Type} [Zero α] [Add α] [Sub α] [Mul α] [OfNat α 2]
    [LinearOrder α] (entropy : Int → α)
    (stats : CorpusStatistics) (cs : ClusterState) (K w : Nat) :
    (wordScores entropy stats cs K w).length = K := by
  unfold wordScores
  exact perplexities_length _ _ _ _ _ _ _

theorem wordScores_ne_nil {α : Type} [Zero α] [Add α] [Sub α] [Mul α] [OfNat α 2]
    [LinearOrder α] (entropy : Int → α)
    (stats : CorpusStatistics) (cs : ClusterState) (K w : Nat) (hK : 1 ≤ K) :
    wordScores entropy stats cs K w ≠ [] := by
  intro h
  have := congrArg List.length h
  rw [wordScores_length] at this
  simp at this
  omega

theorem assignedCluster_lt {α : Type} [Zero α] [Add α] [Sub α] [Mul α] [OfNat α 2]
    [LinearOrder α] (entropy : Int → α)
    (stats : CorpusStatistics) (cs : ClusterState) (K w : Nat) (hK : 1 ≤ K) :
    assignedCluster entropy stats cs K w < K := by
  unfold assignedCluster
  have := (max_element_spec _ (wordScores_ne_nil entropy stats cs K w hK)).1
  rw [wordScores_length] at this
  exact this

theorem reassignWord_spec {α : Type} [Zero α] [Add α] [Sub α] [Mul α] [OfNat α 2]
    [LinearOrder α] (entropy : Int → α)
    {N K : Nat} {stats : CorpusStatistics} (hwf : WellFormed N stats) (hK : 1 ≤ K)
    {cs : ClusterState} (hc : Consistent N K stats cs) (w : Nat) (hw : w < N) :
    (reassignWord entropy K stats cs w).1 = stats
    ∧ Consistent N K stats (reassignWord entropy K stats cs w).2.1 := by
  have h := moveWord_spec hwf hc w hw _ (assignedCluster_lt entropy stats cs K w hK)
  exact ⟨h.1, h.2.1⟩

theorem reassignWords_spec {α : Type} [Zero α] [Add α] [Sub α] [Mul α] [OfNat α 2]
    [LinearOrder α] (entropy : Int → α)
    {N K : Nat} {stats : CorpusStatistics} (hwf : WellFormed N stats) (hK : 1 ≤ K)
    (words : List Nat) (hwords : ∀ w ∈ words, w < N) :
    ∀ (cs : ClusterState) (n : Nat), Consistent N K stats cs →
      (reassignWords entropy K words (stats, cs, n)).1 = stats
      ∧ Consistent N K stats (reassignWords entropy K words (stats, cs, n)).2.1 := by
  induction words with
  | nil => intro cs n hc; exact ⟨rfl, hc⟩
  | cons w rest ih =>
    intro cs n hc
    have hstep := reassignWord_spec entropy hwf hK hc w (hwords w (List.mem_cons_self _ _))
    unfold reassignWords
    rw [List.foldl_cons]
    simp only [hstep.1]
    have := ih (fun x hx => hwords x (List.mem_cons_of_mem _ hx))
      (reassignWord entropy K stats cs w).2.1
      (if (reassignWord entropy K stats cs w).2.2 then n + 1 else n) hstep.2
    unfold reassignWords at this
    exact this

theorem runEpoch_spec {α : Type} [Zero α] [Add α] [Sub α] [Mul α] [OfNat α 2]
    [LinearOrder α] (entropy : Int → α)
    {N K : Nat} {stats : CorpusStatistics} (hwf : WellFormed N stats) (hK : 1 ≤ K)
    {cs : ClusterState} (hc : Consistent N K stats cs) :
    (runEpoch entropy N K stats cs).1 = stats
    ∧ Consistent N K stats (runEpoch entropy N K stats cs).2.1 :=
  reassignWords_spec entropy hwf hK (List.range N) (fun w hw => List.mem_range.1 hw) cs 0 hc

theorem wordBoundary_spec {α : Type} [Zero α] [Add α] [Sub α] [Mul α] [OfNat α 2]
    [LinearOrder α] (entropy : Int → α)
    {N K : Nat} {stats : CorpusStatistics} (hwf : WellFormed N stats) (hK : 1 ≤ K)
    (epochs : Nat) (done : Nat) (hdone : done ≤ N) :
    ∀ cs : ClusterState, Consistent N K stats cs →
      (wordBoundary entropy N K stats cs epochs done).1 = stats
      ∧ Consistent N K stats (wordBoundary entropy N K stats cs epochs done).2.1 := by
  induction epochs with
  | zero =>
    intro cs hc
    exact reassignWords_spec entropy hwf hK (List.range done)
      (fun w hw => lt_of_lt_of_le (List.mem_range.1 hw) hdone) cs 0 hc
  | succ e ih =>
    intro cs hc
    have h := runEpoch_spec entropy hwf hK hc
    unfold wordBoundary
    simp only [h.1]
    exact ih _ h.2

theorem optimizeLoop_spec {α : Type} [Zero α] [Add α] [Sub α] [Mul α] [OfNat α 2]
    [LinearOrder α] (entropy : Int → α)
    {N K : Nat} {stats : CorpusStatistics} (hwf : WellFormed N stats) (hK : 1 ≤ K)
    (budget : Nat) :
    ∀ cs : ClusterState, Consistent N K stats cs →
      (optimizeLoop entropy N K budget stats cs).1 = stats
      ∧ Consistent N K stats (optimizeLoop entropy N K budget stats cs).2.1 := by
  induction budget with
  | zero => intro cs hc; exact ⟨rfl, hc⟩
  | succ b ih =>
    intro cs hc
    have h := runEpoch_spec entropy hwf hK hc
    unfold optimizeLoop
    simp only [h.1]
    split
    · exact ⟨rfl, h.2⟩
    · exact ih _ h.2

theorem reachable_consistent {N K : Nat} {stats : CorpusStatistics} (hwf : WellFormed N stats)
    {start cs : ClusterState} (hs : Consistent N K stats start)
    (hr : Reachable N K stats start cs) : Consistent N K stats cs := by
  induction hr with
  | start => exact hs
  | move w k _ hw hk ih => exact (moveWord_spec hwf ih w hw k hk).2.1

theorem Consistent.countsAggregated {N K : Nat} {stats : CorpusStatistics} {cs : ClusterState}
    (h : Consistent N K stats cs) : CountsAggregated stats N K cs :=
  ⟨fun c _ => h.unary c, h.binary⟩

theorem sum_count_words (N : Nat) (s : List Nat) (hs : ∀ x ∈ s, x < N) :
    ∑ w in Finset.range N, ((s.count w : Nat) : Int) = (s.length : Int) := by
  induction s with
  | nil => simp
  | cons x rest ih =>
    have hx : x < N := hs x (List.mem_cons_self _ _)
    have ih2 := ih (fun y hy => hs y (List.mem_cons_of_mem _ hy))
    have hpt : ∀ w, ((List.count w (x :: rest) : Nat) : Int)
        = (rest.count w : Int) + if w = x then 1 else 0 := by
      intro w
      rw [List.count_cons]
      by_cases e : w = x
      · subst e; simp
      · have : ¬ x = w := fun q => e q.symm
        simp [e, this]
    simp only [hpt, Finset.sum_add_distrib, ih2, Finset.sum_ite_eq', Finset.mem_range, hx,
      if_true, List.length_cons]
    push_cast
    ring

theorem sum_aggregateUnary (stats : CorpusStatistics) (cl : List Nat) (N K : Nat)
    (hcl : ∀ w, w < N → cl.getD w 0 < K) :
    ∑ c in Finset.range K, aggregateUnary stats cl N c
      = ∑ w in Finset.range N, vget stats.word_count w := by
  unfold aggregateUnary
  rw [Finset.sum_comm]
  apply Finset.sum_congr rfl
  intro w hw
  rw [Finset.sum_ite_eq, if_pos (Finset.mem_range.2 (hcl w (Finset.mem_range.1 hw)))]

theorem sum_aggregateBinary (stats : CorpusStatistics) (cl : List Nat) (N K : Nat)
    (hcl : ∀ w, w < N → cl.getD w 0 < K) :
    ∑ a in Finset.range K, ∑ b in Finset.range K, aggregateBinary stats cl N a b
      = ∑ w in Finset.range N, ∑ y in Finset.range N, successorCount stats w y := by
  unfold aggregateBinary
  have h1 : ∀ a, (∑ b in Finset.range K, ∑ w in Finset.range N, ∑ y in Finset.range N,
      if cl.getD w 0 = a ∧ cl.getD y 0 = b then successorCount stats w y else 0)
      = ∑ w in Finset.range N, ∑ y in Finset.range N,
        if cl.getD w 0 = a then successorCount stats w y else 0 := by
    intro a
    rw [Finset.sum_comm]
    apply Finset.sum_congr rfl
    intro w _
    rw [Finset.sum_comm]
    apply Finset.sum_congr rfl
    intro y hy
    by_cases e : cl.getD w 0 = a
    · simp only [e, true_and, if_true]
      rw [Finset.sum_ite_eq, if_pos (Finset.mem_range.2 (hcl y (Finset.mem_range.1 hy)))]
    · simp only [e, false_and, if_false]
      exact Finset.sum_const_zero
  simp only [h1]
  rw [Finset.sum_comm]
  apply Finset.sum_congr rfl
  intro w hw
  rw [Finset.sum_comm]
  apply Finset.sum_congr rfl
  intro y _
  rw [Finset.sum_ite_eq, if_pos (Finset.mem_range.2 (hcl w (Finset.mem_range.1 hw)))]

theorem total_word_count {N : Nat} {st : CorpusStatistics} {s : List Nat}
    {ps : List (Nat × Nat)} (h : Tracks N st ps s) (hs : ∀ x ∈ s, x < N) :
    ∑ w in Finset.range N, vget st.word_count w = (s.length : Int) := by
  rw [← sum_count_words N s hs]
  apply Finset.sum_congr rfl
  intro w _
  exact h.wc w

/-- C1: at every word boundary of the run (after initialization, after any
number of complete epochs followed by any number of reassignment steps), and
likewise in every state reached when the scoring step is allowed to select any
cluster, the corpus statistics are those of the stream and `unary_count[c]`
and `binary_count[c1][c2]` equal the from-scratch aggregation of the current
assignment. -/
theorem counts_equal_aggregation {α : Type} [Zero α] [Add α] [Sub α] [Mul α] [OfNat α 2]
    [LinearOrder α] (entropy : Int → α)
    (num_words num_clusters : Nat) (stream : List Nat) (draw : Nat → Nat)
    (hs : ∀ x ∈ stream, x < num_words) (hK : 1 ≤ num_clusters)
    (hd : ∀ w, w < num_words → draw w < num_clusters) :
    (∀ epochs done, done ≤ num_words →
      (wordBoundary entropy num_words num_clusters (buildStatistics num_words stream)
        (initialState (buildStatistics num_words stream) num_words num_clusters draw)
        epochs done).1 = buildStatistics num_words stream
      ∧ CountsAggregated (buildStatistics num_words stream) num_words num_clusters
        (wordBoundary entropy num_words num_clusters (buildStatistics num_words stream)
          (initialState (buildStatistics num_words stream) num_words num_clusters draw)
          epochs done).2.1)
    ∧ (∀ cs, Reachable num_words num_clusters (buildStatistics num_words stream)
        (initialState (buildStatistics num_words stream) num_words num_clusters draw) cs →
      CountsAggregated (buildStatistics num_words stream) num_words num_clusters cs) := by
  have hwf := wellFormed_buildStatistics num_words stream hs
  have hinit := (initialState_consistent hwf draw hd).1
  refine ⟨?_, ?_⟩
  · intro epochs done hdone
    have h := wordBoundary_spec entropy hwf hK epochs done hdone _ hinit
    exact ⟨h.1, h.2.countsAggregated⟩
  · intro cs hr
    exact (reachable_consistent hwf hinit hr).countsAggregated

/-- Instance of `counts_equal_aggregation`: the stream `[0,0,0,2,2,1,0,0]` with
two clusters, after one complete epoch and one more reassignment step. -/
theorem counts_equal_aggregation_witness :
    (∀ x ∈ [0, 0, 0, 2, 2, 1, 0, 0], x < 3) ∧ 1 ≤ 2 ∧ (∀ w, w < 3 → w % 2 < 2)
    ∧ CountsAggregated (buildStatistics 3 [0, 0, 0, 2, 2, 1, 0, 0]) 3 2
        (wordBoundary (fun n : Int => n * n) 3 2 (buildStatistics 3 [0, 0, 0, 2, 2, 1, 0, 0])
          (initialState (buildStatistics 3 [0, 0, 0, 2, 2, 1, 0, 0]) 3 2 (fun w => w % 2))
          1 1).2.1 :=
  ⟨by decide, by decide, fun w _ => Nat.mod_lt w (by decide),
    ((counts_equal_aggregation (fun n : Int => n * n) 3 2 [0, 0, 0, 2, 2, 1, 0, 0]
      (fun w => w % 2) (by decide) (by decide)
      (fun w _ => Nat.mod_lt w (by decide))).1 1 1 (by decide)).2⟩

/-- C2: for a stream of `n ≥ 1` in-range tokens, at every word boundary of the
run the unary counts sum to the sum of the word counts, which is `n`, and the
entries of the binary count matrix sum to the number of bigrams `n - 1`, which
is also the sum of all successor values. -/
theorem counts_are_conserved {α : Type} [Zero α] [Add α] [Sub α] [Mul α] [OfNat α 2]
    [LinearOrder α] (entropy : Int → α)
    (num_words num_clusters : Nat) (stream : List Nat) (draw : Nat → Nat)
    (hlen : 1 ≤ stream.length)
    (hs : ∀ x ∈ stream, x < num_words) (hK : 1 ≤ num_clusters)
    (hd : ∀ w, w < num_words → draw w < num_clusters) :
    (∑ w in Finset.range num_words, vget (buildStatistics num_words stream).word_count w)
        = (stream.length : Int)
    ∧ (∑ w in Finset.range num_words,
          (((buildStatistics num_words stream).successors.getD w []).map Prod.snd).sum)
        = (stream.length : Int) - 1
    ∧ ∀ epochs done, done ≤ num_words →
      (∑ c in Finset.range num_clusters,
          vget (wordBoundary entropy num_words num_clusters (buildStatistics num_words stream)
            (initialState (buildStatistics num_words stream) num_words num_clusters draw)
            epochs done).2.1.unary_cluster_count c)
        = (stream.length : Int)
      ∧ (∑ c1 in Finset.range num_clusters, ∑ c2 in Finset.range num_clusters,
          mget (wordBoundary entropy num_words num_clusters (buildStatistics num_words stream)
            (initialState (buildStatistics num_words stream) num_words num_clusters draw)
            epochs done).2.1.binary_cluster_count c1 c2)
        = (stream.length : Int) - 1 := by
  have ht := tracks_buildStatistics num_words stream hs
  have hwf := tracks_wellFormed ht
  have hinit := (initialState_consistent hwf draw hd).1
  have hcast : ((stream.length - 1 : Nat) : Int) = (stream.length : Int) - 1 := by
    omega
  refine ⟨total_word_count ht hs, ?_, ?_⟩
  · rw [total_successors ht, hcast]
  · intro epochs done hdone
    have h := (wordBoundary_spec entropy hwf hK epochs done hdone _ hinit).2
    refine ⟨?_, ?_⟩
    · rw [Finset.sum_congr rfl (fun c _ => h.unary c), sum_aggregateUnary _ _ _ _ h.range,
        total_word_count ht hs]
    · rw [Finset.sum_congr rfl (fun a ha => Finset.sum_congr rfl
          (fun b hb => h.binary a b (Finset.mem_range.1 ha) (Finset.mem_range.1 hb))),
        sum_aggregateBinary _ _ _ _ h.range, total_successorCount ht, length_bigrams, hcast]

/-- Instance of `counts_are_conserved`: the stream `[0,0,0,2,2,1,0,0]` with two
clusters, after one complete epoch and one more reassignment step. -/
theorem counts_are_conserved_witness :
    1 ≤ [0, 0, 0, 2, 2, 1, 0, 0].length
    ∧ (∀ x ∈ [0, 0, 0, 2, 2, 1, 0, 0], x < 3) ∧ 1 ≤ 2 ∧ (∀ w, w < 3 → w % 2 < 2)
    ∧ (∑ w in Finset.range 3, vget (buildStatistics 3 [0, 0, 0, 2, 2, 1, 0, 0]).word_count w)
        = ([0, 0, 0, 2, 2, 1, 0, 0].length : Int) :=
  ⟨by decide, by decide, by decide, fun w _ => Nat.mod_lt w (by decide),
    (counts_are_conserved (fun n : Int => n * n) 3 2 [0, 0, 0, 2, 2, 1, 0, 0]
      (fun w => w % 2) (by decide) (by decide) (by decide)
      (fun w _ => Nat.mod_lt w (by decide))).1⟩

/-- C3: for at least one cluster and an initial assignment into
`[0, num_clusters)`, at every word boundary of the run the assignment has one
entry per word and every entry is a valid cluster identifier; so is every
value of the vector written to the output, whatever the epoch budget. -/
theorem clusters_stay_in_range {α : Type} [Zero α] [Add α] [Sub α] [Mul α] [OfNat α 2]
    [LinearOrder α] (entropy : Int → α)
    (num_words num_clusters : Nat) (stream : List Nat) (draw : Nat → Nat)
    (hs : ∀ x ∈ stream, x < num_words) (hK : 1 ≤ num_clusters)
    (hd : ∀ w, w < num_words → draw w < num_clusters) :
    (∀ epochs done, done ≤ num_words →
      (wordBoundary entropy num_words num_clusters (buildStatistics num_words stream)
        (initialState (buildStatistics num_words stream) num_words num_clusters draw)
        epochs done).2.1.clusters.length = num_words
      ∧ ∀ c ∈ (wordBoundary entropy num_words num_clusters (buildStatistics num_words stream)
        (initialState (buildStatistics num_words stream) num_words num_clusters draw)
        epochs done).2.1.clusters, c < num_clusters)
    ∧ (∀ num_epochs,
      (clusterWords entropy num_words num_clusters num_epochs draw stream).length = num_words
      ∧ ∀ c ∈ clusterWords entropy num_words num_clusters num_epochs draw stream,
        c < num_clusters) := by
  have hwf := wellFormed_buildStatistics num_words stream hs
  have hinit := (initialState_consistent hwf draw hd).1
  have hmem : ∀ cs : ClusterState,
      Consistent num_words num_clusters (buildStatistics num_words stream) cs →
      cs.clusters.length = num_words ∧ ∀ c ∈ cs.clusters, c < num_clusters := by
    intro cs hc
    refine ⟨hc.len_clusters, fun c hcm => ?_⟩
    obtain ⟨i, hi, hget⟩ := List.mem_iff_getElem.1 hcm
    have := hc.range i (by rw [← hc.len_clusters]; exact hi)
    rw [List.getD_eq_getElem _ _ hi, hget] at this
    exact this
  refine ⟨?_, ?_⟩
  · intro epochs done hdone
    exact hmem _ (wordBoundary_spec entropy hwf hK epochs done hdone _ hinit).2
  · intro num_epochs
    exact hmem _ (optimizeLoop_spec entropy hwf hK num_epochs _ hinit).2

/-- Instance of `clusters_stay_in_range`: the stream `[0,0,0,2,2,1,0,0]` with
two clusters and a budget of five epochs. -/
theorem clusters_stay_in_range_witness :
    (∀ x ∈ [0, 0, 0, 2, 2, 1, 0, 0], x < 3) ∧ 1 ≤ 2 ∧ (∀ w, w < 3 → w % 2 < 2)
    ∧ ∀ c ∈ clusterWords (fun n : Int => n * n) 3 2 5 (fun w => w % 2)
        [0, 0, 0, 2, 2, 1, 0, 0], c < 2 :=
  ⟨by decide, by decide, fun w _ => Nat.mod_lt w (by decide),
    ((clusters_stay_in_range (fun n : Int => n * n) 3 2 [0, 0, 0, 2, 2, 1, 0, 0]
      (fun w => w % 2) (by decide) (by decide)
      (fun w _ => Nat.mod_lt w (by decide))).2 5).2⟩

theorem positiveEntropy_of_nonneg {α : Type} [LinearOrderedCommRing α] (entropy : Int → α)
    (h0 : entropy 0 = 0) (count : Int) (hc : 0 ≤ count) :
    positiveEntropy entropy count = entropy count := by
  unfold positiveEntropy
  by_cases h : count > 0
  · rw [if_pos h]
  · rw [if_neg h]
    have : count = 0 := le_antisymm (not_lt.1 h) hc
    rw [this, h0]

theorem list_sum_eq_sum_range {M β : Type} [AddCommMonoid M] (l : List β) (d : β) (f : β → M) :
    (l.map f).sum = ∑ i in Finset.range l.length, f (l.getD i d) := by
  induction l with
  | nil => simp
  | cons x rest ih =>
    rw [List.map_cons, List.sum_cons, List.length_cons, Finset.sum_range_succ', ih]
    rw [add_comm]
    rfl

theorem foldl_add_eq_sum {α : Type} [LinearOrderedCommRing α] (entropy : Int → α)
    (l : List Int) :
    ∀ init : α, l.foldl (fun acc count => if count > 0 then acc + entropy count else acc) init
      = init + (l.map (positiveEntropy entropy)).sum := by
  induction l with
  | nil => intro init; simp
  | cons x rest ih =>
    intro init
    rw [List.foldl_cons, ih, List.map_cons, List.sum_cons]
    unfold positiveEntropy
    by_cases h : x > 0
    · rw [if_pos h, if_pos h]; ring
    · rw [if_neg h, if_neg h]; ring

theorem foldl_sub_eq_sum {α : Type} [LinearOrderedCommRing α] (entropy : Int → α)
    (l : List Int) :
    ∀ init : α,
      l.foldl (fun acc count => if count > 0 then acc - 2 * entropy count else acc) init
        = init - 2 * (l.map (positiveEntropy entropy)).sum := by
  induction l with
  | nil => intro init; simp
  | cons x rest ih =>
    intro init
    rw [List.foldl_cons, ih, List.map_cons, List.sum_cons]
    unfold positiveEntropy
    by_cases h : x > 0
    · rw [if_pos h, if_pos h]; ring
    · rw [if_neg h, if_neg h]; ring

theorem foldl_rows_eq_sum {α : Type} [LinearOrderedCommRing α] (entropy : Int → α)
    (m : List (List Int)) :
    ∀ init : α,
      m.foldl (fun acc entry =>
        entry.foldl (fun acc2 count => if count > 0 then acc2 + entropy count else acc2) acc)
        init
        = init + (m.map (fun entry => (entry.map (positiveEntropy entropy)).sum)).sum := by
  induction m with
  | nil => intro init; simp
  | cons row rest ih =>
    intro init
    rw [List.foldl_cons, ih, foldl_add_eq_sum, List.map_cons, List.sum_cons]
    ring

theorem totalPerplexity_eq {α : Type} [LinearOrderedCommRing α] (entropy : Int → α)
    (stats : CorpusStatistics) (cs : ClusterState) (K : Nat)
    (hu : cs.unary_cluster_count.length = K) (hsq : Square K cs.binary_cluster_count) :
    totalPerplexity entropy stats cs
      = (stats.word_count.map (positiveEntropy entropy)).sum + clusterObjective entropy K cs := by
  unfold totalPerplexity clusterObjective
  rw [foldl_rows_eq_sum, foldl_sub_eq_sum, foldl_add_eq_sum, zero_add]
  rw [list_sum_eq_sum_range cs.unary_cluster_count 0, hu,
    list_sum_eq_sum_range cs.binary_cluster_count [], hsq.1]
  have hrows : ∀ a ∈ Finset.range K,
      ((cs.binary_cluster_count.getD a []).map (positiveEntropy entropy)).sum
        = ∑ b in Finset.range K, positiveEntropy entropy (mget cs.binary_cluster_count a b) := by
    intro a ha
    rw [list_sum_eq_sum_range _ 0, hsq.2 a (Finset.mem_range.1 ha)]
    rfl
  rw [Finset.sum_congr rfl hrows]
  unfold vget
  ring

theorem sum_sum_split_at {M : Type} [AddCommMonoid M] (N w : Nat) (hw : w < N)
    (G : Nat → Nat → M) :
    ∑ x in Finset.range N, ∑ y in Finset.range N, G x y
      = (∑ x in Finset.range N, if x ≠ w then
          (∑ y in Finset.range N, if y ≠ w then G x y else 0) else 0)
        + (∑ y in Finset.range N, if y ≠ w then G w y else 0)
        + (∑ x in Finset.range N, if x ≠ w then G x w else 0)
        + G w w := by
  have hinner : ∀ x, (∑ y in Finset.range N, G x y)
      = (∑ y in Finset.range N, if y ≠ w then G x y else 0) + G x w :=
    fun x => sum_split_at N w hw (G x)
  simp only [hinner]
  rw [Finset.sum_add_distrib,
    sum_split_at N w hw (fun x => ∑ y in Finset.range N, if y ≠ w then G x y else 0),
    sum_split_at N w hw (fun x => G x w)]
  abel

theorem insertWord_unary_raw (stats : CorpusStatistics) (cs : ClusterState) (K w : Nat)
    (pred succ : List Int) (k : Nat) (hu : cs.unary_cluster_count.length = K) (hk : k < K)
    (c : Nat) :
    vget (insertWord stats cs K w pred succ k).unary_cluster_count c
      = vget cs.unary_cluster_count c + if c = k then vget stats.word_count w else 0 := by
  show vget (vadd cs.unary_cluster_count k (vget stats.word_count w)) c = _
  rw [vget_vadd _ _ _ _ (by rw [hu]; exact hk)]

theorem insertWord_binary_raw (stats : CorpusStatistics) (cs : ClusterState) (K w : Nat)
    (pred succ : List Int) (k : Nat) (hsq : Square K cs.binary_cluster_count) (hk : k < K)
    (a b : Nat) (ha : a < K) (hb : b < K) :
    mget (insertWord stats cs K w pred succ k).binary_cluster_count a b
      = mget cs.binary_cluster_count a b
        + ((if a ≠ k ∧ b = k then vget pred a else 0)
          + (if a = k ∧ b ≠ k then vget succ b else 0)
          + (if a = k ∧ b = k
              then vget succ k + vget pred k + vget stats.double_word_count w else 0)) := by
  show mget (madd ((List.range K).foldl (insertIntoRow k pred succ)
    cs.binary_cluster_count) k k
      (vget succ k + vget pred k + vget stats.double_word_count w)) a b = _
  rw [insertIntoRow_eq]
  rw [mget_madd (crossUpdate_square _ _ _ _ _ hsq) _ _ _ _ _ hk hk,
    mget_crossUpdate_range _ hk _ _ _ hsq a b ha hb]
  ring

theorem foldl_scoreTerm {α : Type} [LinearOrderedCommRing α] (entropy : Int → α)
    (binary : List (List Int)) (pred succ : List Int) (k : Nat) (l : List Nat) :
    ∀ init : α, l.foldl (scoreTerm entropy binary pred succ k) init
      = init + (l.map (fun c => if c ≠ k then
          (entropy (mget binary c k + vget pred c) - entropy (mget binary c k))
          + (entropy (mget binary k c + vget succ c) - entropy (mget binary k c))
          else 0)).sum := by
  induction l with
  | nil => intro init; simp
  | cons c rest ih =>
    intro init
    rw [List.foldl_cons, ih, List.map_cons, List.sum_cons]
    unfold scoreTerm
    by_cases h : c ≠ k
    · rw [if_pos h, if_pos h]; ring
    · rw [if_neg h, if_neg h]; ring

theorem candidateScore_eq_sum {α : Type} [LinearOrderedCommRing α] (entropy : Int → α)
    (stats : CorpusStatistics) (cs : ClusterState) (K w : Nat) (pred succ : List Int)
    (k : Nat) :
    candidateScore entropy stats cs K w pred succ k
      = (∑ c in Finset.range K, if c ≠ k then
          (entropy (mget cs.binary_cluster_count c k + vget pred c)
            - entropy (mget cs.binary_cluster_count c k))
          + (entropy (mget cs.binary_cluster_count k c + vget succ c)
            - entropy (mget cs.binary_cluster_count k c))
          else 0)
        - 2 * (entropy (vget cs.unary_cluster_count k + vget stats.word_count w)
            - entropy (vget cs.unary_cluster_count k))
        + (entropy (mget cs.binary_cluster_count k k + vget succ k + vget pred k
              + vget stats.double_word_count w)
            - entropy (mget cs.binary_cluster_count k k)) := by
  unfold candidateScore
  simp only []
  rw [foldl_scoreTerm, sum_map_range]
  ring

/-- The score of candidate `k` is the change of the cluster part of the
objective caused by the insertion of step 5, whenever no count involved is
negative. -/
theorem candidateScore_eq_delta {α : Type} [LinearOrderedCommRing α] (entropy : Int → α)
    (h0 : entropy 0 = 0) (stats : CorpusStatistics) (cs : ClusterState) (K w : Nat)
    (pred succ : List Int) (k : Nat) (hu : cs.unary_cluster_count.length = K)
    (hsq : Square K cs.binary_cluster_count) (hk : k < K)
    (hU : ∀ c, c < K → 0 ≤ vget cs.unary_cluster_count c)
    (hB : ∀ a b, a < K → b < K → 0 ≤ mget cs.binary_cluster_count a b)
    (hU2 : ∀ c, c < K → 0 ≤ vget (insertWord stats cs K w pred succ k).unary_cluster_count c)
    (hB2 : ∀ a b, a < K → b < K →
      0 ≤ mget (insertWord stats cs K w pred succ k).binary_cluster_count a b) :
    candidateScore entropy stats cs K w pred succ k
      = clusterObjective entropy K (insertWord stats cs K w pred succ k)
        - clusterObjective entropy K cs := by
  have hUsum : (∑ c in Finset.range K, positiveEntropy entropy
        (vget (insertWord stats cs K w pred succ k).unary_cluster_count c))
      - (∑ c in Finset.range K, positiveEntropy entropy (vget cs.unary_cluster_count c))
      = entropy (vget cs.unary_cluster_count k + vget stats.word_count w)
        - entropy (vget cs.unary_cluster_count k) := by
    rw [← Finset.sum_sub_distrib, Finset.sum_eq_single k]
    · rw [positiveEntropy_of_nonneg entropy h0 _ (hU2 k hk),
        positiveEntropy_of_nonneg entropy h0 _ (hU k hk),
        insertWord_unary_raw stats cs K w pred succ k hu hk k, if_pos rfl]
    · intro c hc hck
      have hc2 := Finset.mem_range.1 hc
      rw [positiveEntropy_of_nonneg entropy h0 _ (hU2 c hc2),
        positiveEntropy_of_nonneg entropy h0 _ (hU c hc2),
        insertWord_unary_raw stats cs K w pred succ k hu hk c, if_neg hck, add_zero, sub_self]
    · intro h; exact absurd (Finset.mem_range.2 hk) h
  have hBpt : ∀ a ∈ Finset.range K, ∀ b ∈ Finset.range K,
      positiveEntropy entropy (mget (insertWord stats cs K w pred succ k).binary_cluster_count a b)
        - positiveEntropy entropy (mget cs.binary_cluster_count a b)
      = entropy (mget cs.binary_cluster_count a b
          + ((if a ≠ k ∧ b = k then vget pred a else 0)
            + (if a = k ∧ b ≠ k then vget succ b else 0)
            + (if a = k ∧ b = k
                then vget succ k + vget pred k + vget stats.double_word_count w else 0)))
        - entropy (mget cs.binary_cluster_count a b) := by
    intro a ha b hb
    have ha2 := Finset.mem_range.1 ha
    have hb2 := Finset.mem_range.1 hb
    rw [positiveEntropy_of_nonneg entropy h0 _ (hB2 a b ha2 hb2),
      positiveEntropy_of_nonneg entropy h0 _ (hB a b ha2 hb2),
      insertWord_binary_raw stats cs K w pred succ k hsq hk a b ha2 hb2]
  have hBsum : (∑ a in Finset.range K, ∑ b in Finset.range K, positiveEntropy entropy
        (mget (insertWord stats cs K w pred succ k).binary_cluster_count a b))
      - (∑ a in Finset.range K, ∑ b in Finset.range K,
          positiveEntropy entropy (mget cs.binary_cluster_count a b))
      = (∑ c in Finset.range K, if c ≠ k then
          (entropy (mget cs.binary_cluster_count c k + vget pred c)
            - entropy (mget cs.binary_cluster_count c k))
          + (entropy (mget cs.binary_cluster_count k c + vget succ c)
            - entropy (mget cs.binary_cluster_count k c))
          else 0)
        + (entropy (mget cs.binary_cluster_count k k + vget succ k + vget pred k
              + vget stats.double_word_count w)
            - entropy (mget cs.binary_cluster_count k k)) := by
    rw [← Finset.sum_sub_distrib]
    simp only [← Finset.sum_sub_distrib]
    rw [Finset.sum_congr rfl (fun a ha => Finset.sum_congr rfl (hBpt a ha)),
      sum_sum_split_at K k hk]
    have z1 : (∑ x in Finset.range K, if x ≠ k then
        (∑ y in Finset.range K, if y ≠ k then
          (entropy (mget cs.binary_cluster_count x y
            + ((if x ≠ k ∧ y = k then vget pred x else 0)
              + (if x = k ∧ y ≠ k then vget succ y else 0)
              + (if x = k ∧ y = k
                  then vget succ k + vget pred k + vget stats.double_word_count w else 0)))
          - entropy (mget cs.binary_cluster_count x y)) else 0) else 0) = 0 := by
      apply Finset.sum_eq_zero
      intro x _
      by_cases hx : x = k
      · simp [hx]
      · rw [if_pos hx]
        apply Finset.sum_eq_zero
        intro y _
        by_cases hy : y = k
        · simp [hy]
        · simp [hx, hy]
    have z2 : (∑ y in Finset.range K, if y ≠ k then
          (entropy (mget cs.binary_cluster_count k y
            + ((if k ≠ k ∧ y = k then vget pred k else 0)
              + (if k = k ∧ y ≠ k then vget succ y else 0)
              + (if k = k ∧ y = k
                  then vget succ k + vget pred k + vget stats.double_word_count w else 0)))
          - entropy (mget cs.binary_cluster_count k y)) else 0)
        = ∑ c in Finset.range K, if c ≠ k then
            (entropy (mget cs.binary_cluster_count k c + vget succ c)
              - entropy (mget cs.binary_cluster_count k c)) else 0 := by
      apply Finset.sum_congr rfl
      intro y _
      by_cases hy : y = k
      · simp [hy]
      · simp [hy]
    have z3 : (∑ x in Finset.range K, if x ≠ k then
          (entropy (mget cs.binary_cluster_count x k
            + ((if x ≠ k ∧ k = k then vget pred x else 0)
              + (if x = k ∧ k ≠ k then vget succ k else 0)
              + (if x = k ∧ k = k
                  then vget succ k + vget pred k + vget stats.double_word_count w else 0)))
          - entropy (mget cs.binary_cluster_count x k)) else 0)
        = ∑ c in Finset.range K, if c ≠ k then
            (entropy (mget cs.binary_cluster_count c k + vget pred c)
              - entropy (mget cs.binary_cluster_count c k)) else 0 := by
      apply Finset.sum_congr rfl
      intro x _
      by_cases hx : x = k
      · simp [hx]
      · simp [hx]
    rw [z1, z2, z3, zero_add, ← Finset.sum_add_distrib]
    congr 1
    · apply Finset.sum_congr rfl
      intro c _
      by_cases hc : c = k
      · simp [hc]
      · simp only [ne_eq, hc, not_false_eq_true, if_true]
        ring
    · simp only [ne_eq, not_true_eq_false, false_and, and_false, if_false, and_self, if_true,
        zero_add]
      congr 2
      ring
  rw [candidateScore_eq_sum]
  unfold clusterObjective
  have e1 : ∀ (A B C D : α), (A - 2 * B) - (C - 2 * D) = (A - C) - 2 * (B - D) := by
    intro A B C D; ring
  rw [e1, hBsum, hUsum]
  ring

theorem successorCount_nonneg {N : Nat} {stats : CorpusStatistics} (hwf : WellFormed N stats)
    (w w2 : Nat) : 0 ≤ successorCount stats w w2 := by
  unfold successorCount
  cases h : successorEntry stats w w2 with
  | none => simp
  | some v => exact le_of_lt (hwf.value_pos w w2 v h)

theorem restUnary_nonneg {N : Nat} {stats : CorpusStatistics} (hwf : WellFormed N stats)
    (cl : List Nat) (w c : Nat) : 0 ≤ restUnary stats cl N w c := by
  unfold restUnary
  apply Finset.sum_nonneg
  intro x _
  split
  · exact hwf.wc_nonneg x
  · exact le_refl 0

theorem restBinary_nonneg {N : Nat} {stats : CorpusStatistics} (hwf : WellFormed N stats)
    (cl : List Nat) (w a b : Nat) : 0 ≤ restBinary stats cl N w a b := by
  unfold restBinary
  apply Finset.sum_nonneg
  intro x _
  apply Finset.sum_nonneg
  intro y _
  split
  · exact successorCount_nonneg hwf x y
  · exact le_refl 0

theorem aggregateUnary_nonneg {N : Nat} {stats : CorpusStatistics} (hwf : WellFormed N stats)
    (cl : List Nat) (c : Nat) : 0 ≤ aggregateUnary stats cl N c := by
  unfold aggregateUnary
  apply Finset.sum_nonneg
  intro x _
  split
  · exact hwf.wc_nonneg x
  · exact le_refl 0

theorem aggregateBinary_nonneg {N : Nat} {stats : CorpusStatistics} (hwf : WellFormed N stats)
    (cl : List Nat) (a b : Nat) : 0 ≤ aggregateBinary stats cl N a b := by
  unfold aggregateBinary
  apply Finset.sum_nonneg
  intro x _
  apply Finset.sum_nonneg
  intro y _
  split
  · exact successorCount_nonneg hwf x y
  · exact le_refl 0

theorem gatherAndRemove_spec {N K : Nat} {stats : CorpusStatistics} (hwf : WellFormed N stats)
    {cs : ClusterState} (hc : Consistent N K stats cs) (w : Nat) (hw : w < N) :
    (gatherAndRemove stats cs K w).1 = stats
    ∧ (gatherAndRemove stats cs K w).2.1.clusters = cs.clusters
    ∧ Removed N K stats (gatherAndRemove stats cs K w).2.1 w
        (gatherAndRemove stats cs K w).2.2.1 (gatherAndRemove stats cs K w).2.2.2 := by
  obtain ⟨hg1, hg2, hg3, hg4, hg5⟩ := gatherProfiles_spec hwf cs.clusters hc.range w hw
  have hr := removeWord_spec hwf hc w hw _ _ hg2 hg3 hg4 hg5
  unfold gatherAndRemove
  simp only [hg1]
  exact ⟨trivial, rfl, hr⟩

theorem totalPerplexity_recordAssignment {α : Type} [LinearOrderedCommRing α]
    (entropy : Int → α) (stats : CorpusStatistics) (cs : ClusterState) (w k : Nat) :
    totalPerplexity entropy stats (recordAssignment cs w k).1
      = totalPerplexity entropy stats cs := by
  unfold totalPerplexity
  rw [recordAssignment_unary, recordAssignment_binary]

theorem totalPerplexity_moveWord {α : Type} [LinearOrderedCommRing α]
    (entropy : Int → α) (stats : CorpusStatistics) (cs : ClusterState) (K w k : Nat) :
    totalPerplexity entropy stats (moveWord stats cs K w k).2.1
      = totalPerplexity entropy stats
          (insertWord (gatherAndRemove stats cs K w).1 (gatherAndRemove stats cs K w).2.1 K w
            (gatherAndRemove stats cs K w).2.2.1 (gatherAndRemove stats cs K w).2.2.2 k) := by
  unfold moveWord
  exact totalPerplexity_recordAssignment entropy stats _ w k

theorem getElem?_map_range {β : Type} (f : Nat → β) (K k : Nat) (hk : k < K) :
    ((List.range K).map f)[k]? = some (f k) := by
  rw [List.getElem?_map, List.getElem?_range hk]
  rfl

theorem wordScores_getElem? {α : Type} [LinearOrderedCommRing α] (entropy : Int → α)
    {N K : Nat} {stats : CorpusStatistics} (hwf : WellFormed N stats)
    {cs : ClusterState} (hc : Consistent N K stats cs) (w : Nat) (hw : w < N)
    (h0 : entropy 0 = 0) (k : Nat) (hk : k < K) :
    (wordScores entropy stats cs K w)[k]?
      = some (totalPerplexity entropy stats (moveWord stats cs K w k).2.1
          - totalPerplexity entropy stats (gatherAndRemove stats cs K w).2.1) := by
  obtain ⟨hg1, _, hr⟩ := gatherAndRemove_spec hwf hc w hw
  have hm := (moveWord_spec hwf hc w hw k hk).2.1
  have hins_u : (moveWord stats cs K w k).2.1.unary_cluster_count
      = (insertWord (gatherAndRemove stats cs K w).1 (gatherAndRemove stats cs K w).2.1 K w
          (gatherAndRemove stats cs K w).2.2.1 (gatherAndRemove stats cs K w).2.2.2
          k).unary_cluster_count := by
    unfold moveWord; exact recordAssignment_unary _ _ _
  have hins_b : (moveWord stats cs K w k).2.1.binary_cluster_count
      = (insertWord (gatherAndRemove stats cs K w).1 (gatherAndRemove stats cs K w).2.1 K w
          (gatherAndRemove stats cs K w).2.2.1 (gatherAndRemove stats cs K w).2.2.2
          k).binary_cluster_count := by
    unfold moveWord; exact recordAssignment_binary _ _ _
  rw [hg1] at hins_u hins_b
  unfold wordScores perplexities
  rw [getElem?_map_range _ _ _ hk, hg1]
  congr 1
  rw [candidateScore_eq_delta entropy h0 _ _ K w _ _ k hr.len_unary hr.square hk
    (fun c _ => by rw [hr.unary c]; exact restUnary_nonneg hwf _ _ _)
    (fun a b ha hb => by rw [hr.binary a b ha hb]; exact restBinary_nonneg hwf _ _ _ _)
    (fun c _ => by rw [← hins_u, hm.unary c]; exact aggregateUnary_nonneg hwf _ _)
    (fun a b ha hb => by
      rw [← hins_b, hm.binary a b ha hb]; exact aggregateBinary_nonneg hwf _ _ _)]
  rw [totalPerplexity_moveWord, hg1,
    totalPerplexity_eq entropy stats _ K
      (by rw [← hins_u]; exact hm.len_unary)
      (by rw [← hins_b]; exact hm.square),
    totalPerplexity_eq entropy stats _ K hr.len_unary hr.square]
  ring

/-- C9: for a consistent cluster state, a word `w` and a candidate cluster `k`,
the score computed in step 3 for `k` (entry `k` of the score vector) is the
total perplexity of the state after the insertion of `w` into `k` by step 5
minus the total perplexity of the state with `w` removed by step 2.  Scores
are exact values of a linearly ordered commutative ring and the entropy is any
function with `entropy 0 = 0`, in particular `n * ln n` over the reals. -/
theorem score_is_objective_delta {α : Type} [LinearOrderedCommRing α] (entropy : Int → α)
    (h0 : entropy 0 = 0) (num_words num_clusters : Nat) (stream : List Nat)
    (hs : ∀ x ∈ stream, x < num_words) (cs : ClusterState)
    (hc : Consistent num_words num_clusters (buildStatistics num_words stream) cs)
    (w : Nat) (hw : w < num_words) (k : Nat) (hk : k < num_clusters) :
    (wordScores entropy (buildStatistics num_words stream) cs num_clusters w)[k]?
      = some
        (totalPerplexity entropy (buildStatistics num_words stream)
            (moveWord (buildStatistics num_words stream) cs num_clusters w k).2.1
          - totalPerplexity entropy (buildStatistics num_words stream)
            (gatherAndRemove (buildStatistics num_words stream) cs num_clusters w).2.1) := by
  have hwf := wellFormed_buildStatistics num_words stream hs
  exact wordScores_getElem? entropy hwf hc w hw h0 k hk

/-- Instance of `score_is_objective_delta`: the initial state of the stream
`[0,0,0,2,2,1,0,0]` with two clusters, word `0` and candidate cluster `1`,
with `n * n` in the place of the entropy. -/
theorem score_is_objective_delta_witness :
    (fun n : Int => n * n) 0 = 0
    ∧ (∀ x ∈ [0, 0, 0, 2, 2, 1, 0, 0], x < 3)
    ∧ Consistent 3 2 (buildStatistics 3 [0, 0, 0, 2, 2, 1, 0, 0])
        (initialState (buildStatistics 3 [0, 0, 0, 2, 2, 1, 0, 0]) 3 2 (fun w => w % 2))
    ∧ (wordScores (fun n : Int => n * n) (buildStatistics 3 [0, 0, 0, 2, 2, 1, 0, 0])
        (initialState (buildStatistics 3 [0, 0, 0, 2, 2, 1, 0, 0]) 3 2 (fun w => w % 2))
        2 0)[1]?
      = some
        (totalPerplexity (fun n : Int => n * n) (buildStatistics 3 [0, 0, 0, 2, 2, 1, 0, 0])
            (moveWord (buildStatistics 3 [0, 0, 0, 2, 2, 1, 0, 0])
              (initialState (buildStatistics 3 [0, 0, 0, 2, 2, 1, 0, 0]) 3 2 (fun w => w % 2))
              2 0 1).2.1
          - totalPerplexity (fun n : Int => n * n)
            (buildStatistics 3 [0, 0, 0, 2, 2, 1, 0, 0])
            (gatherAndRemove (buildStatistics 3 [0, 0, 0, 2, 2, 1, 0, 0])
              (initialState (buildStatistics 3 [0, 0, 0, 2, 2, 1, 0, 0]) 3 2 (fun w => w % 2))
              2 0).2.1) :=
  ⟨by decide, by decide,
    (initialState_consistent (wellFormed_buildStatistics 3 [0, 0, 0, 2, 2, 1, 0, 0] (by decide))
      (fun w => w % 2) (fun w _ => Nat.mod_lt w (by decide))).1,
    score_is_objective_delta (fun n : Int => n * n) (by decide) 3 2 [0, 0, 0, 2, 2, 1, 0, 0]
      (by decide) _
      (initialState_consistent
        (wellFormed_buildStatistics 3 [0, 0, 0, 2, 2, 1, 0, 0] (by decide))
        (fun w => w % 2) (fun w _ => Nat.mod_lt w (by decide))).1
      0 (by decide) 1 (by decide)⟩

theorem cachedEntropy_zero {α : Type} [LinearOrderedCommRing α] (log : Int → α) (max : Nat)
    (hmax : 1 ≤ max) : CachedEntropy.call log max 0 = 0 := by
  unfold CachedEntropy.call CachedEntropy.cache
  have h : (0 : Int) < (max : Int) := by exact_mod_cast hmax
  rw [if_pos h]
  cases max with
  | zero => omega
  | succ m => simp [List.range_succ_eq_map]

theorem vec_ext (l1 l2 : List Int) (hlen : l1.length = l2.length)
    (h : ∀ i, i < l1.length → vget l1 i = vget l2 i) : l1 = l2 := by
  apply List.ext_getElem hlen
  intro i h1 h2
  have := h i h1
  unfold vget at this
  rw [List.getD_eq_getElem _ _ h1, List.getD_eq_getElem _ _ h2] at this
  exact this

theorem mat_ext {K : Nat} (m1 m2 : List (List Int)) (h1 : Square K m1) (h2 : Square K m2)
    (h : ∀ a b, a < K → b < K → mget m1 a b = mget m2 a b) : m1 = m2 := by
  apply List.ext_getElem (by rw [h1.1, h2.1])
  intro i hi1 hi2
  have hiK : i < K := by rw [← h1.1]; exact hi1
  have e1 : m1.getD i [] = m1[i] := List.getD_eq_getElem _ _ hi1
  have e2 : m2.getD i [] = m2[i] := List.getD_eq_getElem _ _ hi2
  rw [← e1, ← e2]
  apply vec_ext
  · rw [h1.2 i hiK, h2.2 i hiK]
  · intro j hj
    rw [h1.2 i hiK] at hj
    exact h i j hiK hj

theorem clusterState_eq (x y : ClusterState) (h1 : x.clusters = y.clusters)
    (h2 : x.unary_cluster_count = y.unary_cluster_count)
    (h3 : x.binary_cluster_count = y.binary_cluster_count) : x = y := by
  cases x
  cases y
  simp only at h1 h2 h3
  rw [h1, h2, h3]

theorem foldl_gatherPredecessor_length (cl : List Nat) (w : Nat) (l : List Nat) :
    ∀ acc : List (List (Nat × Int)) × List Int,
      (l.foldl (gatherPredecessor cl w) acc).2.length = acc.2.length := by
  induction l with
  | nil => intro acc; rfl
  | cons p rest ih =>
    intro acc
    rw [List.foldl_cons, ih]
    unfold gatherPredecessor
    simp only [vadd_length]

theorem gatherProfiles_lengths (stats : CorpusStatistics) (cl : List Nat) (K w : Nat) :
    (gatherProfiles stats cl K w).2.1.length = K
    ∧ (gatherProfiles stats cl K w).2.2.length = K
    ∧ (gatherProfiles stats cl K w).1.word_count = stats.word_count
    ∧ (gatherProfiles stats cl K w).1.double_word_count = stats.double_word_count := by
  unfold gatherProfiles
  refine ⟨?_, ?_, rfl, rfl⟩
  · simp only []
    rw [foldl_gatherPredecessor_length]
    simp
  · simp only []
    rw [foldl_vadd_length]
    simp

theorem removeWord_unary_raw (stats : CorpusStatistics) (cs : ClusterState) (K w : Nat)
    (pred succ : List Int) (hu : cs.unary_cluster_count.length = K)
    (hold : cs.clusters.getD w 0 < K) (c : Nat) :
    vget (removeWord stats cs K w pred succ).1.unary_cluster_count c
      = vget cs.unary_cluster_count c
        + if c = cs.clusters.getD w 0 then -(vget stats.word_count w) else 0 := by
  show vget (vadd cs.unary_cluster_count (cs.clusters.getD w 0)
    (-(vget stats.word_count w))) c = _
  rw [vget_vadd _ _ _ _ (by rw [hu]; exact hold)]

theorem removeWord_square {K : Nat} (stats : CorpusStatistics) (cs : ClusterState) (w : Nat)
    (pred succ : List Int) (hsq : Square K cs.binary_cluster_count) :
    Square K (removeWord stats cs K w pred succ).1.binary_cluster_count := by
  show Square K (madd ((List.range K).foldl
    (removeFromRow (cs.clusters.getD w 0) pred succ) cs.binary_cluster_count) _ _ _)
  rw [removeFromRow_eq]
  exact madd_square (crossUpdate_square _ _ _ _ _ hsq) _ _ _

theorem removeWord_binary_raw (stats : CorpusStatistics) (cs : ClusterState) (K w : Nat)
    (pred succ : List Int) (hsq : Square K cs.binary_cluster_count)
    (hold : cs.clusters.getD w 0 < K) (a b : Nat) (ha : a < K) (hb : b < K) :
    mget (removeWord stats cs K w pred succ).1.binary_cluster_count a b
      = mget cs.binary_cluster_count a b
        + ((if a ≠ cs.clusters.getD w 0 ∧ b = cs.clusters.getD w 0
              then -(vget pred a) else 0)
          + (if a = cs.clusters.getD w 0 ∧ b ≠ cs.clusters.getD w 0
              then -(vget succ b) else 0)
          + (if a = cs.clusters.getD w 0 ∧ b = cs.clusters.getD w 0
              then vget stats.double_word_count w - vget pred (cs.clusters.getD w 0)
                - vget succ (cs.clusters.getD w 0) else 0)) := by
  show mget (madd ((List.range K).foldl
    (removeFromRow (cs.clusters.getD w 0) pred succ) cs.binary_cluster_count)
    (cs.clusters.getD w 0) (cs.clusters.getD w 0)
    (vget stats.double_word_count w - vget pred (cs.clusters.getD w 0)
      - vget succ (cs.clusters.getD w 0))) a b = _
  rw [removeFromRow_eq]
  rw [mget_madd (crossUpdate_square _ _ _ _ _ hsq) _ _ _ _ _ hold hold,
    mget_crossUpdate_range _ hold _ _ _ hsq a b ha hb]
  ring

theorem removeWord_pred_raw (stats : CorpusStatistics) (cs : ClusterState) (K w : Nat)
    (pred succ : List Int) (hp : pred.length = K) (hold : cs.clusters.getD w 0 < K) (c : Nat) :
    vget (removeWord stats cs K w pred succ).2.1 c
      = vget pred c
        + if c = cs.clusters.getD w 0 then -(vget stats.double_word_count w) else 0 := by
  show vget (vadd pred (cs.clusters.getD w 0) (-(vget stats.double_word_count w))) c = _
  rw [vget_vadd _ _ _ _ (by rw [hp]; exact hold)]

theorem removeWord_succ_raw (stats : CorpusStatistics) (cs : ClusterState) (K w : Nat)
    (pred succ : List Int) (hs : succ.length = K) (hold : cs.clusters.getD w 0 < K) (c : Nat) :
    vget (removeWord stats cs K w pred succ).2.2 c
      = vget succ c
        + if c = cs.clusters.getD w 0 then -(vget stats.double_word_count w) else 0 := by
  show vget (vadd succ (cs.clusters.getD w 0) (-(vget stats.double_word_count w))) c = _
  rw [vget_vadd _ _ _ _ (by rw [hs]; exact hold)]

theorem insert_after_remove (stats : CorpusStatistics) (cs : ClusterState) (K w : Nat)
    (pred succ : List Int) (hu : cs.unary_cluster_count.length = K)
    (hsq : Square K cs.binary_cluster_count) (hp : pred.length = K) (hs : succ.length = K)
    (hold : cs.clusters.getD w 0 < K) :
    insertWord stats (removeWord stats cs K w pred succ).1 K w
      (removeWord stats cs K w pred succ).2.1 (removeWord stats cs K w pred succ).2.2
      (cs.clusters.getD w 0) = cs := by
  have hru : (removeWord stats cs K w pred succ).1.unary_cluster_count.length = K := by
    show (vadd _ _ _).length = K
    rw [vadd_length]; exact hu
  have hrsq := removeWord_square stats cs w pred succ hsq
  have hrc : (removeWord stats cs K w pred succ).1.clusters = cs.clusters := rfl
  have hunary : (insertWord stats (removeWord stats cs K w pred succ).1 K w
      (removeWord stats cs K w pred succ).2.1 (removeWord stats cs K w pred succ).2.2
      (cs.clusters.getD w 0)).unary_cluster_count = cs.unary_cluster_count := by
    apply vec_ext
    · show (vadd _ _ _).length = _
      rw [vadd_length, hru, hu]
    · intro c _
      rw [insertWord_unary_raw stats _ K w _ _ _ hru hold c,
        removeWord_unary_raw stats cs K w pred succ hu hold c]
      by_cases e : c = cs.clusters.getD w 0
      · rw [if_pos e, if_pos e]; ring
      · rw [if_neg e, if_neg e]; ring
  have hbinary : (insertWord stats (removeWord stats cs K w pred succ).1 K w
      (removeWord stats cs K w pred succ).2.1 (removeWord stats cs K w pred succ).2.2
      (cs.clusters.getD w 0)).binary_cluster_count = cs.binary_cluster_count := by
    apply mat_ext _ _ _ hsq
    · intro a b ha hb
      rw [insertWord_binary_raw stats _ K w _ _ _ hrsq hold a b ha hb,
        removeWord_binary_raw stats cs K w pred succ hsq hold a b ha hb,
        removeWord_pred_raw stats cs K w pred succ hp hold,
        removeWord_succ_raw stats cs K w pred succ hs hold,
        removeWord_pred_raw stats cs K w pred succ hp hold,
        removeWord_succ_raw stats cs K w pred succ hs hold]
      by_cases e1 : a = cs.clusters.getD w 0
      · by_cases e2 : b = cs.clusters.getD w 0
        · simp only [e1, e2, ne_eq, not_true_eq_false, false_and, and_false, if_false,
            and_self, if_true]
          ring
        · simp only [e1, e2, ne_eq, not_true_eq_false, false_and, and_false, if_false,
            not_false_eq_true, and_self, if_true]
          ring
      · by_cases e2 : b = cs.clusters.getD w 0
        · simp only [e1, e2, ne_eq, not_false_eq_true, and_self, if_true, false_and,
            if_false, not_true_eq_false, and_false]
          ring
        · simp only [e1, e2, ne_eq, not_false_eq_true, and_false, false_and, if_false,
            and_self]
          ring
    · show Square K (madd ((List.range K).foldl (insertIntoRow _ _ _) _) _ _ _)
      rw [insertIntoRow_eq]
      exact madd_square (crossUpdate_square _ _ _ _ _ hrsq) _ _ _
  have hclusters : (insertWord stats (removeWord stats cs K w pred succ).1 K w
      (removeWord stats cs K w pred succ).2.1 (removeWord stats cs K w pred succ).2.2
      (cs.clusters.getD w 0)).clusters = cs.clusters := rfl
  exact clusterState_eq _ _ hclusters hunary hbinary

theorem recordAssignment_same (cs : ClusterState) (w : Nat) :
    recordAssignment cs w (cs.clusters.getD w 0) = (cs, false) := by
  unfold recordAssignment
  rw [if_neg (fun h => h rfl)]

theorem insertWord_gatherAndRemove_same (stats : CorpusStatistics) (cs : ClusterState)
    (K w : Nat) (hu : cs.unary_cluster_count.length = K)
    (hsq : Square K cs.binary_cluster_count) (hold : cs.clusters.getD w 0 < K) :
    insertWord (gatherAndRemove stats cs K w).1 (gatherAndRemove stats cs K w).2.1 K w
      (gatherAndRemove stats cs K w).2.2.1 (gatherAndRemove stats cs K w).2.2.2
      (cs.clusters.getD w 0) = cs := by
  obtain ⟨hp, hs, _, _⟩ := gatherProfiles_lengths stats cs.clusters K w
  exact insert_after_remove (gatherProfiles stats cs.clusters K w).1 cs K w _ _ hu hsq hp hs hold

theorem moveWord_same (stats : CorpusStatistics) (cs : ClusterState)
    (K w : Nat) (hu : cs.unary_cluster_count.length = K)
    (hsq : Square K cs.binary_cluster_count) (hold : cs.clusters.getD w 0 < K) :
    (moveWord stats cs K w (cs.clusters.getD w 0)).2 = (cs, false) := by
  unfold moveWord
  simp only []
  rw [insertWord_gatherAndRemove_same stats cs K w hu hsq hold]
  exact recordAssignment_same cs w

/-- C17: for every cluster state with `num_clusters` unary counts, a square
matrix of binary counts and `old = cluster_of[w]` a valid cluster, consistent
or not, the removal of step 2 followed by the insertion of step 5 with
`assigned = old` gives back every entry of `unary_count` and `binary_count`,
the diagonal entry included; the whole step then leaves the state unchanged
and records no swap. -/
theorem insert_inverts_remove (stats : CorpusStatistics) (cs : ClusterState)
    (num_clusters w : Nat) (hu : cs.unary_cluster_count.length = num_clusters)
    (hsq : Square num_clusters cs.binary_cluster_count)
    (hold : cs.clusters.getD w 0 < num_clusters) :
    (insertWord (gatherAndRemove stats cs num_clusters w).1
        (gatherAndRemove stats cs num_clusters w).2.1 num_clusters w
        (gatherAndRemove stats cs num_clusters w).2.2.1
        (gatherAndRemove stats cs num_clusters w).2.2.2
        (cs.clusters.getD w 0)).unary_cluster_count = cs.unary_cluster_count
    ∧ (insertWord (gatherAndRemove stats cs num_clusters w).1
        (gatherAndRemove stats cs num_clusters w).2.1 num_clusters w
        (gatherAndRemove stats cs num_clusters w).2.2.1
        (gatherAndRemove stats cs num_clusters w).2.2.2
        (cs.clusters.getD w 0)).binary_cluster_count = cs.binary_cluster_count
    ∧ (moveWord stats cs num_clusters w (cs.clusters.getD w 0)).2 = (cs, false) := by
  have h := insertWord_gatherAndRemove_same stats cs num_clusters w hu hsq hold
  refine ⟨?_, ?_, moveWord_same stats cs num_clusters w hu hsq hold⟩
  · rw [h]
  · rw [h]

/-- Instance of `insert_inverts_remove` on a state whose counts are not the
aggregation of its assignment. -/
theorem insert_inverts_remove_witness :
    ([5, -3] : List Int).length = 2
    ∧ Square 2 [[1, 2], [3, 4]]
    ∧ ([0, 1, 0] : List Nat).getD 2 0 < 2
    ∧ (moveWord (buildStatistics 3 [0, 0, 0, 2, 2, 1, 0, 0])
        { clusters := [0, 1, 0], unary_cluster_count := [5, -3],
          binary_cluster_count := [[1, 2], [3, 4]] } 2 2
        (([0, 1, 0] : List Nat).getD 2 0)).2
      = ({ clusters := [0, 1, 0], unary_cluster_count := [5, -3],
           binary_cluster_count := [[1, 2], [3, 4]] }, false) :=
  ⟨by decide, ⟨by decide, by decide⟩, by decide,
    (insert_inverts_remove (buildStatistics 3 [0, 0, 0, 2, 2, 1, 0, 0])
      { clusters := [0, 1, 0], unary_cluster_count := [5, -3],
        binary_cluster_count := [[1, 2], [3, 4]] } 2 2 (by decide)
      ⟨by decide, by decide⟩ (by decide)).2.2⟩

/-- C18: for a consistent cluster state of an in-range stream and a word `w`
with `old = cluster_of[w]`, after steps 1-2 the statistics are untouched,
`unary_count[old]` has decreased by `word_count[w]` and no other unary count
has changed, every `binary_count[c1][c2]` is the sum of `successors[a][b]`
over the pairs of words other than `w` in those clusters, and the corrected
profiles are the sums of `successors[p][w]` and of `successors[w][w2]` over
the words other than `w` of each cluster. -/
theorem state_with_word_removed (num_words num_clusters : Nat) (stream : List Nat)
    (hs : ∀ x ∈ stream, x < num_words) (cs : ClusterState)
    (hc : Consistent num_words num_clusters (buildStatistics num_words stream) cs)
    (w : Nat) (hw : w < num_words) :
    (gatherAndRemove (buildStatistics num_words stream) cs num_clusters w).1
        = buildStatistics num_words stream
    ∧ (∀ c, vget (gatherAndRemove (buildStatistics num_words stream) cs num_clusters
          w).2.1.unary_cluster_count c
        = vget cs.unary_cluster_count c
          - if c = cs.clusters.getD w 0
            then vget (buildStatistics num_words stream).word_count w else 0)
    ∧ (∀ c1 c2, c1 < num_clusters → c2 < num_clusters →
        mget (gatherAndRemove (buildStatistics num_words stream) cs num_clusters
          w).2.1.binary_cluster_count c1 c2
        = restBinary (buildStatistics num_words stream) cs.clusters num_words w c1 c2)
    ∧ (∀ c, vget (gatherAndRemove (buildStatistics num_words stream) cs num_clusters w).2.2.1 c
        = restPred (buildStatistics num_words stream) cs.clusters num_words w c)
    ∧ (∀ c, vget (gatherAndRemove (buildStatistics num_words stream) cs num_clusters w).2.2.2 c
        = restSucc (buildStatistics num_words stream) cs.clusters num_words w c) := by
  have hwf := wellFormed_buildStatistics num_words stream hs
  obtain ⟨h1, h2, hr⟩ := gatherAndRemove_spec hwf hc w hw
  refine ⟨h1, ?_, ?_, ?_, ?_⟩
  · intro c
    rw [hr.unary c, h2, hc.unary c, aggregateUnary_split _ _ _ w c hw]
    by_cases e : c = cs.clusters.getD w 0
    · rw [if_pos e, if_pos e.symm]; ring
    · rw [if_neg e, if_neg (fun q => e q.symm)]; ring
  · intro c1 c2 hc1 hc2
    rw [hr.binary c1 c2 hc1 hc2, h2]
  · intro c
    rw [hr.pred c, h2]
  · intro c
    rw [hr.succ c, h2]

/-- Instance of `state_with_word_removed`: word `0` of the stream
`[0,0,0,2,2,1,0,0]`, which follows itself, in the initial state with two
clusters. -/
theorem state_with_word_removed_witness :
    (∀ x ∈ [0, 0, 0, 2, 2, 1, 0, 0], x < 3)
    ∧ Consistent 3 2 (buildStatistics 3 [0, 0, 0, 2, 2, 1, 0, 0])
        (initialState (buildStatistics 3 [0, 0, 0, 2, 2, 1, 0, 0]) 3 2 (fun w => w % 2))
    ∧ (0 : Nat) < 3
    ∧ (gatherAndRemove (buildStatistics 3 [0, 0, 0, 2, 2, 1, 0, 0])
        (initialState (buildStatistics 3 [0, 0, 0, 2, 2, 1, 0, 0]) 3 2 (fun w => w % 2))
        2 0).1 = buildStatistics 3 [0, 0, 0, 2, 2, 1, 0, 0] :=
  ⟨by decide,
    (initialState_consistent (wellFormed_buildStatistics 3 [0, 0, 0, 2, 2, 1, 0, 0] (by decide))
      (fun w => w % 2) (fun w _ => Nat.mod_lt w (by decide))).1,
    by decide,
    (state_with_word_removed 3 2 [0, 0, 0, 2, 2, 1, 0, 0] (by decide) _
      (initialState_consistent
        (wellFormed_buildStatistics 3 [0, 0, 0, 2, 2, 1, 0, 0] (by decide))
        (fun w => w % 2) (fun w _ => Nat.mod_lt w (by decide))).1 0 (by decide)).1⟩

theorem moveWord_flag (stats : CorpusStatistics) (cs : ClusterState) (K w k : Nat) :
    (moveWord stats cs K w k).2.2 = decide (k ≠ cs.clusters.getD w 0) := by
  show (recordAssignment _ w k).2 = _
  unfold recordAssignment
  split
  · rename_i h
    exact (decide_eq_true (show k ≠ cs.clusters.getD w 0 from h)).symm
  · rename_i h
    exact (decide_eq_false (show ¬ k ≠ cs.clusters.getD w 0 from h)).symm

theorem reassignWord_of_assigned_eq {α : Type} [Zero α] [Add α] [Sub α] [Mul α] [OfNat α 2]
    [LinearOrder α] (entropy : Int → α)
    {N K : Nat} {stats : CorpusStatistics} (hwf : WellFormed N stats)
    {cs : ClusterState} (hc : Consistent N K stats cs) (w : Nat) (hw : w < N)
    (h : assignedCluster entropy stats cs K w = cs.clusters.getD w 0) :
    reassignWord entropy K stats cs w = (stats, cs, false) := by
  unfold reassignWord
  rw [h]
  have h1 := (moveWord_spec hwf hc w hw _ (hc.range w hw)).1
  have h2 := moveWord_same stats cs K w hc.len_unary hc.square (hc.range w hw)
  exact Prod.ext h1 h2

theorem reassignWord_no_swap {α : Type} [Zero α] [Add α] [Sub α] [Mul α] [OfNat α 2]
    [LinearOrder α] (entropy : Int → α)
    {N K : Nat} {stats : CorpusStatistics} (hwf : WellFormed N stats)
    {cs : ClusterState} (hc : Consistent N K stats cs) (w : Nat) (hw : w < N)
    (h : (reassignWord entropy K stats cs w).2.2 = false) :
    assignedCluster entropy stats cs K w = cs.clusters.getD w 0
    ∧ reassignWord entropy K stats cs w = (stats, cs, false) := by
  have ha : assignedCluster entropy stats cs K w = cs.clusters.getD w 0 := by
    unfold reassignWord at h
    rw [moveWord_flag] at h
    exact not_not.1 (of_decide_eq_false h)
  exact ⟨ha, reassignWord_of_assigned_eq entropy hwf hc w hw ha⟩

theorem reassignWords_count_le {α : Type} [Zero α] [Add α] [Sub α] [Mul α] [OfNat α 2]
    [LinearOrder α] (entropy : Int → α)
    (K : Nat) (words : List Nat) :
    ∀ (start : CorpusStatistics × ClusterState × Nat),
      start.2.2 ≤ (reassignWords entropy K words start).2.2 := by
  induction words with
  | nil => intro start; exact le_refl _
  | cons w rest ih =>
    intro start
    unfold reassignWords
    rw [List.foldl_cons]
    have := ih ((reassignWord entropy K start.1 start.2.1 w).1,
      (reassignWord entropy K start.1 start.2.1 w).2.1,
      if (reassignWord entropy K start.1 start.2.1 w).2.2 then start.2.2 + 1 else start.2.2)
    unfold reassignWords at this
    refine le_trans ?_ this
    show start.2.2 ≤ if _ then start.2.2 + 1 else start.2.2
    split
    · exact Nat.le_succ _
    · exact le_refl _

theorem reassignWords_fixed {α : Type} [Zero α] [Add α] [Sub α] [Mul α] [OfNat α 2]
    [LinearOrder α] (entropy : Int → α)
    (K : Nat) (stats : CorpusStatistics) (cs : ClusterState) (words : List Nat)
    (h : ∀ w ∈ words, reassignWord entropy K stats cs w = (stats, cs, false)) (n : Nat) :
    reassignWords entropy K words (stats, cs, n) = (stats, cs, n) := by
  induction words with
  | nil => rfl
  | cons w rest ih =>
    have hw := h w (List.mem_cons_self _ _)
    have hrest := ih (fun x hx => h x (List.mem_cons_of_mem _ hx))
    unfold reassignWords at hrest ⊢
    rw [List.foldl_cons]
    simp only [hw]
    exact hrest

theorem reassignWords_zero_swaps {α : Type} [Zero α] [Add α] [Sub α] [Mul α] [OfNat α 2]
    [LinearOrder α] (entropy : Int → α)
    {N K : Nat} {stats : CorpusStatistics} (hwf : WellFormed N stats)
    {cs : ClusterState} (hc : Consistent N K stats cs) (words : List Nat)
    (hwords : ∀ w ∈ words, w < N) (n : Nat)
    (h : (reassignWords entropy K words (stats, cs, n)).2.2 = n) :
    ∀ w ∈ words, assignedCluster entropy stats cs K w = cs.clusters.getD w 0
      ∧ reassignWord entropy K stats cs w = (stats, cs, false) := by
  induction words with
  | nil => intro w hw; simp at hw
  | cons x rest ih =>
    have hx := hwords x (List.mem_cons_self _ _)
    have hle := reassignWords_count_le entropy K rest
      ((reassignWord entropy K stats cs x).1, (reassignWord entropy K stats cs x).2.1,
        if (reassignWord entropy K stats cs x).2.2 then n + 1 else n)
    have hunf : reassignWords entropy K (x :: rest) (stats, cs, n)
        = reassignWords entropy K rest
          ((reassignWord entropy K stats cs x).1, (reassignWord entropy K stats cs x).2.1,
            if (reassignWord entropy K stats cs x).2.2 then n + 1 else n) := by
      unfold reassignWords
      rw [List.foldl_cons]
    rw [hunf] at h
    have hflag : (reassignWord entropy K stats cs x).2.2 = false := by
      by_contra hne
      have ht : (reassignWord entropy K stats cs x).2.2 = true := by
        cases hb : (reassignWord entropy K stats cs x).2.2 with
        | true => rfl
        | false => exact absurd hb hne
      rw [ht] at hle
      simp only [if_true] at hle
      rw [ht] at h
      simp only [if_true] at h
      omega
    have hstep := reassignWord_no_swap entropy hwf hc x hx hflag
    rw [hstep.2] at h
    simp only [Bool.false_eq_true, if_false] at h
    have hrest := ih (fun y hy => hwords y (List.mem_cons_of_mem _ hy)) h
    intro w hw
    rcases List.mem_cons.1 hw with e | e
    · rw [e]; exact hstep
    · exact hrest w e

theorem runEpoch_zero_swaps {α : Type} [Zero α] [Add α] [Sub α] [Mul α] [OfNat α 2]
    [LinearOrder α] (entropy : Int → α)
    {N K : Nat} {stats : CorpusStatistics} (hwf : WellFormed N stats)
    {cs : ClusterState} (hc : Consistent N K stats cs)
    (h : (runEpoch entropy N K stats cs).2.2 = 0) :
    runEpoch entropy N K stats cs = (stats, cs, 0)
    ∧ ∀ w, w < N → assignedCluster entropy stats cs K w = cs.clusters.getD w 0
      ∧ reassignWord entropy K stats cs w = (stats, cs, false) := by
  have hall := reassignWords_zero_swaps entropy hwf hc (List.range N)
    (fun w hw => List.mem_range.1 hw) 0 h
  refine ⟨?_, fun w hw => hall w (List.mem_range.2 hw)⟩
  exact reassignWords_fixed entropy K stats cs (List.range N) (fun w hw => (hall w hw).2) 0

/-- C11: if an epoch started in a consistent state produces zero swaps, the
statistics and the cluster state (assignment, unary and binary counts) at its
selects the cluster the word already has and changes nothing, and a further
epoch again produces zero swaps and the same state. -/
theorem zero_swap_epoch_is_fixed_point {α : Type} [Zero α] [Add α] [Sub α] [Mul α] [OfNat α 2]
    [LinearOrder α] (entropy : Int → α) (num_words num_clusters : Nat) (stream : List Nat)
    (hs : ∀ x ∈ stream, x < num_words) (cs : ClusterState)
    (hc : Consistent num_words num_clusters (buildStatistics num_words stream) cs)
    (hzero : (runEpoch entropy num_words num_clusters
      (buildStatistics num_words stream) cs).2.2 = 0) :
    runEpoch entropy num_words num_clusters (buildStatistics num_words stream) cs
      = (buildStatistics num_words stream, cs, 0)
    ∧ (∀ w, w < num_words →
        assignedCluster entropy (buildStatistics num_words stream) cs num_clusters w
          = cs.clusters.getD w 0
        ∧ reassignWord entropy num_clusters (buildStatistics num_words stream) cs w
          = (buildStatistics num_words stream, cs, false))
    ∧ runEpoch entropy num_words num_clusters
        (runEpoch entropy num_words num_clusters (buildStatistics num_words stream) cs).1
        (runEpoch entropy num_words num_clusters (buildStatistics num_words stream) cs).2.1
      = (buildStatistics num_words stream, cs, 0) := by
  have hwf := wellFormed_buildStatistics num_words stream hs
  have h := runEpoch_zero_swaps entropy hwf hc hzero
  refine ⟨h.1, h.2, ?_⟩
  rw [h.1]
  exact h.1

/-- Instance of `zero_swap_epoch_is_fixed_point`: the state of the stream
`[0,0,0,2,2,1,0,0]` with two clusters after its first epoch; the second epoch
produces zero swaps. -/
theorem zero_swap_epoch_is_fixed_point_witness :
    (∀ x ∈ [0, 0, 0, 2, 2, 1, 0, 0], x < 3)
    ∧ Consistent 3 2 (buildStatistics 3 [0, 0, 0, 2, 2, 1, 0, 0])
        (runEpoch (fun n : Int => n * n) 3 2 (buildStatistics 3 [0, 0, 0, 2, 2, 1, 0, 0])
          (initialState (buildStatistics 3 [0, 0, 0, 2, 2, 1, 0, 0]) 3 2
            (fun w => w % 2))).2.1
    ∧ (runEpoch (fun n : Int => n * n) 3 2 (buildStatistics 3 [0, 0, 0, 2, 2, 1, 0, 0])
        (runEpoch (fun n : Int => n * n) 3 2 (buildStatistics 3 [0, 0, 0, 2, 2, 1, 0, 0])
          (initialState (buildStatistics 3 [0, 0, 0, 2, 2, 1, 0, 0]) 3 2
            (fun w => w % 2))).2.1).2.2 = 0
    ∧ runEpoch (fun n : Int => n * n) 3 2 (buildStatistics 3 [0, 0, 0, 2, 2, 1, 0, 0])
        (runEpoch (fun n : Int => n * n) 3 2 (buildStatistics 3 [0, 0, 0, 2, 2, 1, 0, 0])
          (initialState (buildStatistics 3 [0, 0, 0, 2, 2, 1, 0, 0]) 3 2
            (fun w => w % 2))).2.1
      = (buildStatistics 3 [0, 0, 0, 2, 2, 1, 0, 0],
          (runEpoch (fun n : Int => n * n) 3 2 (buildStatistics 3 [0, 0, 0, 2, 2, 1, 0, 0])
            (initialState (buildStatistics 3 [0, 0, 0, 2, 2, 1, 0, 0]) 3 2
              (fun w => w % 2))).2.1, 0) :=
  ⟨by decide,
    (runEpoch_spec (fun n : Int => n * n)
      (wellFormed_buildStatistics 3 [0, 0, 0, 2, 2, 1, 0, 0] (by decide)) (by decide)
      (initialState_consistent
        (wellFormed_buildStatistics 3 [0, 0, 0, 2, 2, 1, 0, 0] (by decide))
        (fun w => w % 2) (fun w _ => Nat.mod_lt w (by decide))).1).2,
    by set_option maxRecDepth 100000 in decide,
    (zero_swap_epoch_is_fixed_point (fun n : Int => n * n) 3 2 [0, 0, 0, 2, 2, 1, 0, 0]
      (by decide) _
      (runEpoch_spec (fun n : Int => n * n)
        (wellFormed_buildStatistics 3 [0, 0, 0, 2, 2, 1, 0, 0] (by decide)) (by decide)
        (initialState_consistent
          (wellFormed_buildStatistics 3 [0, 0, 0, 2, 2, 1, 0, 0] (by decide))
          (fun w => w % 2) (fun w _ => Nat.mod_lt w (by decide))).1).2
      (by set_option maxRecDepth 100000 in decide)).1⟩

theorem epochSwaps_zero {α : Type} [Zero α] [Add α] [Sub α] [Mul α] [OfNat α 2]
    [LinearOrder α] (entropy : Int → α)
    (N K : Nat) (stats : CorpusStatistics) (cs : ClusterState) :
    epochSwaps entropy N K stats cs 0 = (runEpoch entropy N K stats cs).2.2 := rfl

theorem epochSwaps_succ {α : Type} [Zero α] [Add α] [Sub α] [Mul α] [OfNat α 2]
    [LinearOrder α] (entropy : Int → α)
    (N K : Nat) (stats : CorpusStatistics) (cs : ClusterState) (i : Nat) :
    epochSwaps entropy N K stats cs (i + 1)
      = epochSwaps entropy N K (runEpoch entropy N K stats cs).1
          (runEpoch entropy N K stats cs).2.1 i := rfl

theorem wordBoundary_zero_zero {α : Type} [Zero α] [Add α] [Sub α] [Mul α] [OfNat α 2]
    [LinearOrder α] (entropy : Int → α)
    (N K : Nat) (stats : CorpusStatistics) (cs : ClusterState) :
    wordBoundary entropy N K stats cs 0 0 = (stats, cs, 0) := by
  rw [wordBoundary]
  rfl

theorem wordBoundary_succ {α : Type} [Zero α] [Add α] [Sub α] [Mul α] [OfNat α 2]
    [LinearOrder α] (entropy : Int → α)
    (N K : Nat) (stats : CorpusStatistics) (cs : ClusterState) (i done : Nat) :
    wordBoundary entropy N K stats cs (i + 1) done
      = wordBoundary entropy N K (runEpoch entropy N K stats cs).1
          (runEpoch entropy N K stats cs).2.1 i done := by
  rw [wordBoundary]

theorem optimizeLoop_trace {α : Type} [Zero α] [Add α] [Sub α] [Mul α] [OfNat α 2]
    [LinearOrder α] (entropy : Int → α)
    (N K : Nat) (E : Nat) :
    ∀ (stats : CorpusStatistics) (cs : ClusterState),
      epochsExecuted entropy N K E stats cs ≤ E
      ∧ (∀ i, i + 1 < epochsExecuted entropy N K E stats cs →
          epochSwaps entropy N K stats cs i ≠ 0)
      ∧ (epochsExecuted entropy N K E stats cs < E →
          0 < epochsExecuted entropy N K E stats cs
          ∧ epochSwaps entropy N K stats cs (epochsExecuted entropy N K E stats cs - 1) = 0)
      ∧ (∀ i, i < epochsExecuted entropy N K E stats cs →
          (optimizeLoop entropy N K E stats cs).2.2[i]?
            = some (totalPerplexity entropy
                (wordBoundary entropy N K stats cs (i + 1) 0).1
                (wordBoundary entropy N K stats cs (i + 1) 0).2.1,
              epochSwaps entropy N K stats cs i))
      ∧ (optimizeLoop entropy N K E stats cs).1
          = (wordBoundary entropy N K stats cs (epochsExecuted entropy N K E stats cs) 0).1
      ∧ (optimizeLoop entropy N K E stats cs).2.1
          = (wordBoundary entropy N K stats cs
              (epochsExecuted entropy N K E stats cs) 0).2.1 := by
  induction E with
  | zero =>
    intro stats cs
    have hn0 : epochsExecuted entropy N K 0 stats cs = 0 := rfl
    rw [hn0, wordBoundary_zero_zero]
    refine ⟨le_refl _, ?_, ?_, ?_, rfl, rfl⟩
    · intro i hi; exact absurd hi (Nat.not_lt_zero _)
    · intro h; exact absurd h (Nat.lt_irrefl _)
    · intro i hi; exact absurd hi (Nat.not_lt_zero _)
  | succ E ih =>
    intro stats cs
    by_cases hz : (runEpoch entropy N K stats cs).2.2 = 0
    · have hopt : optimizeLoop entropy N K (E + 1) stats cs
          = ((runEpoch entropy N K stats cs).1, (runEpoch entropy N K stats cs).2.1,
              [(totalPerplexity entropy (runEpoch entropy N K stats cs).1
                (runEpoch entropy N K stats cs).2.1, (runEpoch entropy N K stats cs).2.2)]) := by
        rw [optimizeLoop]
        simp only [hz, if_true]
      have hn : epochsExecuted entropy N K (E + 1) stats cs = 1 := by
        unfold epochsExecuted; rw [hopt]; rfl
      rw [hn, hopt]
      refine ⟨by omega, ?_, ?_, ?_, ?_, ?_⟩
      rotate_left 3
      · rw [wordBoundary_succ, wordBoundary_zero_zero]
      · rw [wordBoundary_succ, wordBoundary_zero_zero]
      · intro i hi; omega
      · intro _
        exact ⟨Nat.one_pos, by rw [epochSwaps_zero]; exact hz⟩
      · intro i hi
        have hi0 : i = 0 := by omega
        subst hi0
        rw [wordBoundary_succ, wordBoundary_zero_zero, epochSwaps_zero]
        rfl
    · have hopt : optimizeLoop entropy N K (E + 1) stats cs
          = ((optimizeLoop entropy N K E (runEpoch entropy N K stats cs).1
                (runEpoch entropy N K stats cs).2.1).1,
              (optimizeLoop entropy N K E (runEpoch entropy N K stats cs).1
                (runEpoch entropy N K stats cs).2.1).2.1,
              (totalPerplexity entropy (runEpoch entropy N K stats cs).1
                (runEpoch entropy N K stats cs).2.1, (runEpoch entropy N K stats cs).2.2)
              :: (optimizeLoop entropy N K E (runEpoch entropy N K stats cs).1
                (runEpoch entropy N K stats cs).2.1).2.2) := by
        rw [optimizeLoop]
        simp only [hz, if_false]
      have hn : epochsExecuted entropy N K (E + 1) stats cs
          = epochsExecuted entropy N K E (runEpoch entropy N K stats cs).1
              (runEpoch entropy N K stats cs).2.1 + 1 := by
        unfold epochsExecuted; rw [hopt]; rfl
      obtain ⟨h1, h2, h3, h4, h5, h6⟩ := ih (runEpoch entropy N K stats cs).1
        (runEpoch entropy N K stats cs).2.1
      rw [hn, hopt]
      refine ⟨by omega, ?_, ?_, ?_, ?_, ?_⟩
      · intro i hi
        cases i with
        | zero => rw [epochSwaps_zero]; exact hz
        | succ j => rw [epochSwaps_succ]; exact h2 j (by omega)
      · intro hlt
        have h3b := h3 (by omega)
        refine ⟨by omega, ?_⟩
        have hsub : epochsExecuted entropy N K E (runEpoch entropy N K stats cs).1
            (runEpoch entropy N K stats cs).2.1 + 1 - 1
            = (epochsExecuted entropy N K E (runEpoch entropy N K stats cs).1
                (runEpoch entropy N K stats cs).2.1 - 1) + 1 := by omega
        rw [hsub, epochSwaps_succ]
        exact h3b.2
      · intro i hi
        cases i with
        | zero =>
          rw [wordBoundary_succ, wordBoundary_zero_zero, epochSwaps_zero]
          simp only [List.getElem?_cons_zero]
        | succ j =>
          simp only [List.getElem?_cons_succ]
          rw [h4 j (by omega), epochSwaps_succ,
            wordBoundary_succ entropy N K stats cs (j + 1) 0]
      · rw [h5, wordBoundary_succ]
      · rw [h6, wordBoundary_succ]

theorem epochsExecuted_eq_min {α : Type} [Zero α] [Add α] [Sub α] [Mul α] [OfNat α 2]
    [LinearOrder α] (entropy : Int → α)
    (N K E : Nat) (stats : CorpusStatistics) (cs : ClusterState) (z : Nat)
    (hz : epochSwaps entropy N K stats cs z = 0)
    (hfirst : ∀ i, i < z → epochSwaps entropy N K stats cs i ≠ 0) :
    epochsExecuted entropy N K E stats cs = min E (z + 1) := by
  obtain ⟨h1, h2, h3, _, _, _⟩ := optimizeLoop_trace entropy N K E stats cs
  by_cases hlt : epochsExecuted entropy N K E stats cs < E
  · obtain ⟨hpos, hlast⟩ := h3 hlt
    have hge : z ≤ epochsExecuted entropy N K E stats cs - 1 := by
      by_contra hc
      exact hfirst _ (by omega) hlast
    have hle : epochsExecuted entropy N K E stats cs - 1 ≤ z := by
      by_contra hc
      exact h2 z (by omega) hz
    rw [Nat.min_def]
    split <;> omega
  · have heq : epochsExecuted entropy N K E stats cs = E := by omega
    have hEz : E ≤ z + 1 := by
      by_contra hc
      exact h2 z (by omega) hz
    rw [Nat.min_def]
    split <;> omega

theorem epochsExecuted_eq_budget {α : Type} [Zero α] [Add α] [Sub α] [Mul α] [OfNat α 2]
    [LinearOrder α] (entropy : Int → α)
    (N K E : Nat) (stats : CorpusStatistics) (cs : ClusterState)
    (hnone : ∀ i, i < E → epochSwaps entropy N K stats cs i ≠ 0) :
    epochsExecuted entropy N K E stats cs = E := by
  obtain ⟨h1, _, h3, _, _, _⟩ := optimizeLoop_trace entropy N K E stats cs
  by_contra hne
  have hlt : epochsExecuted entropy N K E stats cs < E := by omega
  obtain ⟨hpos, hlast⟩ := h3 hlt
  exact hnone _ (by omega) hlast

/-- C12: the optimizer loop is a total function of its epoch budget `E`: it
executes at most `E` epochs, every epoch before the last one executed has a
non-zero swap count, and it stops short of the budget only right after an
epoch with zero swaps; so the number of epochs executed is the minimum of `E`
and the index (counted from 1) of the first zero-swap epoch, and it is `E`
when none of the first `E` epochs has zero swaps.  The report of epoch `i + 1`
is the perplexity after `i + 1` epochs with the swap count of that epoch, and
the final state is the state after the epochs executed. -/
theorem optimizer_stops_at_first_zero_swap_epoch {α : Type} [Zero α] [Add α] [Sub α]
    [Mul α] [OfNat α 2] [LinearOrder α] (entropy : Int → α)
    (num_words num_clusters num_epochs : Nat)
    (stats : CorpusStatistics) (cs : ClusterState) :
    epochsExecuted entropy num_words num_clusters num_epochs stats cs ≤ num_epochs
    ∧ (∀ i, i + 1 < epochsExecuted entropy num_words num_clusters num_epochs stats cs →
        epochSwaps entropy num_words num_clusters stats cs i ≠ 0)
    ∧ (epochsExecuted entropy num_words num_clusters num_epochs stats cs < num_epochs →
        0 < epochsExecuted entropy num_words num_clusters num_epochs stats cs
        ∧ epochSwaps entropy num_words num_clusters stats cs
            (epochsExecuted entropy num_words num_clusters num_epochs stats cs - 1) = 0)
    ∧ (∀ z, epochSwaps entropy num_words num_clusters stats cs z = 0 →
        (∀ i, i < z → epochSwaps entropy num_words num_clusters stats cs i ≠ 0) →
        epochsExecuted entropy num_words num_clusters num_epochs stats cs
          = min num_epochs (z + 1))
    ∧ ((∀ i, i < num_epochs → epochSwaps entropy num_words num_clusters stats cs i ≠ 0) →
        epochsExecuted entropy num_words num_clusters num_epochs stats cs = num_epochs)
    ∧ (∀ i, i < epochsExecuted entropy num_words num_clusters num_epochs stats cs →
        (optimizeLoop entropy num_words num_clusters num_epochs stats cs).2.2[i]?
          = some (totalPerplexity entropy
              (wordBoundary entropy num_words num_clusters stats cs (i + 1) 0).1
              (wordBoundary entropy num_words num_clusters stats cs (i + 1) 0).2.1,
            epochSwaps entropy num_words num_clusters stats cs i))
    ∧ (optimizeLoop entropy num_words num_clusters num_epochs stats cs).2.1
        = (wordBoundary entropy num_words num_clusters stats cs
            (epochsExecuted entropy num_words num_clusters num_epochs stats cs) 0).2.1 := by
  obtain ⟨h1, h2, h3, h4, _, h6⟩ :=
    optimizeLoop_trace entropy num_words num_clusters num_epochs stats cs
  exact ⟨h1, h2, h3,
    fun z hz hfirst =>
      epochsExecuted_eq_min entropy num_words num_clusters num_epochs stats cs z hz hfirst,
    fun hnone =>
      epochsExecuted_eq_budget entropy num_words num_clusters num_epochs stats cs hnone,
    h4, h6⟩

/-- Instance of `optimizer_stops_at_first_zero_swap_epoch`: the stream
`[0,0,0,2,2,1,0,0]` with two clusters and a budget of five epochs; the second
epoch is the first with zero swaps and two epochs are executed. -/
theorem optimizer_stops_at_first_zero_swap_epoch_witness :
    epochSwaps (fun n : Int => n * n) 3 2 (buildStatistics 3 [0, 0, 0, 2, 2, 1, 0, 0])
        (initialState (buildStatistics 3 [0, 0, 0, 2, 2, 1, 0, 0]) 3 2 (fun w => w % 2)) 1 = 0
    ∧ (∀ i, i < 1 →
        epochSwaps (fun n : Int => n * n) 3 2 (buildStatistics 3 [0, 0, 0, 2, 2, 1, 0, 0])
          (initialState (buildStatistics 3 [0, 0, 0, 2, 2, 1, 0, 0]) 3 2 (fun w => w % 2)) i
          ≠ 0)
    ∧ epochsExecuted (fun n : Int => n * n) 3 2 5 (buildStatistics 3 [0, 0, 0, 2, 2, 1, 0, 0])
        (initialState (buildStatistics 3 [0, 0, 0, 2, 2, 1, 0, 0]) 3 2 (fun w => w % 2))
      = min 5 (1 + 1) :=
  ⟨by set_option maxRecDepth 100000 in decide,
    by set_option maxRecDepth 100000 in decide,
    (optimizer_stops_at_first_zero_swap_epoch (fun n : Int => n * n) 3 2 5
      (buildStatistics 3 [0, 0, 0, 2, 2, 1, 0, 0])
      (initialState (buildStatistics 3 [0, 0, 0, 2, 2, 1, 0, 0]) 3 2
        (fun w => w % 2))).2.2.2.1 1
      (by set_option maxRecDepth 100000 in decide)
      (by set_option maxRecDepth 100000 in decide)⟩

theorem single_cluster_no_swap {α : Type} [Zero α] [Add α] [Sub α] [Mul α] [OfNat α 2]
    [LinearOrder α] (entropy : Int → α)
    {N : Nat} {stats : CorpusStatistics} (hwf : WellFormed N stats)
    {cs : ClusterState} (hc : Consistent N 1 stats cs) (w : Nat) (hw : w < N) :
    reassignWord entropy 1 stats cs w = (stats, cs, false) := by
  apply reassignWord_of_assigned_eq entropy hwf hc w hw
  have h1 := assignedCluster_lt entropy stats cs 1 w (le_refl 1)
  have h2 := hc.range w hw
  omega

theorem single_cluster_epoch {α : Type} [Zero α] [Add α] [Sub α] [Mul α] [OfNat α 2]
    [LinearOrder α] (entropy : Int → α)
    {N : Nat} {stats : CorpusStatistics} (hwf : WellFormed N stats)
    {cs : ClusterState} (hc : Consistent N 1 stats cs) :
    runEpoch entropy N 1 stats cs = (stats, cs, 0) :=
  reassignWords_fixed entropy 1 stats cs (List.range N)
    (fun w hw => single_cluster_no_swap entropy hwf hc w (List.mem_range.1 hw)) 0

/-- C13: for a stream of `n ≥ 1` in-range tokens, one cluster and an epoch
budget of at least one, the initial assignment puts every word in cluster 0
with `unary_count[0] = n` and `binary_count[0][0] = n - 1`; the optimizer
executes exactly one epoch, that epoch reports zero swaps, and the final
statistics and cluster state are the initial ones, so the output assigns
cluster 0 to every word.  The stream `[0,1,0,1,0,1]` gives `unary_count = [6]`
and `binary_count = [[5]]`. -/
theorem single_cluster_run {α : Type} [Zero α] [Add α] [Sub α] [Mul α] [OfNat α 2]
    [LinearOrder α] (entropy : Int → α)
    (num_words num_epochs : Nat) (stream : List Nat) (draw : Nat → Nat)
    (hlen : 1 ≤ stream.length) (hs : ∀ x ∈ stream, x < num_words) (hE : 1 ≤ num_epochs)
    (hd : ∀ w, w < num_words → draw w < 1) :
    (∀ c ∈ (initialState (buildStatistics num_words stream) num_words 1 draw).clusters, c = 0)
    ∧ vget (initialState (buildStatistics num_words stream) num_words 1
        draw).unary_cluster_count 0 = (stream.length : Int)
    ∧ mget (initialState (buildStatistics num_words stream) num_words 1
        draw).binary_cluster_count 0 0 = (stream.length : Int) - 1
    ∧ optimizeLoop entropy num_words 1 num_epochs (buildStatistics num_words stream)
        (initialState (buildStatistics num_words stream) num_words 1 draw)
      = (buildStatistics num_words stream,
          initialState (buildStatistics num_words stream) num_words 1 draw,
          [(totalPerplexity entropy (buildStatistics num_words stream)
              (initialState (buildStatistics num_words stream) num_words 1 draw), 0)])
    ∧ clusterWords entropy num_words 1 num_epochs draw stream = List.replicate num_words 0
    ∧ (initialState (buildStatistics 2 [0, 1, 0, 1, 0, 1]) 2 1 (fun _ => 0)).unary_cluster_count
        = [6]
    ∧ (initialState (buildStatistics 2 [0, 1, 0, 1, 0, 1]) 2 1 (fun _ => 0)).binary_cluster_count
        = [[5]] := by
  have ht := tracks_buildStatistics num_words stream hs
  have hwf := tracks_wellFormed ht
  have hinit := (initialState_consistent hwf draw hd).1
  have hcast : ((stream.length - 1 : Nat) : Int) = (stream.length : Int) - 1 := by omega
  have hall : ∀ c ∈ (initialState (buildStatistics num_words stream) num_words 1 draw).clusters,
      c = 0 := by
    intro c hcm
    obtain ⟨i, hi, hget⟩ := List.mem_iff_getElem.1 hcm
    have := hinit.range i (by rw [← hinit.len_clusters]; exact hi)
    rw [List.getD_eq_getElem _ _ hi, hget] at this
    omega
  have hloop : optimizeLoop entropy num_words 1 num_epochs (buildStatistics num_words stream)
        (initialState (buildStatistics num_words stream) num_words 1 draw)
      = (buildStatistics num_words stream,
          initialState (buildStatistics num_words stream) num_words 1 draw,
          [(totalPerplexity entropy (buildStatistics num_words stream)
              (initialState (buildStatistics num_words stream) num_words 1 draw), 0)]) := by
    obtain ⟨e, he⟩ : ∃ e, num_epochs = e + 1 := ⟨num_epochs - 1, by omega⟩
    rw [he, optimizeLoop]
    simp only [single_cluster_epoch entropy hwf hinit, if_true]
  refine ⟨hall, ?_, ?_, hloop, ?_, by decide, by decide⟩
  · have h := sum_aggregateUnary (buildStatistics num_words stream)
      (initialState (buildStatistics num_words stream) num_words 1 draw).clusters
      num_words 1 hinit.range
    rw [Finset.sum_range_one, total_word_count ht hs] at h
    rw [hinit.unary 0, h]
  · have h := sum_aggregateBinary (buildStatistics num_words stream)
      (initialState (buildStatistics num_words stream) num_words 1 draw).clusters
      num_words 1 hinit.range
    rw [Finset.sum_range_one, Finset.sum_range_one, total_successorCount ht,
      length_bigrams, hcast] at h
    rw [hinit.binary 0 0 (by omega) (by omega), h]
  · unfold clusterWords
    simp only [hloop]
    exact List.eq_replicate_iff.2 ⟨hinit.len_clusters, hall⟩

/-- Instance of `single_cluster_run` on the stream `[0,1,0,1,0,1]` with a
budget of 100 epochs. -/
theorem single_cluster_run_witness :
    1 ≤ [0, 1, 0, 1, 0, 1].length ∧ (∀ x ∈ [0, 1, 0, 1, 0, 1], x < 2) ∧ 1 ≤ 100
    ∧ (∀ w, w < 2 → (fun _ : Nat => 0) w < 1)
    ∧ clusterWords (fun n : Int => n * n) 2 1 100 (fun _ => 0) [0, 1, 0, 1, 0, 1]
      = List.replicate 2 0 :=
  ⟨by decide, by decide, by decide, fun _ _ => Nat.one_pos,
    (single_cluster_run (fun n : Int => n * n) 2 100 [0, 1, 0, 1, 0, 1] (fun _ => 0)
      (by decide) (by decide) (by decide) (fun _ _ => Nat.one_pos)).2.2.2.2.1⟩

theorem cache_getD {α : Type} [LinearOrderedCommRing α] (log : Int → α) (max : Nat)
    (n : Int) (h0 : 0 ≤ n) (hmax : n < (max : Int)) :
    (CachedEntropy.cache log max).getD n.toNat 0
      = if n = 0 then 0 else CachedEntropy.eval log n := by
  have hlt : n.toNat < max := by omega
  unfold CachedEntropy.cache
  rw [List.getD_eq_getElem _ _ (by simpa using hlt)]
  simp only [List.getElem_map, List.getElem_range]
  have hcast : Int.ofNat n.toNat = n := Int.toNat_of_nonneg h0
  by_cases e : n = 0
  · subst e; simp
  · have e2 : ¬ n.toNat = 0 := by omega
    rw [if_neg e2, if_neg e, hcast]

/-- C14: for every integer `n ≥ 0` the lookup in the entropy table returns
`n * log(n)`, with the value 0 at `n = 0`: below 10000 it is the cache entry
filled at construction, from 10000 on it is computed directly, and the cache
entry for `1 ≤ n < 10000` is the directly computed value.  Here `log` stands
for `std::log` and products are exact. -/
theorem entropy_table_lookup {α : Type} [LinearOrderedCommRing α] (log : Int → α) (n : Int)
    (hn : 0 ≤ n) :
    entropyTable log n = (if n = 0 then 0 else (n : α) * log n)
    ∧ (n < 10000 → entropyTable log n = (CachedEntropy.cache log 10000).getD n.toNat 0)
    ∧ (10000 ≤ n → entropyTable log n = CachedEntropy.eval log n)
    ∧ (1 ≤ n → n < 10000 →
        (CachedEntropy.cache log 10000).getD n.toNat 0 = CachedEntropy.eval log n)
    ∧ entropyTable log 0 = 0 := by
  have hcall : ∀ m : Int, m < 10000 →
      entropyTable log m = (CachedEntropy.cache log 10000).getD m.toNat 0 := by
    intro m hm
    unfold entropyTable CachedEntropy.call
    rw [if_pos (by exact_mod_cast hm)]
  have hdirect : ∀ m : Int, 10000 ≤ m → entropyTable log m = CachedEntropy.eval log m := by
    intro m hm
    unfold entropyTable CachedEntropy.call
    rw [if_neg (by push_cast; omega)]
  refine ⟨?_, hcall n, hdirect n, ?_, ?_⟩
  · by_cases hlt : n < 10000
    · rw [hcall n hlt, cache_getD log 10000 n hn (by exact_mod_cast hlt)]
      rfl
    · have hge : (10000 : Int) ≤ n := by omega
      rw [hdirect n hge, if_neg (by omega)]
      rfl
  · intro h1 hlt
    rw [cache_getD log 10000 n hn (by exact_mod_cast hlt), if_neg (by omega)]
  · rw [hcall 0 (by decide), cache_getD log 10000 0 (le_refl 0) (by decide), if_pos rfl]

/-- Instance of `entropy_table_lookup` at `n = 12345`, beyond the cache, with
the identity in the place of the logarithm. -/
theorem entropy_table_lookup_witness :
    (0 : Int) ≤ 12345
    ∧ entropyTable (fun n : Int => n) 12345
      = (if (12345 : Int) = 0 then 0 else ((12345 : Int) : Int) * (fun n : Int => n) 12345) :=
  ⟨by decide, (entropy_table_lookup (fun n : Int => n) 12345 (by decide)).1⟩

theorem foldl_skip_replicate_zero {β : Type} (f : β → Int → β) (n : Nat) (init : β) :
    (List.replicate n (0 : Int)).foldl (fun acc count => if count > 0 then f acc count else acc)
      init = init := by
  induction n with
  | zero => rfl
  | succ n ih =>
    rw [List.replicate_succ, List.foldl_cons, if_neg (by decide)]
    exact ih

theorem foldl_rows_replicate_zero {β : Type} (f : β → Int → β) (n k : Nat) (init : β) :
    (List.replicate n (List.replicate k (0 : Int))).foldl
      (fun acc entry =>
        entry.foldl (fun acc2 count => if count > 0 then f acc2 count else acc2) acc)
      init = init := by
  induction n with
  | zero => rfl
  | succ n ih =>
    rw [List.replicate_succ, List.foldl_cons, foldl_skip_replicate_zero]
    exact ih

theorem totalPerplexity_zero_vocabulary {α : Type} [Zero α] [Add α] [Sub α] [Mul α]
    [OfNat α 2]
    (entropy : Int → α) (K : Nat) (draw : Nat → Nat) :
    totalPerplexity entropy (allocStatistics 0) (assignClusters 0 K draw) = 0 := by
  unfold totalPerplexity
  have h1 : (allocStatistics 0).word_count = [] := rfl
  have h2 : (assignClusters 0 K draw).unary_cluster_count = List.replicate K 0 := rfl
  have h3 : (assignClusters 0 K draw).binary_cluster_count
      = List.replicate K (List.replicate K 0) := rfl
  simp only [h1, h2, h3, List.foldl_nil]
  rw [foldl_rows_replicate_zero (fun acc count => acc + entropy count),
    foldl_skip_replicate_zero (fun acc count => acc - 2 * entropy count)]

theorem optimizeLoop_zero_vocabulary {α : Type} [Zero α] [Add α] [Sub α] [Mul α] [OfNat α 2]
    [LinearOrder α]
    (entropy : Int → α) (K E : Nat) (draw : Nat → Nat) :
    optimizeLoop entropy 0 K E (buildStatistics 0 []) (initialState (buildStatistics 0 []) 0 K draw)
      = (allocStatistics 0, assignClusters 0 K draw, if E = 0 then [] else [((0 : α), 0)]) := by
  have hb : buildStatistics 0 [] = allocStatistics 0 := rfl
  have hi : initialState (allocStatistics 0) 0 K draw = assignClusters 0 K draw := rfl
  rw [hb, hi]
  cases E with
  | zero => rfl
  | succ e =>
    have hr : runEpoch entropy 0 K (allocStatistics 0) (assignClusters 0 K draw)
        = (allocStatistics 0, assignClusters 0 K draw, 0) := rfl
    rw [optimizeLoop]
    simp only [hr, if_true, totalPerplexity_zero_vocabulary]
    simp

/-- C16, as the code behaves: a run with vocabulary size zero is not
rejected.  On an empty token stream it runs to completion as a no-op for every
cluster count and epoch budget: at most one epoch is executed, it reports a
perplexity of 0 and zero swaps, the assignment written is empty and the exit
status is 0. -/
theorem zero_vocabulary_runs_as_noop {α : Type} [Zero α] [Add α] [Sub α] [Mul α] [OfNat α 2]
    [LinearOrder α]
    (entropy : Int → α) (num_clusters num_epochs : Nat) (draw : Nat → Nat) :
    runMain entropy 0 num_clusters num_epochs draw [] = (0, [])
    ∧ (optimizeLoop entropy 0 num_clusters num_epochs (buildStatistics 0 [])
        (initialState (buildStatistics 0 []) 0 num_clusters draw)).2.2
      = if num_epochs = 0 then [] else [((0 : α), 0)] := by
  have h := optimizeLoop_zero_vocabulary entropy num_clusters num_epochs draw
  refine ⟨?_, ?_⟩
  · unfold runMain clusterWords
    simp only [h]
    rfl
  · rw [h]

/-- C16 fails on the code: with the default vocabulary size 0, the default 128
clusters and 100 epochs, and an empty input, `main` is not rejected: it
returns exit status 0 after writing an empty assignment. -/
theorem zero_vocabulary_not_rejected :
    ¬ ((runMain (fun n : Int => n * n) 0 128 100 (fun _ => 0) []).1 ≠ 0)
    ∧ (runMain (fun n : Int => n * n) 0 128 100 (fun _ => 0) []).2 = [] := by
  have h := optimizeLoop_zero_vocabulary (fun n : Int => n * n) 128 100 (fun _ => 0)
  have hrun : runMain (fun n : Int => n * n) 0 128 100 (fun _ => 0) [] = (0, []) := by
    unfold runMain clusterWords
    simp only [h]
    rfl
  rw [hrun]
  exact ⟨fun hne => hne rfl, rfl⟩

theorem mapFind_perm (m1 m2 : List (Nat × Int)) (hp : m2.Perm m1)
    (hn : (mapKeys m1).Nodup) (k : Nat) : mapFind m2 k = mapFind m1 k := by
  have hn2 : (mapKeys m2).Nodup := (List.Perm.nodup_iff (hp.map Prod.fst)).2 hn
  cases h : mapFind m1 k with
  | none =>
    have hk := (mapFind_eq_none_iff m1 k).1 h
    apply (mapFind_eq_none_iff m2 k).2
    intro hk2
    exact hk ((hp.map Prod.fst).mem_iff.1 hk2)
  | some v =>
    exact mapFind_of_mem m2 k v hn2 (hp.mem_iff.2 (mapFind_mem m1 k v h))

theorem sameUpToOrder_successorEntry {N : Nat} {s1 s2 : CorpusStatistics}
    (hwf : WellFormed N s1) (h : SameUpToOrder s1 s2) (w w2 : Nat) :
    successorEntry s2 w w2 = successorEntry s1 w w2 :=
  mapFind_perm _ _ (h.successors w) (hwf.keys w) w2

theorem sameUpToOrder_successorCount {N : Nat} {s1 s2 : CorpusStatistics}
    (hwf : WellFormed N s1) (h : SameUpToOrder s1 s2) (w w2 : Nat) :
    successorCount s2 w w2 = successorCount s1 w w2 := by
  unfold successorCount
  rw [sameUpToOrder_successorEntry hwf h]

theorem sameUpToOrder_wellFormed {N : Nat} {s1 s2 : CorpusStatistics}
    (hwf : WellFormed N s1) (h : SameUpToOrder s1 s2) : WellFormed N s2 where
  len_wc := by rw [h.word_count]; exact hwf.len_wc
  len_dwc := by rw [h.double_word_count]; exact hwf.len_dwc
  len_succ := by rw [h.len_succ]; exact hwf.len_succ
  len_pred := by rw [h.len_pred]; exact hwf.len_pred
  keys := fun w => (List.Perm.nodup_iff ((h.successors w).map Prod.fst)).2 (hwf.keys w)
  key_range := fun w k hk => hwf.key_range w k (((h.successors w).map Prod.fst).mem_iff.1 hk)
  value_pos := fun w w2 v hv => by
    rw [sameUpToOrder_successorEntry hwf h] at hv
    exact hwf.value_pos w w2 v hv
  preds_nodup := fun w => (List.Perm.nodup_iff (h.predecessors w)).2 (hwf.preds_nodup w)
  preds := fun w p => by
    rw [(h.predecessors w).mem_iff, hwf.preds w p]
    exact (((h.successors p).map Prod.fst).mem_iff).symm
  dwc := fun w => by
    rw [h.double_word_count, sameUpToOrder_successorCount hwf h]
    exact hwf.dwc w
  wc_nonneg := fun w => by rw [h.word_count]; exact hwf.wc_nonneg w

theorem sameUpToOrder_aggregateUnary {s1 s2 : CorpusStatistics} (h : SameUpToOrder s1 s2)
    (cl : List Nat) (N c : Nat) :
    aggregateUnary s2 cl N c = aggregateUnary s1 cl N c := by
  unfold aggregateUnary
  rw [h.word_count]

theorem sameUpToOrder_aggregateBinary {N : Nat} {s1 s2 : CorpusStatistics}
    (hwf : WellFormed N s1) (h : SameUpToOrder s1 s2) (cl : List Nat) (a b : Nat) :
    aggregateBinary s2 cl N a b = aggregateBinary s1 cl N a b := by
  unfold aggregateBinary
  apply Finset.sum_congr rfl
  intro x _
  apply Finset.sum_congr rfl
  intro y _
  rw [sameUpToOrder_successorCount hwf h]

theorem sameUpToOrder_restPred {N : Nat} {s1 s2 : CorpusStatistics}
    (hwf : WellFormed N s1) (h : SameUpToOrder s1 s2) (cl : List Nat) (w c : Nat) :
    restPred s2 cl N w c = restPred s1 cl N w c := by
  unfold restPred
  apply Finset.sum_congr rfl
  intro x _
  rw [sameUpToOrder_successorCount hwf h]

theorem sameUpToOrder_restSucc {N : Nat} {s1 s2 : CorpusStatistics}
    (hwf : WellFormed N s1) (h : SameUpToOrder s1 s2) (cl : List Nat) (w c : Nat) :
    restSucc s2 cl N w c = restSucc s1 cl N w c := by
  unfold restSucc
  apply Finset.sum_congr rfl
  intro x _
  rw [sameUpToOrder_successorCount hwf h]

theorem sameUpToOrder_consistent {N K : Nat} {s1 s2 : CorpusStatistics}
    (hwf : WellFormed N s1) (h : SameUpToOrder s1 s2) {cs : ClusterState}
    (hc : Consistent N K s1 cs) : Consistent N K s2 cs where
  len_clusters := hc.len_clusters
  range := hc.range
  len_unary := hc.len_unary
  square := hc.square
  unary := fun c => by rw [hc.unary c, sameUpToOrder_aggregateUnary h]
  binary := fun a b ha hb => by
    rw [hc.binary a b ha hb, sameUpToOrder_aggregateBinary hwf h]

theorem consistent_unique {N K : Nat} {stats : CorpusStatistics} {cs1 cs2 : ClusterState}
    (h1 : Consistent N K stats cs1) (h2 : Consistent N K stats cs2)
    (hcl : cs2.clusters = cs1.clusters) : cs2 = cs1 := by
  apply clusterState_eq _ _ hcl
  · apply vec_ext _ _ (by rw [h1.len_unary, h2.len_unary])
    intro c _
    rw [h2.unary c, h1.unary c, hcl]
  · apply mat_ext _ _ h2.square h1.square
    intro a b ha hb
    rw [h2.binary a b ha hb, h1.binary a b ha hb, hcl]

theorem foldl_initWord_clusters (stats : CorpusStatistics) (l : List Nat) :
    ∀ cs : ClusterState, (l.foldl (initWord stats) cs).clusters = cs.clusters := by
  induction l with
  | nil => intro cs; rfl
  | cons w rest ih => intro cs; rw [List.foldl_cons, ih]; rfl

theorem initialState_clusters (stats : CorpusStatistics) (N K : Nat) (draw : Nat → Nat) :
    (initialState stats N K draw).clusters = (List.range N).map draw := by
  unfold initialState initClusterCount
  rw [foldl_initWord_clusters]
  rfl

theorem sameUpToOrder_initialState {N K : Nat} {s1 s2 : CorpusStatistics}
    (hwf : WellFormed N s1) (h : SameUpToOrder s1 s2) (draw : Nat → Nat)
    (hd : ∀ w, w < N → draw w < K) :
    initialState s2 N K draw = initialState s1 N K draw := by
  have h1 := (initialState_consistent hwf draw hd).1
  have h2 := (initialState_consistent (sameUpToOrder_wellFormed hwf h) draw hd).1
  exact consistent_unique (sameUpToOrder_consistent hwf h h1) h2
    (by rw [initialState_clusters, initialState_clusters])

theorem sameUpToOrder_profiles {N K : Nat} {s1 s2 : CorpusStatistics}
    (hwf : WellFormed N s1) (h : SameUpToOrder s1 s2) (cl : List Nat)
    (hcl : ∀ x, x < N → cl.getD x 0 < K) (w : Nat) (hw : w < N) :
    (gatherProfiles s2 cl K w).2 = (gatherProfiles s1 cl K w).2 := by
  obtain ⟨_, a2, a3, a4, a5⟩ := gatherProfiles_spec hwf cl hcl w hw
  obtain ⟨_, b2, b3, b4, b5⟩ :=
    gatherProfiles_spec (sameUpToOrder_wellFormed hwf h) cl hcl w hw
  apply Prod.ext
  · apply vec_ext _ _ (by rw [a2, b2])
    intro c _
    rw [b4 c, a4 c, sameUpToOrder_restPred hwf h, sameUpToOrder_successorCount hwf h]
  · apply vec_ext _ _ (by rw [a3, b3])
    intro c _
    rw [b5 c, a5 c, sameUpToOrder_restSucc hwf h, sameUpToOrder_successorCount hwf h]

theorem removeWord_congr (s1 s2 : CorpusStatistics) (cs : ClusterState) (K w : Nat)
    (pred succ : List Int) (h1 : s2.word_count = s1.word_count)
    (h2 : s2.double_word_count = s1.double_word_count) :
    removeWord s2 cs K w pred succ = removeWord s1 cs K w pred succ := by
  unfold removeWord
  rw [h1, h2]

theorem insertWord_congr (s1 s2 : CorpusStatistics) (cs : ClusterState) (K w : Nat)
    (pred succ : List Int) (k : Nat) (h1 : s2.word_count = s1.word_count)
    (h2 : s2.double_word_count = s1.double_word_count) :
    insertWord s2 cs K w pred succ k = insertWord s1 cs K w pred succ k := by
  unfold insertWord
  rw [h1, h2]

theorem perplexities_congr {α : Type} [Zero α] [Add α] [Sub α] [Mul α] [OfNat α 2]
    [LinearOrder α] (entropy : Int → α)
    (s1 s2 : CorpusStatistics) (cs : ClusterState) (K w : Nat)
    (pred succ : List Int) (h1 : s2.word_count = s1.word_count)
    (h2 : s2.double_word_count = s1.double_word_count) :
    perplexities entropy s2 cs K w pred succ = perplexities entropy s1 cs K w pred succ := by
  unfold perplexities candidateScore
  rw [h1, h2]

theorem totalPerplexity_congr {α : Type} [Zero α] [Add α] [Sub α] [Mul α] [OfNat α 2]
    [LinearOrder α] (entropy : Int → α)
    (s1 s2 : CorpusStatistics) (cs : ClusterState) (h1 : s2.word_count = s1.word_count) :
    totalPerplexity entropy s2 cs = totalPerplexity entropy s1 cs := by
  unfold totalPerplexity
  rw [h1]

theorem sameUpToOrder_gatherAndRemove {N K : Nat} {s1 s2 : CorpusStatistics}
    (hwf : WellFormed N s1) (h : SameUpToOrder s1 s2) {cs : ClusterState}
    (hc : Consistent N K s1 cs) (w : Nat) (hw : w < N) :
    (gatherAndRemove s2 cs K w).1 = s2
    ∧ (gatherAndRemove s1 cs K w).1 = s1
    ∧ (gatherAndRemove s2 cs K w).2 = (gatherAndRemove s1 cs K w).2 := by
  have hwf2 := sameUpToOrder_wellFormed hwf h
  have g1 := (gatherProfiles_spec hwf cs.clusters hc.range w hw).1
  have g2 := (gatherProfiles_spec hwf2 cs.clusters hc.range w hw).1
  have hp := sameUpToOrder_profiles hwf h cs.clusters hc.range w hw
  unfold gatherAndRemove
  simp only [g1, g2]
  refine ⟨trivial, trivial, ?_⟩
  rw [hp, removeWord_congr s1 s2 cs K w _ _ h.word_count h.double_word_count]

theorem sameUpToOrder_reassignWord {α : Type} [Zero α] [Add α] [Sub α] [Mul α] [OfNat α 2]
    [LinearOrder α] (entropy : Int → α)
    {N K : Nat} {s1 s2 : CorpusStatistics}
    (hwf : WellFormed N s1) (h : SameUpToOrder s1 s2) {cs : ClusterState}
    (hc : Consistent N K s1 cs) (w : Nat) (hw : w < N) :
    (reassignWord entropy K s2 cs w).2 = (reassignWord entropy K s1 cs w).2 := by
  obtain ⟨e2, e1, e⟩ := sameUpToOrder_gatherAndRemove hwf h hc w hw
  have hscores : wordScores entropy s2 cs K w = wordScores entropy s1 cs K w := by
    unfold wordScores
    simp only [e2, e1, e]
    exact perplexities_congr entropy s1 s2 _ K w _ _ h.word_count h.double_word_count
  unfold reassignWord assignedCluster
  rw [hscores]
  unfold moveWord
  simp only [e2, e1, e]
  rw [insertWord_congr s1 s2 _ K w _ _ _ h.word_count h.double_word_count]

theorem sameUpToOrder_reassignWords {α : Type} [Zero α] [Add α] [Sub α] [Mul α] [OfNat α 2]
    [LinearOrder α] (entropy : Int → α)
    {N K : Nat} {s1 s2 : CorpusStatistics}
    (hwf : WellFormed N s1) (h : SameUpToOrder s1 s2) (hK : 1 ≤ K)
    (words : List Nat) (hwords : ∀ w ∈ words, w < N) :
    ∀ (cs : ClusterState) (n : Nat), Consistent N K s1 cs →
      (reassignWords entropy K words (s2, cs, n)).2
        = (reassignWords entropy K words (s1, cs, n)).2 := by
  induction words with
  | nil => intro cs n _; rfl
  | cons w rest ih =>
    intro cs n hc
    have hw := hwords w (List.mem_cons_self _ _)
    have hwf2 := sameUpToOrder_wellFormed hwf h
    have hstep1 := reassignWord_spec entropy hwf hK hc w hw
    have hstep2 := reassignWord_spec entropy hwf2 hK (sameUpToOrder_consistent hwf h hc) w hw
    have heq := sameUpToOrder_reassignWord entropy hwf h hc w hw
    have hrest := ih (fun x hx => hwords x (List.mem_cons_of_mem _ hx))
      (reassignWord entropy K s1 cs w).2.1
      (if (reassignWord entropy K s1 cs w).2.2 then n + 1 else n) hstep1.2
    unfold reassignWords at hrest ⊢
    rw [List.foldl_cons, List.foldl_cons]
    simp only [hstep1.1, hstep2.1, heq]
    exact hrest

theorem sameUpToOrder_optimizeLoop {α : Type} [Zero α] [Add α] [Sub α] [Mul α] [OfNat α 2]
    [LinearOrder α] (entropy : Int → α)
    {N K : Nat} {s1 s2 : CorpusStatistics}
    (hwf : WellFormed N s1) (h : SameUpToOrder s1 s2) (hK : 1 ≤ K) (E : Nat) :
    ∀ cs : ClusterState, Consistent N K s1 cs →
      (optimizeLoop entropy N K E s2 cs).2 = (optimizeLoop entropy N K E s1 cs).2 := by
  induction E with
  | zero => intro cs _; rfl
  | succ e ih =>
    intro cs hc
    have hwf2 := sameUpToOrder_wellFormed hwf h
    have hr1 := runEpoch_spec entropy hwf hK hc
    have hr2 := runEpoch_spec entropy hwf2 hK (sameUpToOrder_consistent hwf h hc)
    have heq : (runEpoch entropy N K s2 cs).2 = (runEpoch entropy N K s1 cs).2 :=
      sameUpToOrder_reassignWords entropy hwf h hK (List.range N)
        (fun w hw => List.mem_range.1 hw) cs 0 hc
    have hrest := ih _ hr1.2
    rw [optimizeLoop, optimizeLoop]
    simp only [hr1.1, hr2.1, heq,
      totalPerplexity_congr entropy s1 s2 _ h.word_count]
    split
    · rfl
    · simp only [hrest]

/-- C20: for well-formed corpus statistics `s1` and any statistics `s2` that
enumerate the entries of each successor map and of each predecessor list in
another order, the initial `unary_count` and `binary_count` of every in-range
assignment are the same, the step-1 profile vectors of every word under every
in-range assignment are the same, and the optimizer reaches the same final
cluster state with the same reports; so the final assignment does not depend
on the iteration order of the hash maps. -/
theorem enumeration_order_is_irrelevant {α : Type} [Zero α] [Add α] [Sub α] [Mul α]
    [OfNat α 2] [LinearOrder α] (entropy : Int → α) (num_words num_clusters : Nat)
    (s1 s2 : CorpusStatistics)
    (hwf : WellFormed num_words s1) (hperm : SameUpToOrder s1 s2) (hK : 1 ≤ num_clusters)
    (draw : Nat → Nat) (hd : ∀ w, w < num_words → draw w < num_clusters) :
    initialState s2 num_words num_clusters draw = initialState s1 num_words num_clusters draw
    ∧ (∀ (clusters : List Nat), (∀ x, x < num_words → clusters.getD x 0 < num_clusters) →
        ∀ w, w < num_words →
          (gatherProfiles s2 clusters num_clusters w).2
            = (gatherProfiles s1 clusters num_clusters w).2)
    ∧ (∀ num_epochs,
        (optimizeLoop entropy num_words num_clusters num_epochs s2
          (initialState s2 num_words num_clusters draw)).2
        = (optimizeLoop entropy num_words num_clusters num_epochs s1
          (initialState s1 num_words num_clusters draw)).2) := by
  have hinit := sameUpToOrder_initialState hwf hperm draw hd
  refine ⟨hinit, ?_, ?_⟩
  · intro clusters hcl w hw
    exact sameUpToOrder_profiles hwf hperm clusters hcl w hw
  · intro num_epochs
    rw [hinit]
    exact sameUpToOrder_optimizeLoop entropy hwf hperm hK num_epochs _
      (initialState_consistent hwf draw hd).1

/-- Instance of `enumeration_order_is_irrelevant`: the statistics of the stream
`[0,0,0,2,2,1,0,0]` and a copy in which `successors[0]`, `successors[2]` and
`predecessors[0]` are enumerated in the opposite order. -/
theorem enumeration_order_is_irrelevant_witness :
    WellFormed 3 (buildStatistics 3 [0, 0, 0, 2, 2, 1, 0, 0])
    ∧ SameUpToOrder (buildStatistics 3 [0, 0, 0, 2, 2, 1, 0, 0])
        { word_count := [5, 1, 2], double_word_count := [3, 0, 1],
          successors := [[(2, 1), (0, 3)], [(0, 1)], [(1, 1), (2, 1)]],
          predecessors := [[1, 0], [2], [0, 2]] }
    ∧ 1 ≤ 2 ∧ (∀ w, w < 3 → w % 2 < 2)
    ∧ initialState
        { word_count := [5, 1, 2], double_word_count := [3, 0, 1],
          successors := [[(2, 1), (0, 3)], [(0, 1)], [(1, 1), (2, 1)]],
          predecessors := [[1, 0], [2], [0, 2]] } 3 2 (fun w => w % 2)
      = initialState (buildStatistics 3 [0, 0, 0, 2, 2, 1, 0, 0]) 3 2 (fun w => w % 2) :=
  have hperm : SameUpToOrder (buildStatistics 3 [0, 0, 0, 2, 2, 1, 0, 0])
      { word_count := [5, 1, 2], double_word_count := [3, 0, 1],
        successors := [[(2, 1), (0, 3)], [(0, 1)], [(1, 1), (2, 1)]],
        predecessors := [[1, 0], [2], [0, 2]] } :=
    { word_count := by decide
      double_word_count := by decide
      len_succ := by decide
      len_pred := by decide
      successors := fun w =>
        match w with
        | 0 => by decide
        | 1 => by decide
        | 2 => by decide
        | _ + 3 => List.Perm.refl _
      predecessors := fun w =>
        match w with
        | 0 => by decide
        | 1 => by decide
        | 2 => by decide
        | _ + 3 => List.Perm.refl _ }
  ⟨wellFormed_buildStatistics 3 [0, 0, 0, 2, 2, 1, 0, 0] (by decide), hperm, by decide,
    fun w _ => Nat.mod_lt w (by decide),
    (enumeration_order_is_irrelevant (fun n : Int => n * n) 3 2
      (buildStatistics 3 [0, 0, 0, 2, 2, 1, 0, 0]) _
      (wellFormed_buildStatistics 3 [0, 0, 0, 2, 2, 1, 0, 0] (by decide)) hperm (by decide)
      (fun w => w % 2) (fun w _ => Nat.mod_lt w (by decide))).1⟩

theorem foldlC_eq_some {σ β : Type} (f : σ → β → Option σ) (g : σ → β → σ) (P : σ → Prop)
    (l : List β) (h : ∀ s x, x ∈ l → P s → f s x = some (g s x) ∧ P (g s x)) :
    ∀ s, P s → foldlC f s l = some (l.foldl g s) ∧ P (l.foldl g s) := by
  induction l with
  | nil => intro s hs; exact ⟨rfl, hs⟩
  | cons x rest ih =>
    intro s hs
    obtain ⟨h1, h2⟩ := h s x (List.mem_cons_self _ _) hs
    rw [foldlC, h1, List.foldl_cons]
    exact ih (fun s y hy hp => h s y (List.mem_cons_of_mem _ hy) hp) _ h2

theorem mapC_eq_some {β γ : Type} (f : β → Option γ) (g : β → γ) (l : List β)
    (h : ∀ x ∈ l, f x = some (g x)) : mapC f l = some (l.map g) := by
  induction l with
  | nil => rfl
  | cons x rest ih =>
    rw [mapC, h x (List.mem_cons_self _ _), ih (fun y hy => h y (List.mem_cons_of_mem _ hy))]
    rfl

theorem getElem?_eq_some_getD {β : Type} (l : List β) (i : Nat) (d : β) (h : i < l.length) :
    l[i]? = some (l.getD i d) := by
  rw [List.getD_eq_getElem _ _ h, List.getElem?_eq_getElem h]

theorem vaddC_eq_some (v : List Int) (i : Nat) (d : Int) (h : i < v.length) :
    vaddC v i d = some (vadd v i d) := by
  unfold vaddC
  rw [if_pos h]

theorem mgetC_eq_some {K : Nat} (m : List (List Int)) (hm : Square K m) (i j : Nat)
    (hi : i < K) (hj : j < K) : mgetC m i j = some (mget m i j) := by
  unfold mgetC mget vget
  rw [getElem?_eq_some_getD m i [] (by rw [hm.1]; exact hi)]
  exact getElem?_eq_some_getD _ j 0 (by rw [hm.2 i hi]; exact hj)

theorem maddC_eq_some {K : Nat} (m : List (List Int)) (hm : Square K m) (i j : Nat) (d : Int)
    (hi : i < K) (hj : j < K) : maddC m i j d = some (madd m i j d) := by
  unfold maddC
  rw [getElem?_eq_some_getD m i [] (by rw [hm.1]; exact hi)]
  simp only []
  rw [if_pos (by rw [hm.2 i hi]; exact hj)]

theorem gatherProfilesC_eq_some {N K : Nat} {stats : CorpusStatistics}
    (hwf : WellFormed N stats) (cl : List Nat) (hlen : cl.length = N)
    (hcl : ∀ x, x < N → cl.getD x 0 < K) (w : Nat) (hw : w < N) :
    gatherProfilesC stats cl K w = some (gatherProfiles stats cl K w).2 := by
  have hpl : ∀ p ∈ stats.predecessors.getD w [], w ∈ mapKeys (stats.successors.getD p []) :=
    fun p hp => (hwf.preds w p).1 hp
  have hplt : ∀ p ∈ stats.predecessors.getD w [], p < N := fun p hp => by
    have := mem_keys_lt_length _ _ _ (hpl p hp)
    rw [hwf.len_succ] at this
    exact this
  have hfold := foldl_gatherPredecessor cl w stats.successors _ hpl (List.replicate K 0)
  have h1 := foldlC_eq_some (gatherPredecessorC cl w stats.successors)
    (fun a p => vadd a (cl.getD p 0) ((mapFind (stats.successors.getD p []) w).getD 0))
    (fun a => a.length = K) (stats.predecessors.getD w [])
    (by
      intro s p hp hs
      have hpN := hplt p hp
      refine ⟨?_, by beta_reduce; rw [vadd_length]; exact hs⟩
      beta_reduce
      unfold gatherPredecessorC
      rw [getElem?_eq_some_getD cl p 0 (by rw [hlen]; exact hpN),
        getElem?_eq_some_getD stats.successors p [] (by rw [hwf.len_succ]; exact hpN)]
      cases hf : mapFind (stats.successors.getD p []) w with
      | none => exact absurd (hpl p hp) ((mapFind_eq_none_iff _ _).1 hf)
      | some v =>
        simp only [Option.bind_eq_bind, Option.some_bind, Option.getD_some, hf]
        exact vaddC_eq_some _ _ _ (by rw [hs]; exact hcl p hpN))
    (List.replicate K 0) (by simp)
  have h2 := foldlC_eq_some
    (fun acc (entry : Nat × Int) => do
      let c ← cl[entry.1]?
      vaddC acc c entry.2)
    (fun acc entry => vadd acc (cl.getD entry.1 0) entry.2)
    (fun a => a.length = K) (stats.successors.getD w [])
    (by
      intro s e he hs
      have heN : e.1 < N := hwf.key_range w e.1 (List.mem_map.2 ⟨e, he, rfl⟩)
      refine ⟨?_, by beta_reduce; rw [vadd_length]; exact hs⟩
      beta_reduce
      rw [getElem?_eq_some_getD cl e.1 0 (by rw [hlen]; exact heN)]
      simp only [Option.bind_eq_bind, Option.some_bind]
      exact vaddC_eq_some _ _ _ (by rw [hs]; exact hcl e.1 heN))
    (List.replicate K 0) (by simp)
  have h2b := h2.1
  simp only [Option.bind_eq_bind] at h2b
  unfold gatherProfilesC gatherProfiles
  rw [getElem?_eq_some_getD stats.predecessors w [] (by rw [hwf.len_pred]; exact hw),
    getElem?_eq_some_getD stats.successors w [] (by rw [hwf.len_succ]; exact hw)]
  simp only [Option.bind_eq_bind, Option.some_bind, h1.1, h2b, hfold]
  rfl

theorem crossUpdate_step_square {K : Nat} (k : Nat) (f g : Nat → Int) (m : List (List Int))
    (hm : Square K m) (c : Nat) : Square K (crossUpdate k f g m c) := by
  unfold crossUpdate
  split
  · exact madd_square (madd_square hm _ _ _) _ _ _
  · exact hm

theorem removeFromRowC_eq_some {K : Nat} (old : Nat) (pred succ : List Int)
    (m : List (List Int)) (c : Nat) (hm : Square K m) (hold : old < K) (hc : c < K)
    (hp : pred.length = K) (hs : succ.length = K) :
    removeFromRowC old pred succ m c = some (removeFromRow old pred succ m c) := by
  unfold removeFromRowC removeFromRow
  by_cases e : c ≠ old
  · rw [if_pos e, if_pos e, getElem?_eq_some_getD pred c 0 (by rw [hp]; exact hc),
      getElem?_eq_some_getD succ c 0 (by rw [hs]; exact hc)]
    simp only [Option.bind_eq_bind, Option.some_bind]
    rw [maddC_eq_some m hm c old _ hc hold]
    simp only [Option.some_bind]
    rw [maddC_eq_some _ (madd_square hm _ _ _) old c _ hold hc]
    rfl
  · rw [if_neg e, if_neg e]

theorem insertIntoRowC_eq_some {K : Nat} (k : Nat) (pred succ : List Int)
    (m : List (List Int)) (c : Nat) (hm : Square K m) (hk : k < K) (hc : c < K)
    (hp : pred.length = K) (hs : succ.length = K) :
    insertIntoRowC k pred succ m c = some (insertIntoRow k pred succ m c) := by
  unfold insertIntoRowC insertIntoRow
  by_cases e : c ≠ k
  · rw [if_pos e, if_pos e, getElem?_eq_some_getD pred c 0 (by rw [hp]; exact hc),
      getElem?_eq_some_getD succ c 0 (by rw [hs]; exact hc)]
    simp only [Option.bind_eq_bind, Option.some_bind]
    rw [maddC_eq_some m hm c k _ hc hk]
    simp only [Option.some_bind]
    rw [maddC_eq_some _ (madd_square hm _ _ _) k c _ hk hc]
    rfl
  · rw [if_neg e, if_neg e]

theorem foldlC_removeFromRowC {K : Nat} (old : Nat) (pred succ : List Int)
    (m : List (List Int)) (hm : Square K m) (hold : old < K)
    (hp : pred.length = K) (hs : succ.length = K) :
    foldlC (removeFromRowC old pred succ) m (List.range K)
      = some ((List.range K).foldl (removeFromRow old pred succ) m)
    ∧ Square K ((List.range K).foldl (removeFromRow old pred succ) m) :=
  foldlC_eq_some _ _ (Square K) (List.range K)
    (fun s c hc hsq =>
      ⟨removeFromRowC_eq_some old pred succ s c hsq hold (List.mem_range.1 hc) hp hs, by
        rw [removeFromRow_eq]; exact crossUpdate_step_square _ _ _ _ hsq _⟩) m hm

theorem foldlC_insertIntoRowC {K : Nat} (k : Nat) (pred succ : List Int)
    (m : List (List Int)) (hm : Square K m) (hk : k < K)
    (hp : pred.length = K) (hs : succ.length = K) :
    foldlC (insertIntoRowC k pred succ) m (List.range K)
      = some ((List.range K).foldl (insertIntoRow k pred succ) m)
    ∧ Square K ((List.range K).foldl (insertIntoRow k pred succ) m) :=
  foldlC_eq_some _ _ (Square K) (List.range K)
    (fun s c hc hsq =>
      ⟨insertIntoRowC_eq_some k pred succ s c hsq hk (List.mem_range.1 hc) hp hs, by
        rw [insertIntoRow_eq]; exact crossUpdate_step_square _ _ _ _ hsq _⟩) m hm

theorem removeWordC_eq_some {N K : Nat} (stats : CorpusStatistics) (cs : ClusterState)
    (w : Nat) (pred succ : List Int) (hw : w < N)
    (hwc : stats.word_count.length = N) (hdwc : stats.double_word_count.length = N)
    (hcl : cs.clusters.length = N) (hold : cs.clusters.getD w 0 < K)
    (hu : cs.unary_cluster_count.length = K) (hsq : Square K cs.binary_cluster_count)
    (hp : pred.length = K) (hs : succ.length = K) :
    removeWordC stats cs K w pred succ = some (removeWord stats cs K w pred succ) := by
  obtain ⟨hf, hfsq⟩ := foldlC_removeFromRowC (cs.clusters.getD w 0) pred succ
    cs.binary_cluster_count hsq hold hp hs
  have e1 := getElem?_eq_some_getD cs.clusters w 0 (by rw [hcl]; exact hw)
  have e2 := getElem?_eq_some_getD stats.word_count w 0 (by rw [hwc]; exact hw)
  have e3 := getElem?_eq_some_getD stats.double_word_count w 0 (by rw [hdwc]; exact hw)
  have e4 := getElem?_eq_some_getD pred (cs.clusters.getD w 0) 0 (by rw [hp]; exact hold)
  have e5 := getElem?_eq_some_getD succ (cs.clusters.getD w 0) 0 (by rw [hs]; exact hold)
  have v1 : ∀ d, vaddC cs.unary_cluster_count (cs.clusters.getD w 0) d
      = some (vadd cs.unary_cluster_count (cs.clusters.getD w 0) d) :=
    fun d => vaddC_eq_some _ _ d (by rw [hu]; exact hold)
  have v2 : ∀ d, vaddC pred (cs.clusters.getD w 0) d
      = some (vadd pred (cs.clusters.getD w 0) d) :=
    fun d => vaddC_eq_some _ _ d (by rw [hp]; exact hold)
  have v3 : ∀ d, vaddC succ (cs.clusters.getD w 0) d
      = some (vadd succ (cs.clusters.getD w 0) d) :=
    fun d => vaddC_eq_some _ _ d (by rw [hs]; exact hold)
  have m1 : ∀ d, maddC ((List.range K).foldl (removeFromRow (cs.clusters.getD w 0) pred succ)
        cs.binary_cluster_count) (cs.clusters.getD w 0) (cs.clusters.getD w 0) d
      = some (madd ((List.range K).foldl (removeFromRow (cs.clusters.getD w 0) pred succ)
        cs.binary_cluster_count) (cs.clusters.getD w 0) (cs.clusters.getD w 0) d) :=
    fun d => maddC_eq_some _ hfsq _ _ d hold hold
  unfold removeWordC removeWord
  simp only [Option.bind_eq_bind, Option.some_bind, e1, e2, e3, e4, e5, hf, v1, v2, v3, m1]
  rfl

theorem insertWordC_eq_some {N K : Nat} (stats : CorpusStatistics) (cs : ClusterState)
    (w : Nat) (pred succ : List Int) (k : Nat) (hw : w < N) (hk : k < K)
    (hwc : stats.word_count.length = N) (hdwc : stats.double_word_count.length = N)
    (hu : cs.unary_cluster_count.length = K) (hsq : Square K cs.binary_cluster_count)
    (hp : pred.length = K) (hs : succ.length = K) :
    insertWordC stats cs K w pred succ k = some (insertWord stats cs K w pred succ k) := by
  obtain ⟨hf, hfsq⟩ := foldlC_insertIntoRowC k pred succ cs.binary_cluster_count hsq hk hp hs
  have e2 := getElem?_eq_some_getD stats.word_count w 0 (by rw [hwc]; exact hw)
  have e3 := getElem?_eq_some_getD stats.double_word_count w 0 (by rw [hdwc]; exact hw)
  have e4 := getElem?_eq_some_getD pred k 0 (by rw [hp]; exact hk)
  have e5 := getElem?_eq_some_getD succ k 0 (by rw [hs]; exact hk)
  have v1 : ∀ d, vaddC cs.unary_cluster_count k d = some (vadd cs.unary_cluster_count k d) :=
    fun d => vaddC_eq_some _ _ d (by rw [hu]; exact hk)
  have m1 : ∀ d, maddC ((List.range K).foldl (insertIntoRow k pred succ)
        cs.binary_cluster_count) k k d
      = some (madd ((List.range K).foldl (insertIntoRow k pred succ)
        cs.binary_cluster_count) k k d) :=
    fun d => maddC_eq_some _ hfsq _ _ d hk hk
  unfold insertWordC insertWord
  simp only [Option.bind_eq_bind, Option.some_bind, e2, e3, e4, e5, hf, v1, m1]
  rfl

theorem recordAssignmentC_eq_some (cs : ClusterState) (w k : Nat)
    (hw : w < cs.clusters.length) :
    recordAssignmentC cs w k = some (recordAssignment cs w k) := by
  unfold recordAssignmentC recordAssignment
  rw [getElem?_eq_some_getD cs.clusters w 0 hw]
  simp only [Option.bind_eq_bind, Option.some_bind]
  split <;> rfl

theorem scoreTermC_eq_some {α : Type} [Zero α] [Add α] [Sub α] [Mul α] [OfNat α 2]
    [LinearOrder α] (entropy : Int → α) {K : Nat}
    (binary : List (List Int)) (pred succ : List Int) (k : Nat) (p : α) (c : Nat)
    (hsq : Square K binary) (hk : k < K) (hc : c < K)
    (hp : pred.length = K) (hs : succ.length = K) :
    scoreTermC entropy binary pred succ k p c = some (scoreTerm entropy binary pred succ k p c) := by
  unfold scoreTermC scoreTerm
  by_cases e : c ≠ k
  · rw [if_pos e, if_pos e]
    simp only [Option.bind_eq_bind, Option.some_bind, mgetC_eq_some binary hsq c k hc hk,
      mgetC_eq_some binary hsq k c hk hc,
      getElem?_eq_some_getD pred c 0 (by rw [hp]; exact hc),
      getElem?_eq_some_getD succ c 0 (by rw [hs]; exact hc)]
    rfl
  · rw [if_neg e, if_neg e]

theorem candidateScoreC_eq_some {α : Type} [Zero α] [Add α] [Sub α] [Mul α] [OfNat α 2]
    [LinearOrder α] (entropy : Int → α)
    {N K : Nat} (stats : CorpusStatistics) (cs : ClusterState) (w : Nat)
    (pred succ : List Int) (k : Nat) (hw : w < N) (hk : k < K)
    (hwc : stats.word_count.length = N) (hdwc : stats.double_word_count.length = N)
    (hu : cs.unary_cluster_count.length = K) (hsq : Square K cs.binary_cluster_count)
    (hp : pred.length = K) (hs : succ.length = K) :
    candidateScoreC entropy stats cs K w pred succ k
      = some (candidateScore entropy stats cs K w pred succ k) := by
  have hf := (foldlC_eq_some (scoreTermC entropy cs.binary_cluster_count pred succ k)
    (scoreTerm entropy cs.binary_cluster_count pred succ k) (fun _ => True) (List.range K)
    (fun s c hc _ =>
      ⟨scoreTermC_eq_some entropy _ pred succ k s c hsq hk (List.mem_range.1 hc) hp hs,
        trivial⟩) 0 trivial).1
  unfold candidateScoreC candidateScore
  simp only [Option.bind_eq_bind, Option.some_bind, hf,
    mgetC_eq_some cs.binary_cluster_count hsq k k hk hk,
    getElem?_eq_some_getD cs.unary_cluster_count k 0 (by rw [hu]; exact hk),
    getElem?_eq_some_getD stats.word_count w 0 (by rw [hwc]; exact hw),
    getElem?_eq_some_getD stats.double_word_count w 0 (by rw [hdwc]; exact hw),
    getElem?_eq_some_getD pred k 0 (by rw [hp]; exact hk),
    getElem?_eq_some_getD succ k 0 (by rw [hs]; exact hk)]
  rfl

theorem perplexitiesC_eq_some {α : Type} [Zero α] [Add α] [Sub α] [Mul α] [OfNat α 2]
    [LinearOrder α] (entropy : Int → α)
    {N K : Nat} (stats : CorpusStatistics) (cs : ClusterState) (w : Nat)
    (pred succ : List Int) (hw : w < N)
    (hwc : stats.word_count.length = N) (hdwc : stats.double_word_count.length = N)
    (hu : cs.unary_cluster_count.length = K) (hsq : Square K cs.binary_cluster_count)
    (hp : pred.length = K) (hs : succ.length = K) :
    perplexitiesC entropy stats cs K w pred succ
      = some (perplexities entropy stats cs K w pred succ) := by
  unfold perplexitiesC perplexities
  exact mapC_eq_some _ _ _ (fun k hk =>
    candidateScoreC_eq_some entropy stats cs w pred succ k hw (List.mem_range.1 hk)
      hwc hdwc hu hsq hp hs)

theorem reassignWordC_eq_some {α : Type} [Zero α] [Add α] [Sub α] [Mul α] [OfNat α 2]
    [LinearOrder α] (entropy : Int → α)
    {N K : Nat} {stats : CorpusStatistics} (hwf : WellFormed N stats) (hK : 1 ≤ K)
    {cs : ClusterState} (hc : Consistent N K stats cs) (w : Nat) (hw : w < N) :
    reassignWordC entropy K stats cs w = some (reassignWord entropy K stats cs w).2 := by
  obtain ⟨hg1, hg2, hg3, _, _⟩ := gatherProfiles_spec hwf cs.clusters hc.range w hw
  obtain ⟨hr1, _, hr⟩ := gatherAndRemove_spec hwf hc w hw
  have hgar : gatherAndRemove stats cs K w
      = (stats, removeWord stats cs K w (gatherProfiles stats cs.clusters K w).2.1
          (gatherProfiles stats cs.clusters K w).2.2) := by
    unfold gatherAndRemove
    simp only [hg1]
  rw [hgar] at hr
  simp only at hr
  have hscores : wordScores entropy stats cs K w
      = perplexities entropy stats
          (removeWord stats cs K w (gatherProfiles stats cs.clusters K w).2.1
            (gatherProfiles stats cs.clusters K w).2.2).1 K w
          (removeWord stats cs K w (gatherProfiles stats cs.clusters K w).2.1
            (gatherProfiles stats cs.clusters K w).2.2).2.1
          (removeWord stats cs K w (gatherProfiles stats cs.clusters K w).2.1
            (gatherProfiles stats cs.clusters K w).2.2).2.2 := by
    unfold wordScores
    rw [hgar]
  have hne : (wordScores entropy stats cs K w).isEmpty = false := by
    have := wordScores_ne_nil entropy stats cs K w hK
    cases hl : wordScores entropy stats cs K w with
    | nil => exact absurd hl this
    | cons x rest => rfl
  have ha := assignedCluster_lt entropy stats cs K w hK
  unfold assignedCluster at ha
  have e1 := gatherProfilesC_eq_some hwf cs.clusters hc.len_clusters hc.range w hw
  have e2 := removeWordC_eq_some stats cs w (gatherProfiles stats cs.clusters K w).2.1
    (gatherProfiles stats cs.clusters K w).2.2 hw hwf.len_wc hwf.len_dwc hc.len_clusters
    (hc.range w hw) hc.len_unary hc.square hg2 hg3
  have e3 := perplexitiesC_eq_some entropy stats _ w _ _ hw hwf.len_wc hwf.len_dwc
    hr.len_unary hr.square hr.len_pred hr.len_succ
  have e4 := insertWordC_eq_some stats _ w _ _ (max_element (wordScores entropy stats cs K w))
    hw ha hwf.len_wc hwf.len_dwc hr.len_unary hr.square hr.len_pred hr.len_succ
  have e5 := recordAssignmentC_eq_some
    (insertWord stats
      (removeWord stats cs K w (gatherProfiles stats cs.clusters K w).2.1
        (gatherProfiles stats cs.clusters K w).2.2).1 K w
      (removeWord stats cs K w (gatherProfiles stats cs.clusters K w).2.1
        (gatherProfiles stats cs.clusters K w).2.2).2.1
      (removeWord stats cs K w (gatherProfiles stats cs.clusters K w).2.1
        (gatherProfiles stats cs.clusters K w).2.2).2.2
      (max_element (wordScores entropy stats cs K w))) w
    (max_element (wordScores entropy stats cs K w))
    (by
      show cs.clusters.length > w
      rw [hc.len_clusters]; exact hw)
  unfold reassignWordC
  simp only [Option.bind_eq_bind, Option.some_bind, e1, e2, e3, ← hscores, hne,
    Bool.false_eq_true, if_false, e4, e5]
  unfold reassignWord moveWord assignedCluster
  rw [hgar]

/-- C15: for an in-range stream, at least one cluster and an in-range initial
assignment, at every word boundary of the run the statistics are still those
built from the stream, and the reassignment step of every word, run with every
index into `clusters`, `word_count`, `double_word_count`, `predecessors`,
`successors`, the cluster counts and the two profile vectors checked, with
every lookup `successors[predecessor][word]` required to find its key and the
score vector required to be non-empty, does not fail: it returns the result of
the unchecked step, which leaves the statistics untouched and selects a valid
cluster index. -/
theorem optimizer_step_never_fails {α : Type} [Zero α] [Add α] [Sub α] [Mul α] [OfNat α 2]
    [LinearOrder α] (entropy : Int → α)
    (num_words num_clusters : Nat) (stream : List Nat) (draw : Nat → Nat)
    (hs : ∀ x ∈ stream, x < num_words) (hK : 1 ≤ num_clusters)
    (hd : ∀ w, w < num_words → draw w < num_clusters) :
    ∀ epochs done, done ≤ num_words →
      (wordBoundary entropy num_words num_clusters (buildStatistics num_words stream)
        (initialState (buildStatistics num_words stream) num_words num_clusters draw)
        epochs done).1 = buildStatistics num_words stream
      ∧ ∀ w, w < num_words →
        reassignWordC entropy num_clusters (buildStatistics num_words stream)
            (wordBoundary entropy num_words num_clusters (buildStatistics num_words stream)
              (initialState (buildStatistics num_words stream) num_words num_clusters draw)
              epochs done).2.1 w
          = some (reassignWord entropy num_clusters (buildStatistics num_words stream)
              (wordBoundary entropy num_words num_clusters (buildStatistics num_words stream)
                (initialState (buildStatistics num_words stream) num_words num_clusters draw)
                epochs done).2.1 w).2
        ∧ (reassignWord entropy num_clusters (buildStatistics num_words stream)
            (wordBoundary entropy num_words num_clusters (buildStatistics num_words stream)
              (initialState (buildStatistics num_words stream) num_words num_clusters draw)
              epochs done).2.1 w).1 = buildStatistics num_words stream
        ∧ wordScores entropy (buildStatistics num_words stream)
            (wordBoundary entropy num_words num_clusters (buildStatistics num_words stream)
              (initialState (buildStatistics num_words stream) num_words num_clusters draw)
              epochs done).2.1 num_clusters w ≠ []
        ∧ assignedCluster entropy (buildStatistics num_words stream)
            (wordBoundary entropy num_words num_clusters (buildStatistics num_words stream)
              (initialState (buildStatistics num_words stream) num_words num_clusters draw)
              epochs done).2.1 num_clusters w < num_clusters := by
  have hwf := wellFormed_buildStatistics num_words stream hs
  have hinit := (initialState_consistent hwf draw hd).1
  intro epochs done hdone
  have h := wordBoundary_spec entropy hwf hK epochs done hdone _ hinit
  refine ⟨h.1, ?_⟩
  intro w hw
  exact ⟨reassignWordC_eq_some entropy hwf hK h.2 w hw,
    (reassignWord_spec entropy hwf hK h.2 w hw).1,
    wordScores_ne_nil entropy _ _ _ w hK,
    assignedCluster_lt entropy _ _ _ w hK⟩

/-- Instance of `optimizer_step_never_fails`: the stream `[0,0,0,2,2,1,0,0]`
with two clusters, the step of word `1` after one complete epoch and one more
reassignment step. -/
theorem optimizer_step_never_fails_witness :
    (∀ x ∈ [0, 0, 0, 2, 2, 1, 0, 0], x < 3) ∧ 1 ≤ 2 ∧ (∀ w, w < 3 → w % 2 < 2)
    ∧ reassignWordC (fun n : Int => n * n) 2 (buildStatistics 3 [0, 0, 0, 2, 2, 1, 0, 0])
        (wordBoundary (fun n : Int => n * n) 3 2 (buildStatistics 3 [0, 0, 0, 2, 2, 1, 0, 0])
          (initialState (buildStatistics 3 [0, 0, 0, 2, 2, 1, 0, 0]) 3 2 (fun w => w % 2))
          1 1).2.1 1
      = some (reassignWord (fun n : Int => n * n) 2
          (buildStatistics 3 [0, 0, 0, 2, 2, 1, 0, 0])
          (wordBoundary (fun n : Int => n * n) 3 2
            (buildStatistics 3 [0, 0, 0, 2, 2, 1, 0, 0])
            (initialState (buildStatistics 3 [0, 0, 0, 2, 2, 1, 0, 0]) 3 2 (fun w => w % 2))
            1 1).2.1 1).2 :=
  ⟨by decide, by decide, fun w _ => Nat.mod_lt w (by decide),
    ((optimizer_step_never_fails (fun n : Int => n * n) 3 2 [0, 0, 0, 2, 2, 1, 0, 0]
      (fun w => w % 2) (by decide) (by decide)
      (fun w _ => Nat.mod_lt w (by decide)) 1 1 (by decide)).2 1 (by decide)).1⟩

theorem roundShift_zero (n : Nat) : roundShift n 0 = n := by
  unfold roundShift
  simp [Nat.mod_one]

theorem roundShift_nearest (n k : Nat) :
    2 * (roundShift n k * 2 ^ k) ≤ 2 * n + 2 ^ k
    ∧ 2 * n ≤ 2 * (roundShift n k * 2 ^ k) + 2 ^ k := by
  have hr : n % 2 ^ k < 2 ^ k := Nat.mod_lt n (Nat.two_pow_pos k)
  have hn : n = n / 2 ^ k * 2 ^ k + n % 2 ^ k := by
    rw [Nat.mul_comm]; exact (Nat.div_add_mod n (2 ^ k)).symm
  have hs : (n / 2 ^ k + 1) * 2 ^ k = n / 2 ^ k * 2 ^ k + 2 ^ k := Nat.succ_mul _ _
  unfold roundShift
  dsimp only
  split_ifs <;> (try rw [hs]) <;> omega

theorem roundShift_exact (q k : Nat) : roundShift (q * 2 ^ k) k = q := by
  unfold roundShift
  have hp : 0 < 2 ^ k := Nat.two_pow_pos k
  simp [Nat.mul_mod_left, Nat.mul_div_cancel _ hp, hp]

theorem excessBitsAux_spec (fuel : Nat) :
    ∀ n, n ≤ fuel →
      n < 2 ^ (24 + Binary32.excessBitsAux fuel n)
      ∧ (0 < Binary32.excessBitsAux fuel n → 2 ^ (23 + Binary32.excessBitsAux fuel n) ≤ n) := by
  induction fuel with
  | zero =>
    intro n hn
    have : n = 0 := by omega
    subst this
    exact ⟨by simp [Binary32.excessBitsAux], by simp [Binary32.excessBitsAux]⟩
  | succ fuel ih =>
    intro n hn
    unfold Binary32.excessBitsAux
    by_cases h : n < 2 ^ 24
    · rw [if_pos h]
      exact ⟨by simpa using h, by simp⟩
    · rw [if_neg h]
      have h24 : (2 : Nat) ^ 24 = 16777216 := by norm_num
      have hhalf : n / 2 ≤ fuel := by omega
      obtain ⟨h1, h2⟩ := ih (n / 2) hhalf
      generalize Binary32.excessBitsAux fuel (n / 2) = e at h1 h2
      refine ⟨?_, fun _ => ?_⟩
      · have : 2 ^ (24 + (e + 1)) = 2 * 2 ^ (24 + e) := by
          rw [← Nat.add_assoc, Nat.pow_succ, Nat.mul_comm]
        omega
      · by_cases he : 0 < e
        · have h3 := h2 he
          have : 2 ^ (23 + (e + 1)) = 2 * 2 ^ (23 + e) := by
            rw [← Nat.add_assoc, Nat.pow_succ, Nat.mul_comm]
          omega
        · have he0 : e = 0 := by omega
          subst he0
          have : (2 : Nat) ^ (23 + (0 + 1)) = 16777216 := by norm_num
          omega

theorem excessBits_spec (n : Nat) :
    n < 2 ^ (24 + Binary32.excessBits n)
    ∧ (0 < Binary32.excessBits n → 2 ^ (23 + Binary32.excessBits n) ≤ n) :=
  excessBitsAux_spec n n (Nat.le_refl n)

theorem round_of_small (x : Int) (h : x.natAbs < 2 ^ 24) : Binary32.round x = { units := x } := by
  have he : Binary32.excessBits x.natAbs = 0 := by
    unfold Binary32.excessBits
    cases hx : x.natAbs with
    | zero => rfl
    | succ m =>
      unfold Binary32.excessBitsAux
      rw [if_pos (by rw [← hx]; exact h)]
  unfold Binary32.round
  simp only [he, roundShift_zero, Nat.pow_zero, Nat.mul_one]
  congr 1
  split_ifs with hneg
  · omega
  · omega

end Bigram
